import Mathlib

/-!
Validation engine of `tikv/client-validator`.

A shallow embedding of the Go package `validator` (files `conf.go`,
`context.go`, `runner.go`, `report.go`) together with theorems about the
scheduler, the execution boundary and the status transitions.

Modelling conventions.

* A Go pointer `*featureInfo` is an index into `testRunner.features`; the Go
  map `featuresMap` is an association list from keys to such indices, where an
  assignment `m[k] = v` conses `(k, v)` in front and a read takes the first
  binding of the key.
* A Go `panic` that nobody recovers is the `Except.error` result; a loop whose
  termination is not evident takes a fuel argument and answers `none` when the
  fuel runs out.
* User code (a checker or a test function) is a function from the history of
  the run (the list of user-code invocations made so far) to what the
  invocation does: the `Log` calls it makes and how it ends.  A panic value is
  modelled by its `%v` rendering and is taken to be non-nil.
* `time.Now().Format(LogTimeFormat)` is the field `now` of `LogEnv`; the source
  position reported by `caller(3)` is an argument of `Recorder.Log`.
* A recorder is modelled twice.  `Recorder` carries the contents of `Logs` as a
  list.  `RecorderM` carries the slice header of `Logs` (backing array, length,
  capacity) over a memory of backing arrays, where `append` writes in place
  when the capacity allows; `runTest` is modelled on both and the two are
  proved to agree.
-/

namespace Validator

/-! ## conf.go -/

/-- Go `type FeatureStatus string`. -/
abbrev FeatureStatus := String

def FeaturePass : FeatureStatus := "PASS"
def FeatureNotImplemented : FeatureStatus := "NOT_IMPL"
def FeatureFail : FeatureStatus := "FAIL"
def FeatureDefect : FeatureStatus := "DEFECT"
def FeatureSkip : FeatureStatus := "SKIP"

/-- Ghost history of a run: which user code has been invoked, in order.
`check i` is an invocation of `callChecker` for the feature at index `i`,
`test j` an invocation of `callTest` for the `j`-th registered test. -/
inductive Event where
  | check (i : Nat)
  | test (j : Nat)
  deriving DecidableEq, Repr

/-- One call `ctx.Log(format, args...)` made by user code: the position of the
call and the formatted message. -/
structure LogCall where
  pos : String
  msg : String
  deriving DecidableEq, Repr

/-- What one invocation of a checker does: the `Log` calls it makes, then either
a returned status (`Except.ok`) or an abort with a message (`Except.error`). -/
structure CheckerOutcome where
  logs : List LogCall
  result : Except String FeatureStatus

/-- What one invocation of a test function does: the `Log` calls it makes, then
either normal completion (`abort = none`) or an abort with a message. -/
structure TestOutcome where
  logs : List LogCall
  abort : Option String

/-- Go `type featureConf struct`; `checkF = none` is the nil function. -/
structure featureConf where
  key : String
  description : String
  requiredFeatures : List String
  checkF : Option (List Event → CheckerOutcome)

/-- Go `type storyConf struct`. -/
structure storyConf where
  description : String
  features : List String
  deriving DecidableEq, Repr

/-- Go `type testConf struct`; `testF = none` is the nil function. -/
structure testConf where
  description : String
  features : List String
  testF : Option (List Event → TestOutcome)

/-- The package variables `featureConfs`, `testConfs`, `storyConfs`. -/
structure Registry where
  featureConfs : List featureConf
  testConfs : List testConf
  storyConfs : List storyConf

/-- Go `func RegisterFeature(key, description string, requireFeatures []string,
checkF func(ExecContext) FeatureStatus) string`: the package variables after the
call and its result.  The panic on a duplicated key is raised before anything is
written, so it leaves the variables as they were. -/
def RegisterFeature (reg : Registry) (key description : String)
    (requireFeatures : List String) (checkF : Option (List Event → CheckerOutcome)) :
    Registry × Except String String :=
  if reg.featureConfs.any (fun feature => feature.key == key) then
    (reg, .error ("duplicated feature key: " ++ key))
  else
    ({ reg with featureConfs := reg.featureConfs ++
        [{ key := key, description := description, requiredFeatures := requireFeatures,
           checkF := checkF }] }, .ok key)

/-- Go `func RegisterStory(description string, features ...string) struct{}`:
the package variables after the call. -/
def RegisterStory (reg : Registry) (description : String) (features : List String) : Registry :=
  { reg with storyConfs := reg.storyConfs ++ [{ description := description, features := features }] }

/-- Go `func RegisterTest(description string, features []string,
testF func(ExecContext)) struct{}`: the package variables after the call. -/
def RegisterTest (reg : Registry) (description : String) (features : List String)
    (testF : Option (List Event → TestOutcome)) : Registry :=
  { reg with testConfs := reg.testConfs ++
      [{ description := description, features := features, testF := testF }] }

/-! ## context.go -/

/-- The logging environment: the rendered current time and `LogFileLine`. -/
structure LogEnv where
  now : String
  LogFileLine : Bool

/-- Go `type Recorder struct`. -/
structure Recorder where
  Description : String
  Logs : List String
  Success : Bool
  deriving DecidableEq, Repr

/-- The string assembled by the `strings.Builder` of `Recorder.log`: the time,
the caller position when `logCaller` is set, and the formatted message. -/
def logLine (env : LogEnv) (logCaller : Bool) (pos msg : String) : String :=
  env.now ++ (if logCaller then " " ++ pos else "") ++ " " ++ msg

/-- Go `func newRecorder(description string) *Recorder`. -/
def newRecorder (description : String) : Recorder :=
  { Description := description, Logs := [], Success := false }

/-- Go `func (r *Recorder) log(logCaller bool, format string, args ...interface{})`;
`pos` is the value of `caller(3)` and `msg` the formatted message. -/
def Recorder.log (r : Recorder) (env : LogEnv) (logCaller : Bool) (pos msg : String) :
    Recorder :=
  { r with Logs := r.Logs ++ [logLine env logCaller pos msg] }

/-- Go `func (r *Recorder) Log(format string, args ...interface{})`. -/
def Recorder.Log (r : Recorder) (env : LogEnv) (pos msg : String) : Recorder :=
  r.log env env.LogFileLine pos msg

/-- Go `func (r *Recorder) copy() *Recorder`, on the contents of the recorder.
The capacity cap `r.Logs[:len(r.Logs):len(r.Logs)]` does not change the
contents; what it does to the backing array is modelled by `RecorderM.copy`. -/
def Recorder.copy (r : Recorder) : Recorder :=
  { Description := r.Description, Logs := r.Logs, Success := r.Success }

/-- The `Log` calls of one user-code invocation, applied in order. -/
def Recorder.userLogs (r : Recorder) (env : LogEnv) : List LogCall → Recorder
  | [] => r
  | l :: ls => Recorder.userLogs (r.Log env l.pos l.msg) env ls

/-- Go `func (a *asserter) panicNow(msg string, userMessage ...string)`: the
panic value; `pos` is the value of `caller(3+a.callerDepth)`. -/
def panicNow (env : LogEnv) (pos msg : String) (userMessage : List String) : String :=
  let position := if env.LogFileLine then pos ++ " " else ""
  if userMessage.length > 0 then position ++ String.intercalate "," userMessage
  else position ++ msg

/-- Go `func (a *asserter) Fail(msg ...string)`: the panic value. -/
def Fail (env : LogEnv) (pos : String) (msg : List String) : String :=
  panicNow env pos "test is marked failed" msg

/-! ## runner.go -/

/-- Go `type featureInfo struct`. -/
structure featureInfo where
  conf : featureConf
  status : FeatureStatus
  records : List Recorder

/-- Go `type testRunner struct`, with the ghost field `trace`. -/
structure testRunner where
  features : List featureInfo
  featuresMap : List (String × Nat)
  stories : List storyConf
  tests : List testConf
  trace : List Event

/-- The loop body of `newTestRunner`, over the remaining `featureConfs`. -/
def newTestRunnerLoop : List featureConf → testRunner → testRunner
  | [], runner => runner
  | conf :: rest, runner =>
    newTestRunnerLoop rest
      { runner with
        features := runner.features ++ [{ conf := conf, status := FeatureSkip, records := [] }]
        featuresMap := (conf.key, runner.features.length) :: runner.featuresMap }

/-- Go `func newTestRunner() *testRunner`, reading the registry `reg`. -/
def newTestRunner (reg : Registry) : testRunner :=
  newTestRunnerLoop reg.featureConfs
    { features := [], featuresMap := [], stories := reg.storyConfs, tests := reg.testConfs,
      trace := [] }

/-- The read `r.featuresMap[key]` followed by the dereference of the pointer:
the index bound to `key` and the feature stored there.  An index outside the
feature list, which `newTestRunner` never stores, counts as an absent key. -/
def testRunner.lookupFeature (r : testRunner) (key : String) : Option (Nat × featureInfo) :=
  match r.featuresMap.lookup key with
  | none => none
  | some i =>
    match r.features[i]? with
    | none => none
    | some f => some (i, f)

/-- Go `func (r *testRunner) checkRequiredFeatures(features []string) bool`. -/
def testRunner.checkRequiredFeatures (r : testRunner) : List String → Except String Bool
  | [] => .ok true
  | key :: rest =>
    match r.lookupFeature key with
    | none => .error ("required feature not found: " ++ key)
    | some (_, f) =>
      if f.status ≠ FeaturePass ∧ f.status ≠ FeatureDefect then .ok false
      else testRunner.checkRequiredFeatures r rest

/-- The loop of `nextFeature` over the features from index `i` on. -/
def testRunner.nextFeatureFrom (r : testRunner) : Nat → List featureInfo →
    Except String (Option Nat)
  | _, [] => .ok none
  | i, f :: rest =>
    if f.status = FeatureSkip then
      match r.checkRequiredFeatures f.conf.requiredFeatures with
      | .error e => .error e
      | .ok true => .ok (some i)
      | .ok false => testRunner.nextFeatureFrom r (i + 1) rest
    else testRunner.nextFeatureFrom r (i + 1) rest

/-- Go `func (r *testRunner) nextFeature() *featureInfo`; `none` is nil. -/
def testRunner.nextFeature (r : testRunner) : Except String (Option Nat) :=
  r.nextFeatureFrom 0 r.features

/-- Go `func (r *testRunner) callChecker(recorder, f) (status FeatureStatus)`:
the recorder after the call and the returned status. -/
def callChecker (env : LogEnv) (hist : List Event) (recorder : Recorder)
    (f : Option (List Event → CheckerOutcome)) : Recorder × FeatureStatus :=
  match f with
  | none => (recorder, FeatureSkip)
  | some c =>
    let recorder1 := recorder.userLogs env (c hist).logs
    match (c hist).result with
    | .ok status =>
      ({ recorder1 with
          Success := decide (status = FeaturePass ∨ status = FeatureNotImplemented) }, status)
    | .error err => (recorder1.log env false "" err, FeatureFail)

/-- The line written by `runFeatureChecker` after the checker. -/
def checkFinish (success : Bool) (status : FeatureStatus) : String :=
  "check finish. success=" ++ toString success ++ ", feature.status=" ++ status

/-- The line written by `runTest` for each listed feature. -/
def testFinish (success : Bool) (status : FeatureStatus) : String :=
  "test finish. success=" ++ toString success ++ ", feature.status=" ++ status

/-- The assignment through a pointer: the feature at index `i` is replaced. -/
def testRunner.setFeature (r : testRunner) (i : Nat) (f : featureInfo) : testRunner :=
  { r with features := r.features.set i f }

/-- Go `func (r *testRunner) runFeatureChecker(f *featureInfo)`, `f` being the
feature at index `i`. -/
def testRunner.runFeatureChecker (env : LogEnv) (r : testRunner) (i : Nat) : testRunner :=
  match r.features[i]? with
  | none => r
  | some f =>
    let recorder := newRecorder ("check " ++ f.conf.key ++ "(" ++ f.conf.description ++ ")")
    let res := callChecker env r.trace recorder f.conf.checkF
    let recorder1 := res.1.Log env "runner.go:96" (checkFinish res.1.Success res.2)
    { r.setFeature i { f with status := res.2, records := f.records ++ [recorder1] } with
      trace := r.trace ++ [Event.check i] }

/-- Go `func (r *testRunner) callTest(recorder *Recorder, f func(ExecContext))`. -/
def callTest (env : LogEnv) (hist : List Event) (recorder : Recorder)
    (f : Option (List Event → TestOutcome)) : Recorder :=
  match f with
  | none => recorder
  | some t =>
    let recorder1 := recorder.userLogs env (t hist).logs
    match (t hist).abort with
    | none => { recorder1 with Success := true }
    | some err => recorder1.log env false "" err

/-- The body of the loop of `runTest`, applied to the feature `f` that the key
names: the downgrade, the copy of the recorder with its closing line, and the
append to the records. -/
def runTestBody (env : LogEnv) (recorder : Recorder) (f : featureInfo) : featureInfo :=
  let status :=
    if recorder.Success = false ∧ f.status = FeaturePass then FeatureDefect else f.status
  let recorder2 := recorder.copy.Log env "runner.go:126" (testFinish recorder.copy.Success status)
  { f with status := status, records := f.records ++ [recorder2] }

/-- The loop of `runTest` over the keys of the test; reading a key that is not
in the map yields a nil pointer whose dereference panics. -/
def testRunner.runTestLoop (env : LogEnv) (recorder : Recorder) :
    List String → testRunner → Except String testRunner
  | [], r => .ok r
  | key :: rest, r =>
    match r.lookupFeature key with
    | none => .error "invalid memory address or nil pointer dereference"
    | some (i, f) =>
      testRunner.runTestLoop env recorder rest (r.setFeature i (runTestBody env recorder f))

/-- Go `func (r *testRunner) runTest(t testConf)`, `t` being the `j`-th test. -/
def testRunner.runTest (env : LogEnv) (r : testRunner) (j : Nat) (t : testConf) :
    Except String testRunner :=
  let recorder := callTest env r.trace (newRecorder t.description) t.testF
  testRunner.runTestLoop env recorder t.features { r with trace := r.trace ++ [Event.test j] }

/-- The first loop of `run`: `none` when the fuel is used up before the loop
ends. -/
def testRunner.runFeatures (env : LogEnv) : Nat → testRunner → Option (Except String testRunner)
  | 0, _ => none
  | fuel + 1, r =>
    match r.nextFeature with
    | .error e => some (.error e)
    | .ok none => some (.ok r)
    | .ok (some i) => testRunner.runFeatures env fuel (r.runFeatureChecker env i)

/-- The state of the first loop of `run` after `n` iterations, or at the point
where the loop stopped if that came earlier. -/
def testRunner.featureIter (env : LogEnv) : Nat → testRunner → testRunner
  | 0, r => r
  | n + 1, r =>
    match r.nextFeature with
    | .ok (some i) => testRunner.featureIter env n (r.runFeatureChecker env i)
    | _ => r

/-- The second loop of `run`, over the tests from the `j`-th on. -/
def testRunner.runTestsFrom (env : LogEnv) : Nat → List testConf → testRunner →
    Except String testRunner
  | _, [], r => .ok r
  | j, t :: rest, r =>
    match r.checkRequiredFeatures t.features with
    | .error e => .error e
    | .ok true =>
      match r.runTest env j t with
      | .error e => .error e
      | .ok r1 => testRunner.runTestsFrom env (j + 1) rest r1
    | .ok false => testRunner.runTestsFrom env (j + 1) rest r

/-- Go `func (r *testRunner) run()`. -/
def testRunner.run (env : LogEnv) (fuel : Nat) (r : testRunner) :
    Option (Except String testRunner) :=
  match r.runFeatures env fuel with
  | none => none
  | some (.error e) => some (.error e)
  | some (.ok r1) => some (testRunner.runTestsFrom env 0 r1.tests r1)

/-! ## report.go -/

/-- Go `type FeatureReport struct`. -/
structure FeatureReport where
  Key : String
  Description : String
  Status : FeatureStatus
  Records : List Recorder
  deriving DecidableEq, Repr

/-- Go `type StoryReport struct`. -/
structure StoryReport where
  Description : String
  Features : List FeatureReport
  deriving DecidableEq, Repr

/-- Go `type Report struct`. -/
structure Report where
  Stories : List StoryReport
  Features : List FeatureReport
  deriving DecidableEq, Repr

/-- Go `func (r *testRunner) reportFeature(key string) FeatureReport`. -/
def testRunner.reportFeature (r : testRunner) (key : String) : Except String FeatureReport :=
  match r.lookupFeature key with
  | none => .error ("feature not found: " ++ key)
  | some (_, f) =>
    .ok { Key := f.conf.key, Description := f.conf.description, Status := f.status,
          Records := f.records }

/-- The loop of `reportStory` over the keys of the story. -/
def testRunner.reportFeatures (r : testRunner) : List String → Except String (List FeatureReport)
  | [] => .ok []
  | key :: rest =>
    match r.reportFeature key with
    | .error e => .error e
    | .ok fr =>
      match testRunner.reportFeatures r rest with
      | .error e => .error e
      | .ok frs => .ok (fr :: frs)

/-- Go `func (r *testRunner) reportStory(conf storyConf) StoryReport`. -/
def testRunner.reportStory (r : testRunner) (conf : storyConf) : Except String StoryReport :=
  match r.reportFeatures conf.features with
  | .error e => .error e
  | .ok frs => .ok { Description := conf.description, Features := frs }

/-- The first loop of `report`: the story reports and the set `reported`. -/
def testRunner.reportStories (r : testRunner) :
    List storyConf → Except String (List StoryReport × List String)
  | [] => .ok ([], [])
  | s :: rest =>
    match r.reportStory s with
    | .error e => .error e
    | .ok sr =>
      match testRunner.reportStories r rest with
      | .error e => .error e
      | .ok (srs, reported) => .ok (sr :: srs, s.features ++ reported)

/-- The second loop of `report`: the features that no story has reported. -/
def testRunner.reportRest (r : testRunner) (reported : List String) :
    List featureInfo → Except String (List FeatureReport)
  | [] => .ok []
  | f :: rest =>
    if f.conf.key ∈ reported then testRunner.reportRest r reported rest
    else
      match r.reportFeature f.conf.key with
      | .error e => .error e
      | .ok fr =>
        match testRunner.reportRest r reported rest with
        | .error e => .error e
        | .ok frs => .ok (fr :: frs)

/-- Go `func (r *testRunner) report() Report`. -/
def testRunner.report (r : testRunner) : Except String Report :=
  match r.reportStories r.stories with
  | .error e => .error e
  | .ok (srs, reported) =>
    match r.reportRest reported r.features with
    | .error e => .error e
    | .ok frs => .ok { Stories := srs, Features := frs }

/-- Go `func RunAll() Report`: `none` when `run` does not end within the fuel,
`Except.error` when a panic escapes. -/
def RunAll (env : LogEnv) (fuel : Nat) (reg : Registry) : Option (Except String Report) :=
  match (newTestRunner reg).run env fuel with
  | none => none
  | some (.error e) => some (.error e)
  | some (.ok r) => some r.report

/-! ## main.go -/

/-- The loop of `trimFeatureReport` over the remaining records; `records` is the
slice built so far.  The slice shares its array with `report.Records`, but an
append writes at a position that the loop has already read. -/
def trimLoop (showRecord : String) (showLog : Bool) :
    List Recorder → List Recorder → List Recorder
  | [], records => records
  | r :: rest, records =>
    if showRecord = "all" ∨ (showRecord = "failed" ∧ r.Success = false) then
      trimLoop showRecord showLog rest
        (records ++ [if showLog = false then { r with Logs := [] } else r])
    else trimLoop showRecord showLog rest records

/-- Go `func trimFeatureReport(report *validator.FeatureReport)`, with the
values of the flags `record` and `show-log`. -/
def trimFeatureReport (showRecord : String) (showLog : Bool) (report : FeatureReport) :
    FeatureReport :=
  { report with Records := trimLoop showRecord showLog report.Records [] }

/-! ## tests/util.go -/

/-- The position of the first occurrence of `sub` in a list of characters, `-1`
when there is none. -/
def indexChars (sub : List Char) : List Char → Int
  | [] => if sub.isEmpty then 0 else -1
  | c :: rest =>
    if sub.isPrefixOf (c :: rest) then 0
    else
      let n := indexChars sub rest
      if n < 0 then -1 else n + 1

/-- Go `strings.Index(s, substr)`, counted in characters: the byte index that Go
returns is negative, zero or positive in the same cases. -/
def stringsIndex (s substr : String) : Int := indexChars substr.data s.data

/-- The lower-case form of a string in which only the letters `A` to `Z` change;
on such strings it is Go `strings.ToLower`. -/
def asciiToLower (s : String) : String := ⟨s.data.map Char.toLower⟩

/-- Go `func errToFeatureStatus(err error) validator.FeatureStatus`; `err` is
`none` for the nil error and otherwise the message `err.Error()`, and `toLower`
is `strings.ToLower`. -/
def errToFeatureStatus (toLower : String → String) (err : Option String) : FeatureStatus :=
  match err with
  | none => FeaturePass
  | some msg =>
    if stringsIndex (toLower msg) "not implemented" > 0 then FeatureNotImplemented
    else FeatureFail

/-! ## Recorders in memory

The `Logs` of a recorder is a slice: a view of a backing array that other
slices may share.  This section models `append`, `Recorder.log`,
`Recorder.copy`, `callTest` and `runTest` on slice headers and backing arrays. -/

/-- A Go slice of strings: the backing array it views (from its first cell),
its length and its capacity.  The nil slice has length and capacity zero. -/
structure Slice where
  arr : Nat
  len : Nat
  cap : Nat
  deriving DecidableEq, Repr

/-- The backing arrays allocated so far. -/
abbrev Heap := List (List String)

/-- The elements of a slice. -/
def Slice.read (h : Heap) (s : Slice) : List String :=
  match h[s.arr]? with
  | some a => a.take s.len
  | none => []

/-- Go `append(s, x)`: when the capacity allows, the element is written into the
backing array of `s`, in the cell after its last element; otherwise a new
array is allocated, with room for the elements, `x` and the spare cells that
the growth policy `slack` adds. -/
def sliceAppend (slack : Nat → Nat) (h : Heap) (s : Slice) (x : String) : Heap × Slice :=
  if s.len < s.cap then
    (match h[s.arr]? with
      | some a => h.set s.arr (a.set s.len x)
      | none => h,
     { s with len := s.len + 1 })
  else
    (h ++ [s.read h ++ x :: List.replicate (slack (s.len + 1)) ""],
     { arr := h.length, len := s.len + 1, cap := s.len + 1 + slack (s.len + 1) })

/-- Go `type Recorder struct`, with the slice header of `Logs`. -/
structure RecorderM where
  Description : String
  Logs : Slice
  Success : Bool
  deriving DecidableEq, Repr

/-- Go `func newRecorder(description string) *Recorder`: `Logs` is the nil slice. -/
def newRecorderM (description : String) : RecorderM :=
  { Description := description, Logs := ⟨0, 0, 0⟩, Success := false }

/-- Go `func (r *Recorder) log(logCaller bool, format string, args ...interface{})`:
the statement `r.Logs = append(r.Logs, builder.String())`. -/
def RecorderM.log (slack : Nat → Nat) (env : LogEnv) (h : Heap) (r : RecorderM)
    (logCaller : Bool) (pos msg : String) : Heap × RecorderM :=
  ((sliceAppend slack h r.Logs (logLine env logCaller pos msg)).1,
    { r with Logs := (sliceAppend slack h r.Logs (logLine env logCaller pos msg)).2 })

/-- Go `func (r *Recorder) Log(format string, args ...interface{})`. -/
def RecorderM.Log (slack : Nat → Nat) (env : LogEnv) (h : Heap) (r : RecorderM)
    (pos msg : String) : Heap × RecorderM :=
  r.log slack env h env.LogFileLine pos msg

/-- Go `func (r *Recorder) copy() *Recorder`: the slice
`r.Logs[:len(r.Logs):len(r.Logs)]` views the same array with the capacity cut
down to the length. -/
def RecorderM.copy (r : RecorderM) : RecorderM :=
  { Description := r.Description,
    Logs := { arr := r.Logs.arr, len := r.Logs.len, cap := r.Logs.len },
    Success := r.Success }

/-- The `Log` calls of one user-code invocation, applied in order. -/
def RecorderM.userLogs (slack : Nat → Nat) (env : LogEnv) :
    Heap → RecorderM → List LogCall → Heap × RecorderM
  | h, r, [] => (h, r)
  | h, r, l :: ls =>
    RecorderM.userLogs slack env (r.Log slack env h l.pos l.msg).1
      (r.Log slack env h l.pos l.msg).2 ls

/-- Go `func (r *testRunner) callTest(recorder *Recorder, f func(ExecContext))`. -/
def callTestM (slack : Nat → Nat) (env : LogEnv) (hist : List Event) (h : Heap)
    (recorder : RecorderM) (f : Option (List Event → TestOutcome)) : Heap × RecorderM :=
  match f with
  | none => (h, recorder)
  | some t =>
    match (t hist).abort with
    | none =>
      ((recorder.userLogs slack env h (t hist).logs).1,
        { (recorder.userLogs slack env h (t hist).logs).2 with Success := true })
    | some err =>
      (recorder.userLogs slack env h (t hist).logs).2.log slack env
        (recorder.userLogs slack env h (t hist).logs).1 false "" err

/-- Go `type featureInfo struct`, the records with their slice headers.  The
slice `records` itself is reachable from its feature only while `run` is at
work, so it is kept as a list. -/
structure featureInfoM where
  conf : featureConf
  status : FeatureStatus
  records : List RecorderM

/-- Go `type testRunner struct`, with the backing arrays of the logs. -/
structure testRunnerM where
  features : List featureInfoM
  featuresMap : List (String × Nat)
  stories : List storyConf
  tests : List testConf
  trace : List Event
  heap : Heap

/-- The read `r.featuresMap[key]` followed by the dereference of the pointer. -/
def testRunnerM.lookupFeature (r : testRunnerM) (key : String) : Option (Nat × featureInfoM) :=
  match r.featuresMap.lookup key with
  | none => none
  | some i =>
    match r.features[i]? with
    | none => none
    | some f => some (i, f)

/-- The body of the loop of `runTest`: the downgrade, `recorder.copy()`, the
closing line logged on the copy, and the append of the copy to the records. -/
def runTestBodyM (slack : Nat → Nat) (env : LogEnv) (h : Heap) (recorder : RecorderM)
    (f : featureInfoM) : Heap × featureInfoM :=
  let status :=
    if recorder.Success = false ∧ f.status = FeaturePass then FeatureDefect else f.status
  ((recorder.copy.Log slack env h "runner.go:126" (testFinish recorder.copy.Success status)).1,
    { f with
      status := status,
      records := f.records ++
        [(recorder.copy.Log slack env h "runner.go:126"
          (testFinish recorder.copy.Success status)).2] })

/-- The loop of `runTest` over the keys of the test. -/
def testRunnerM.runTestLoop (slack : Nat → Nat) (env : LogEnv) (recorder : RecorderM) :
    List String → testRunnerM → Except String testRunnerM
  | [], r => .ok r
  | key :: rest, r =>
    match r.lookupFeature key with
    | none => .error "invalid memory address or nil pointer dereference"
    | some (i, f) =>
      testRunnerM.runTestLoop slack env recorder rest
        { r with features := r.features.set i (runTestBodyM slack env r.heap recorder f).2,
                 heap := (runTestBodyM slack env r.heap recorder f).1 }

/-- Go `func (r *testRunner) runTest(t testConf)`, `t` being the `j`-th test. -/
def testRunnerM.runTest (slack : Nat → Nat) (env : LogEnv) (r : testRunnerM) (j : Nat)
    (t : testConf) : Except String testRunnerM :=
  testRunnerM.runTestLoop slack env
    (callTestM slack env r.trace r.heap (newRecorderM t.description) t.testF).2 t.features
    { r with trace := r.trace ++ [Event.test j],
             heap := (callTestM slack env r.trace r.heap (newRecorderM t.description)
               t.testF).1 }

/-- The contents of a recorder. -/
def RecorderM.value (h : Heap) (r : RecorderM) : Recorder :=
  { Description := r.Description, Logs := r.Logs.read h, Success := r.Success }

/-- The contents of the runtime state of a feature. -/
def featureInfoM.value (h : Heap) (f : featureInfoM) : featureInfo :=
  { conf := f.conf, status := f.status, records := f.records.map (RecorderM.value h) }

/-- The contents of a runner. -/
def testRunnerM.value (r : testRunnerM) : testRunner :=
  { features := r.features.map (featureInfoM.value r.heap), featuresMap := r.featuresMap,
    stories := r.stories, tests := r.tests, trace := r.trace }

/-- The slice lies within its backing array. -/
def Slice.valid (h : Heap) (s : Slice) : Prop :=
  s.len ≤ s.cap ∧ (s.cap = 0 ∨ ∃ a, h[s.arr]? = some a ∧ s.cap ≤ a.length)

/-- The slice is valid and its backing array, if it has one, was allocated
after the arrays of `h0`, of which none has been written since. -/
def Slice.fresh (h0 h : Heap) (s : Slice) : Prop :=
  h0 <+: h ∧ s.valid h ∧ (s.cap = 0 ∨ h0.length ≤ s.arr)

/-- Every record of every feature lies within its backing array. -/
def testRunnerM.wf (r : testRunnerM) : Prop :=
  ∀ f ∈ r.features, ∀ rec ∈ f.records, rec.Logs.valid r.heap

/-! ## Concrete registries -/

/-- A registry with the single feature `A` whose checker returns `Skip`. -/
def skipRegistry : Registry :=
  { featureConfs := [⟨"A", "describe A", [], some (fun _ => ⟨[], .ok FeatureSkip⟩)⟩],
    testConfs := [], storyConfs := [] }

/-- A registry with the single feature `A` registered with a nil checker. -/
def nilRegistry : Registry :=
  { featureConfs := [⟨"A", "describe A", [], none⟩], testConfs := [], storyConfs := [] }

/-- The registry before any registration. -/
def emptyRegistry : Registry := { featureConfs := [], testConfs := [], storyConfs := [] }

/-- A call of one of the three registration functions, with its arguments. -/
inductive RegCall where
  | feature (key description : String) (requireFeatures : List String)
      (checkF : Option (List Event → CheckerOutcome))
  | story (description : String) (features : List String)
  | test (description : String) (features : List String)
      (testF : Option (List Event → TestOutcome))

/-- The package variables after one registration call. -/
def register (reg : Registry) : RegCall → Registry
  | .feature key description requireFeatures checkF =>
    (RegisterFeature reg key description requireFeatures checkF).1
  | .story description features => RegisterStory reg description features
  | .test description features testF => RegisterTest reg description features testF

/-- The package variables after a sequence of registration calls. -/
def registerAll (calls : List RegCall) (reg : Registry) : Registry :=
  calls.foldl register reg

/-- A registry with the feature `A`, whose checker returns `Pass`, and two
stories that both list `A`. -/
def twoStoriesRegistry : Registry :=
  { featureConfs := [⟨"A", "describe A", [], some (fun _ => ⟨[], .ok FeaturePass⟩)⟩],
    testConfs := [],
    storyConfs := [⟨"first story", ["A"]⟩, ⟨"second story", ["A"]⟩] }

/-- A registry in which the feature `X` requires `B` and then a key that is not
registered, and a test lists `B` and then a key that is not registered; the
checker of `B` returns `NotImplemented`. -/
def missingKeyRegistry : Registry :=
  { featureConfs :=
      [⟨"B", "describe B", [], some (fun _ => ⟨[], .ok FeatureNotImplemented⟩)⟩,
       ⟨"X", "describe X", ["B", "missing"], some (fun _ => ⟨[], .ok FeaturePass⟩)⟩],
    testConfs := [⟨"test X", ["B", "absent"], some (fun _ => ⟨[], none⟩)⟩],
    storyConfs := [] }

/-- A registry in which `P` requires `Q` and `Q` requires `P`, and `S` requires
itself. -/
def cycleRegistry : Registry :=
  { featureConfs :=
      [⟨"P", "describe P", ["Q"], some (fun _ => ⟨[], .ok FeaturePass⟩)⟩,
       ⟨"Q", "describe Q", ["P"], some (fun _ => ⟨[], .ok FeaturePass⟩)⟩,
       ⟨"S", "describe S", ["S"], some (fun _ => ⟨[], .ok FeaturePass⟩)⟩],
    testConfs := [], storyConfs := [] }

/-- A registry with the feature `G`, whose checker returns `Pass`, and one test
that lists `G` twice and completes. -/
def doubleListingRegistry : Registry :=
  { featureConfs := [⟨"G", "describe G", [], some (fun _ => ⟨[], .ok FeaturePass⟩)⟩],
    testConfs := [⟨"test G", ["G", "G"], some (fun _ => ⟨[], none⟩)⟩],
    storyConfs := [] }

/-- A registry with the single feature `X`, which requires a key that is not
registered; its checker returns `Pass`. -/
def lonelyMissingRegistry : Registry :=
  { featureConfs := [⟨"X", "describe X", ["missing"], some (fun _ => ⟨[], .ok FeaturePass⟩)⟩],
    testConfs := [], storyConfs := [] }

/-- A registry with the single feature `A` whose checker returns `Defect`, and
no test. -/
def defectCheckerRegistry : Registry :=
  { featureConfs := [⟨"A", "describe A", [], some (fun _ => ⟨[], .ok FeatureDefect⟩)⟩],
    testConfs := [], storyConfs := [] }

/-- A registry with the feature `G`, whose checker returns `Pass`, and the test
`test G`, which lists `G` and calls `Fail`. -/
def failingTestRegistry : Registry :=
  { featureConfs := [⟨"G", "describe G", [], some (fun _ => ⟨[], .ok FeaturePass⟩)⟩],
    testConfs := [⟨"test G", ["G"], some (fun _ => ⟨[], some "G has a bug"⟩)⟩],
    storyConfs := [] }

/-- The runtime state of `G` after the run of `failingTestRegistry`. -/
def failingTestFeature : featureInfo :=
  ⟨⟨"G", "describe G", [], some (fun _ => ⟨[], .ok FeaturePass⟩)⟩, FeatureDefect,
    [⟨"check G(describe G)", ["[TIME] check finish. success=true, feature.status=PASS"], true⟩,
     ⟨"test G", ["[TIME] G has a bug", "[TIME] test finish. success=false, feature.status=DEFECT"],
       false⟩]⟩

/-- The runner after the run of `failingTestRegistry`. -/
def failingTestFinal : testRunner :=
  ⟨[failingTestFeature], [("G", 0)], [],
    [⟨"test G", ["G"], some (fun _ => ⟨[], some "G has a bug"⟩)⟩],
    [Event.check 0, Event.test 0]⟩

/-- A registry with the single feature `A` whose checker returns `Skip` at its
first invocation and `Pass` at every later one, and no test. -/
def skipThenPassRegistry : Registry :=
  { featureConfs := [⟨"A", "describe A", [],
      some (fun hist => if hist.isEmpty then ⟨[], .ok FeatureSkip⟩ else ⟨[], .ok FeaturePass⟩)⟩],
    testConfs := [], storyConfs := [] }

/-- The registry of `TestValidator`: the calls of `validator_test.go` in the
order of the file; its `Feature`, `Story` and `Test` take the arguments of
`RegisterFeature`, `RegisterStory` and `RegisterTest`.  The checker of `F` logs
`foobar`, the test function of `test G` calls `Fail`. -/
def testValidatorRegistry (env : LogEnv) : Registry :=
  registerAll
    [ .feature "A" "describe A" [] (some (fun _ => ⟨[], .ok FeaturePass⟩)),
      .feature "B" "describe B" [] (some (fun _ => ⟨[], .ok FeatureNotImplemented⟩)),
      .feature "C" "describe C" [] (some (fun _ => ⟨[], .ok FeatureFail⟩)),
      .feature "D" "describe D" ["A"] (some (fun _ => ⟨[], .ok FeaturePass⟩)),
      .feature "E" "describe E" ["A", "B"] (some (fun _ => ⟨[], .ok FeatureNotImplemented⟩)),
      .feature "F" "describe F" ["A", "D"]
        (some (fun _ => ⟨[⟨"validator_test.go:45", "foobar"⟩], .ok FeaturePass⟩)),
      .story "E and F" ["E", "F"],
      .feature "G" "describe G" [] (some (fun _ => ⟨[], .ok FeaturePass⟩)),
      .test "test G" ["G"]
        (some (fun _ => ⟨[], some (Fail env "validator_test.go:56" ["G has a bug"])⟩)) ]
    emptyRegistry

/-- The value `expect` of `TestValidator`. -/
def testValidatorExpect : Report :=
  { Stories :=
      [{ Description := "E and F",
         Features :=
           [{ Key := "E", Description := "describe E", Status := FeatureSkip, Records := [] },
            { Key := "F", Description := "describe F", Status := FeaturePass,
              Records :=
                [{ Description := "check F(describe F)",
                   Logs := ["[TIME] foobar",
                            "[TIME] check finish. success=true, feature.status=PASS"],
                   Success := true }] }] }],
    Features :=
      [{ Key := "A", Description := "describe A", Status := FeaturePass,
         Records :=
           [{ Description := "check A(describe A)",
              Logs := ["[TIME] check finish. success=true, feature.status=PASS"],
              Success := true }] },
       { Key := "B", Description := "describe B", Status := FeatureNotImplemented,
         Records :=
           [{ Description := "check B(describe B)",
              Logs := ["[TIME] check finish. success=true, feature.status=NOT_IMPL"],
              Success := true }] },
       { Key := "C", Description := "describe C", Status := FeatureFail,
         Records :=
           [{ Description := "check C(describe C)",
              Logs := ["[TIME] check finish. success=false, feature.status=FAIL"],
              Success := false }] },
       { Key := "D", Description := "describe D", Status := FeaturePass,
         Records :=
           [{ Description := "check D(describe D)",
              Logs := ["[TIME] check finish. success=true, feature.status=PASS"],
              Success := true }] },
       { Key := "G", Description := "describe G", Status := FeatureDefect,
         Records :=
           [{ Description := "check G(describe G)",
              Logs := ["[TIME] check finish. success=true, feature.status=PASS"],
              Success := true },
            { Description := "test G",
              Logs := ["[TIME] G has a bug",
                       "[TIME] test finish. success=false, feature.status=DEFECT"],
              Success := false }] }] }

/-! ## Specification predicates -/

/-- The condition of the specification under which a feature may be executed:
it is still `Skip` and every feature it requires is registered and currently
has status `Pass` or `Defect`. -/
def readySpec (r : testRunner) (f : featureInfo) : Prop :=
  f.status = FeatureSkip ∧
    ∀ k ∈ f.conf.requiredFeatures, ∃ j g, r.lookupFeature k = some (j, g) ∧
      (g.status = FeaturePass ∨ g.status = FeatureDefect)

/-- A status that unblocks a dependent: `Pass` or `Defect`. -/
def Resolved (s : FeatureStatus) : Prop := s = FeaturePass ∨ s = FeatureDefect

/-- Every key of the list is registered and names a feature whose status is
`Pass` or `Defect`. -/
def gateOpen (r : testRunner) (keys : List String) : Prop :=
  ∀ k ∈ keys, ∃ j g, r.lookupFeature k = some (j, g) ∧ Resolved g.status

/-- A feature that has left `Skip` or carries a record has had its checker
executed. -/
def traceInv (r : testRunner) : Prop :=
  ∀ (j : Nat) (f : featureInfo), r.features[j]? = some f →
    (f.status ≠ FeatureSkip ∨ f.records ≠ []) → Event.check j ∈ r.trace

/-- Every required feature of a feature whose checker has been executed is
registered and has status `Pass` or `Defect`. -/
def depInv (r : testRunner) : Prop :=
  ∀ (x : Nat) (fx : featureInfo), Event.check x ∈ r.trace → r.features[x]? = some fx →
    gateOpen r fx.conf.requiredFeatures

/-- In the sequence of executed checkers, every execution of a feature comes
after every execution of each feature it requires. -/
def orderInv (r : testRunner) : Prop :=
  ∀ (p x : Nat) (fx : featureInfo), r.trace[p]? = some (Event.check x) →
    r.features[x]? = some fx →
    ∀ k ∈ fx.conf.requiredFeatures, ∀ y, r.featuresMap.lookup k = some y →
      ∀ q : Nat, r.trace[q]? = some (Event.check y) → q < p

/-- The invariant of `run`. -/
def runInv (r : testRunner) : Prop := traceInv r ∧ depInv r ∧ orderInv r

/-- The two runner states have the same registered content: the same map, the
same stories and tests, and the same feature definitions at the same indices. -/
def sameConf (r r1 : testRunner) : Prop :=
  r1.featuresMap = r.featuresMap ∧ r1.tests = r.tests ∧ r1.stories = r.stories ∧
    r1.features.map (fun f => f.conf) = r.features.map (fun f => f.conf)

/-- What the loop of `runTest` over `keys`, run with the recorder `recorder`,
may do to the runner: the registered content and the trace stay, a feature
changes only if a listed key names it, its status stays or goes from `Pass` to
`Defect` (only when the test failed), and its records are only extended. -/
def testEvol (recorder : Recorder) (keys : List String) (r r1 : testRunner) : Prop :=
  sameConf r r1 ∧ r1.trace = r.trace ∧
    ∀ (j : Nat) (f : featureInfo), r.features[j]? = some f →
      ∃ f1, r1.features[j]? = some f1 ∧ f1.conf = f.conf ∧
        (f1 = f ∨ ∃ k ∈ keys, r.featuresMap.lookup k = some j) ∧
        (f1.status = f.status ∨
          (f.status = FeaturePass ∧ f1.status = FeatureDefect ∧ recorder.Success = false)) ∧
        ∃ ext, f1.records = f.records ++ ext

/-- The status of a feature after the loop body of `runTest` has processed it
for a test with the recorder `recorder`: `Pass` becomes `Defect` when the test
failed, every other status stays. -/
def downgraded (recorder : Recorder) (s : FeatureStatus) : FeatureStatus :=
  if recorder.Success = false ∧ s = FeaturePass then FeatureDefect else s

/-- The record that the loop body of `runTest` appends to a feature whose status
after the downgrade is `s`: the description, the lines and the outcome of the
test, closed by the one line that states `s`. -/
def closingRecord (env : LogEnv) (recorder : Recorder) (s : FeatureStatus) : Recorder :=
  { Description := recorder.Description,
    Logs := recorder.Logs ++
      [logLine env env.LogFileLine "runner.go:126" (testFinish recorder.Success s)],
    Success := recorder.Success }

/-- How many of the listed keys name the feature at index `i`. -/
def listings (r : testRunner) (keys : List String) (i : Nat) : Nat :=
  keys.countP (fun k => r.featuresMap.lookup k == some i)

/-- The feature report that carries the key, the description, the status and
the records of a runtime state. -/
def featureReportOf (f : featureInfo) : FeatureReport :=
  { Key := f.conf.key, Description := f.conf.description, Status := f.status,
    Records := f.records }

/-- The runtime state of the registered feature with the given key, if any. -/
def testRunner.findFeature (r : testRunner) (key : String) : Option featureInfo :=
  r.features.find? (fun f => f.conf.key == key)

/-- The keys listed by the registered stories. -/
def testRunner.storyKeys (r : testRunner) : List String :=
  r.stories.flatMap (fun s => s.features)

/-- The reference report of the specification: one story report per registered
story, in registration order, with the description of the story and one
feature report per listed key in the order of the story; then the registered
features whose key no story lists, in registration order; every feature report
is taken from the runtime state of the feature.  There is no reference report
(`none`) when a story lists a key that is not registered. -/
def reportSpec (r : testRunner) : Option Report :=
  match r.stories.mapM (fun s =>
      (s.features.mapM (fun k => (r.findFeature k).map featureReportOf)).map
        (fun frs => ({ Description := s.description, Features := frs } : StoryReport))) with
  | none => none
  | some srs =>
    some { Stories := srs,
           Features := (r.features.filter (fun f => decide (f.conf.key ∉ r.storyKeys))).map
             featureReportOf }

/-- The descriptions of the records that one invocation of user code adds to the
feature `f` stored at index `i`: the checker record when the checker of that
feature is invoked, and for an invoked test one record for each of its keys
that names the feature. -/
def recordDescs (r : testRunner) (i : Nat) (f : featureInfo) : Event → List String
  | .check x =>
    if x = i then ["check " ++ f.conf.key ++ "(" ++ f.conf.description ++ ")"] else []
  | .test j =>
    match r.tests[j]? with
    | some t => List.replicate (listings r t.features i) t.description
    | none => []

/-- The descriptions of the records of every feature are those that the
invocations of the trace add, in the order of the trace. -/
def descInv (r : testRunner) : Prop :=
  ∀ (i : Nat) (f : featureInfo), r.features[i]? = some f →
    f.records.map (fun rec => rec.Description) = r.trace.flatMap (recordDescs r i f)

/-- The checker of the definition is not nil and never returns `Skip`. -/
def noSkipChecker (c : featureConf) : Prop :=
  ∃ chk, c.checkF = some chk ∧ ∀ hist, (chk hist).result ≠ .ok FeatureSkip

/-- The number of features whose status is `Skip`. -/
def skipCount (r : testRunner) : Nat :=
  r.features.countP (fun f => decide (f.status = FeatureSkip))

/-- The trace of the first loop when no checker leaves a feature at `Skip`: no
checker has been executed twice, every executed feature has left `Skip`, and
the executed and the `Skip` features together are `n`. -/
def doneInv (n : Nat) (r : testRunner) : Prop :=
  r.trace.Nodup ∧
    (∀ (x : Nat) (f : featureInfo), Event.check x ∈ r.trace → r.features[x]? = some f →
      f.status ≠ FeatureSkip) ∧
    r.trace.length + skipCount r = n

/-- In the run that led to `r`, an execution of the checker of the feature at
index `i`, whose definition is `c`, returned the status `s`. -/
def checkerReturned (r : testRunner) (i : Nat) (c : featureConf) (s : FeatureStatus) : Prop :=
  ∃ (chk : List Event → CheckerOutcome) (hist rest : List Event),
    c.checkF = some chk ∧ r.trace = hist ++ Event.check i :: rest ∧
      (chk hist).result = .ok s

/-- The record `rec` was attached to the feature at index `i` by a test that the
run that led to `r` executed, that lists a key naming the feature, and that
failed: it is the copy of the recorder of that test, with `Success` false,
closed by the line that states `Defect`. -/
def failedTestRecord (env : LogEnv) (r : testRunner) (i : Nat) (rec : Recorder) : Prop :=
  ∃ (j : Nat) (t : testConf) (hist rest : List Event),
    r.tests[j]? = some t ∧ r.trace = hist ++ Event.test j :: rest ∧
    (∃ k ∈ t.features, r.featuresMap.lookup k = some i) ∧
    (callTest env hist (newRecorder t.description) t.testF).Success = false ∧
    rec = closingRecord env (callTest env hist (newRecorder t.description) t.testF)
      FeatureDefect

/-- Every status other than `Skip` is the outcome of `callChecker` at an
execution of the checker of that feature. -/
def originInv (env : LogEnv) (r : testRunner) : Prop :=
  ∀ (i : Nat) (f : featureInfo), r.features[i]? = some f → f.status ≠ FeatureSkip →
    ∃ hist rest : List Event, r.trace = hist ++ Event.check i :: rest ∧
      f.status = (callChecker env hist
        (newRecorder ("check " ++ f.conf.key ++ "(" ++ f.conf.description ++ ")"))
        f.conf.checkF).2

/-- The lines that the `Log` calls of user code add to a recorder. -/
def userLines (env : LogEnv) (logs : List LogCall) : List String :=
  logs.map (fun l => logLine env env.LogFileLine l.pos l.msg)

/-! ## Basic facts -/

theorem pass_ne_skip : FeaturePass ≠ FeatureSkip := by decide

theorem defect_ne_skip : FeatureDefect ≠ FeatureSkip := by decide

theorem fail_ne_pass : FeatureFail ≠ FeaturePass := by decide

theorem fail_ne_defect : FeatureFail ≠ FeatureDefect := by decide

theorem notImplemented_ne_pass : FeatureNotImplemented ≠ FeaturePass := by decide

theorem notImplemented_ne_defect : FeatureNotImplemented ≠ FeatureDefect := by decide

theorem userLogs_eq (env : LogEnv) (logs : List LogCall) (r : Recorder) :
    r.userLogs env logs = { r with Logs := r.Logs ++ userLines env logs } := by
  induction logs generalizing r with
  | nil => simp [Recorder.userLogs, userLines]
  | cons l ls ih =>
    simp [Recorder.userLogs, ih, Recorder.Log, Recorder.log, userLines]

/-! ## The execution boundary -/

theorem callTest_aborted (env : LogEnv) (hist : List Event) (recorder : Recorder)
    (t : List Event → TestOutcome) (err : String) (h : (t hist).abort = some err) :
    callTest env hist recorder (some t) =
      { Description := recorder.Description,
        Logs := recorder.Logs ++ userLines env (t hist).logs ++ [env.now ++ " " ++ err],
        Success := recorder.Success } := by
  simp [callTest, h, userLogs_eq, Recorder.log, logLine]

/-- C7: a non-nil checker that returns the status `s` without aborting makes
`callChecker` return `s`, with the recorder's `Success` flag true exactly when
`s` is `Pass` or `NotImplemented`; `runFeatureChecker` stores `s` as the new
status of the feature. -/
theorem callChecker_returned_status (env : LogEnv) (r : testRunner) (i : Nat) (f : featureInfo)
    (c : List Event → CheckerOutcome) (s : FeatureStatus) (recorder : Recorder)
    (hf : r.features[i]? = some f) (hc : f.conf.checkF = some c)
    (hs : (c r.trace).result = .ok s) :
    (callChecker env r.trace recorder (some c)).2 = s ∧
    ((callChecker env r.trace recorder (some c)).1.Success = true ↔
      (s = FeaturePass ∨ s = FeatureNotImplemented)) ∧
    (callChecker env r.trace recorder (some c)).1.Logs
      = recorder.Logs ++ userLines env (c r.trace).logs ∧
    ∃ g, (r.runFeatureChecker env i).features[i]? = some g ∧ g.status = s ∧
      g.conf = f.conf := by
  have hi : i < r.features.length := by
    rcases List.getElem?_eq_some.1 hf with ⟨h, _⟩
    exact h
  refine ⟨by simp [callChecker, hs], by simp [callChecker, hs], ?_, ?_⟩
  · simp [callChecker, hs, userLogs_eq]
  · simp [testRunner.runFeatureChecker, hf, hc, callChecker, hs, testRunner.setFeature, hi]

/-- Witness of C7: a checker returning `Pass` on a one-feature runner. -/
theorem callChecker_returned_status_witness :
    (callChecker ⟨"[TIME]", false⟩ [] (newRecorder "check A(describe A)")
        (some (fun _ => ⟨[], .ok FeaturePass⟩))).2 = FeaturePass :=
  (callChecker_returned_status ⟨"[TIME]", false⟩
    ⟨[⟨⟨"A", "describe A", [], some (fun _ => ⟨[], .ok FeaturePass⟩)⟩, FeatureSkip, []⟩],
      [("A", 0)], [], [], []⟩ 0
    ⟨⟨"A", "describe A", [], some (fun _ => ⟨[], .ok FeaturePass⟩)⟩, FeatureSkip, []⟩
    (fun _ => ⟨[], .ok FeaturePass⟩) FeaturePass (newRecorder "check A(describe A)")
    rfl rfl rfl).1

/-- C8: a checker that aborts with the message `err` does not make `callChecker`
fail: the call returns `Fail`, leaves the `Success` flag as it was (false for
the fresh recorder it is given), keeps the lines the checker logged before the
abort and appends the abort message as one further line. -/
theorem callChecker_abort (env : LogEnv) (hist : List Event) (recorder : Recorder)
    (c : List Event → CheckerOutcome) (err : String)
    (habort : (c hist).result = .error err) :
    (callChecker env hist recorder (some c)).2 = FeatureFail ∧
    (callChecker env hist recorder (some c)).1.Success = recorder.Success ∧
    (callChecker env hist (newRecorder recorder.Description) (some c)).1.Success = false ∧
    (callChecker env hist recorder (some c)).1.Logs
      = recorder.Logs ++ userLines env (c hist).logs ++ [env.now ++ " " ++ err] ∧
    (callChecker env hist recorder (some c)).1.Description = recorder.Description := by
  simp [callChecker, habort, userLogs_eq, Recorder.log, logLine, newRecorder]

/-- Witness of C8: a checker that logs one line and then calls `Fail`. -/
theorem callChecker_abort_witness :
    (callChecker ⟨"[TIME]", false⟩ [] (newRecorder "check A(describe A)")
        (some (fun _ => ⟨[⟨"a.go:1", "foobar"⟩], .error "test is marked failed"⟩))).2
      = FeatureFail :=
  (callChecker_abort ⟨"[TIME]", false⟩ [] (newRecorder "check A(describe A)")
    (fun _ => ⟨[⟨"a.go:1", "foobar"⟩], .error "test is marked failed"⟩)
    "test is marked failed" rfl).1

/-- C9: for a test function called on a recorder whose `Success` flag is false
(as the fresh recorder of `runTest` is), `callTest` leaves `Success` true
exactly when the function completes without aborting; when it aborts with the
message `err`, `Success` is false and the message is appended as one line after
the lines the test logged.  `callTest` always returns a recorder. -/
theorem callTest_success_iff (env : LogEnv) (hist : List Event) (recorder : Recorder)
    (t : List Event → TestOutcome) (hfresh : recorder.Success = false) :
    ((callTest env hist recorder (some t)).Success = true ↔ (t hist).abort = none) ∧
    ((t hist).abort = none →
      (callTest env hist recorder (some t)).Logs = recorder.Logs ++ userLines env (t hist).logs) ∧
    (∀ err, (t hist).abort = some err →
      (callTest env hist recorder (some t)).Success = false ∧
      (callTest env hist recorder (some t)).Logs
        = recorder.Logs ++ userLines env (t hist).logs ++ [env.now ++ " " ++ err]) ∧
    (callTest env hist recorder (some t)).Description = recorder.Description := by
  cases h : (t hist).abort with
  | none => simp [callTest, h, userLogs_eq]
  | some e => simp [callTest, h, userLogs_eq, Recorder.log, logLine, hfresh]

/-- Witness of C9: the test function of `test G`, which calls `Fail`. -/
theorem callTest_success_iff_witness :
    (newRecorder "test G").Success = false ∧
    ((callTest ⟨"[TIME]", false⟩ [] (newRecorder "test G")
        (some (fun _ => ⟨[], some "G has a bug"⟩))).Success = true ↔
      (some "G has a bug" : Option String) = none) :=
  ⟨rfl, (callTest_success_iff ⟨"[TIME]", false⟩ [] (newRecorder "test G")
    (fun _ => ⟨[], some "G has a bug"⟩) rfl).1⟩

/-! ## The scheduler -/

theorem checkRequiredFeatures_eq_true_iff (r : testRunner) (keys : List String) :
    r.checkRequiredFeatures keys = .ok true ↔
      ∀ k ∈ keys, ∃ j g, r.lookupFeature k = some (j, g) ∧
        (g.status = FeaturePass ∨ g.status = FeatureDefect) := by
  induction keys with
  | nil => simp [testRunner.checkRequiredFeatures]
  | cons k ks ih =>
    simp only [testRunner.checkRequiredFeatures, List.mem_cons, forall_eq_or_imp]
    cases hl : r.lookupFeature k with
    | none => simp
    | some p =>
      obtain ⟨j, g⟩ := p
      by_cases hg : g.status ≠ FeaturePass ∧ g.status ≠ FeatureDefect
      · simp only [if_pos hg]
        constructor
        · intro h; cases h
        · rintro ⟨⟨j1, g1, h1, h2⟩, _⟩
          simp only [Option.some.injEq, Prod.mk.injEq] at h1
          obtain ⟨_, rfl⟩ := h1
          rcases h2 with h2 | h2
          · exact absurd h2 hg.1
          · exact absurd h2 hg.2
      · simp only [if_neg hg, ih]
        constructor
        · intro h
          refine ⟨⟨j, g, rfl, ?_⟩, h⟩
          by_cases hp : g.status = FeaturePass
          · exact Or.inl hp
          · right
            by_contra hd
            exact hg ⟨hp, hd⟩
        · intro h; exact h.2

theorem checkRequiredFeatures_registered (r : testRunner) (keys : List String)
    (hreg : ∀ k ∈ keys, (r.lookupFeature k).isSome = true) :
    ∃ b, r.checkRequiredFeatures keys = .ok b := by
  induction keys with
  | nil => exact ⟨true, rfl⟩
  | cons k ks ih =>
    have hk := hreg k (List.mem_cons_self _ _)
    obtain ⟨b, hb⟩ := ih (fun k1 h1 => hreg k1 (List.mem_cons_of_mem _ h1))
    cases hl : r.lookupFeature k with
    | none => simp [hl] at hk
    | some p =>
      obtain ⟨j, g⟩ := p
      by_cases hg : g.status ≠ FeaturePass ∧ g.status ≠ FeatureDefect
      · exact ⟨false, by simp only [testRunner.checkRequiredFeatures, hl, if_pos hg]⟩
      · exact ⟨b, by simp only [testRunner.checkRequiredFeatures, hl, if_neg hg, hb]⟩

theorem nextFeatureFrom_spec (r : testRunner) (l : List featureInfo) (i0 : Nat)
    (hreg : ∀ f ∈ l, ∀ k ∈ f.conf.requiredFeatures, (r.lookupFeature k).isSome = true) :
    (∀ i, r.nextFeatureFrom i0 l = .ok (some i) ↔
      ∃ n f, i = i0 + n ∧ l[n]? = some f ∧ readySpec r f ∧
        ∀ m, m < n → ∀ g, l[m]? = some g → ¬ readySpec r g) ∧
    (r.nextFeatureFrom i0 l = .ok none ↔ ∀ f ∈ l, ¬ readySpec r f) := by
  induction l generalizing i0 with
  | nil => simp [testRunner.nextFeatureFrom]
  | cons f rest ih =>
    have hrest := ih (i0 + 1) (fun g hg => hreg g (List.mem_cons_of_mem _ hg))
    have hready : readySpec r f ↔
        (f.status = FeatureSkip ∧ r.checkRequiredFeatures f.conf.requiredFeatures = .ok true) := by
      simp only [readySpec, checkRequiredFeatures_eq_true_iff]
    -- the scan moves on exactly when the head is not ready
    have hskip : ¬ readySpec r f → r.nextFeatureFrom i0 (f :: rest)
        = r.nextFeatureFrom (i0 + 1) rest := by
      intro hnr
      simp only [testRunner.nextFeatureFrom]
      by_cases hs : f.status = FeatureSkip
      · obtain ⟨b, hb⟩ := checkRequiredFeatures_registered r f.conf.requiredFeatures
          (hreg f (List.mem_cons_self _ _))
        cases b with
        | true => exact absurd (hready.2 ⟨hs, hb⟩) hnr
        | false => simp only [hs, if_true, hb]
      · simp only [hs, if_false]
    have hstop : readySpec r f → r.nextFeatureFrom i0 (f :: rest) = .ok (some i0) := by
      intro hr
      have := hready.1 hr
      simp only [testRunner.nextFeatureFrom, this.1, if_true, this.2]
    by_cases hr : readySpec r f
    · rw [hstop hr]
      constructor
      · intro i
        constructor
        · intro h
          simp only [Except.ok.injEq, Option.some.injEq] at h
          exact ⟨0, f, by omega, by simp, hr, by intro m hm; omega⟩
        · rintro ⟨n, g, hi, hg, _, hmin⟩
          cases n with
          | zero => simp [hi]
          | succ n => exact absurd hr (hmin 0 (by omega) f (by simp))
      · constructor
        · intro h; simp at h
        · intro h; exact absurd hr (h f (List.mem_cons_self _ _))
    · rw [hskip hr]
      constructor
      · intro i
        rw [hrest.1 i]
        constructor
        · rintro ⟨n, g, hi, hg, hrg, hmin⟩
          refine ⟨n + 1, g, by omega, by simpa using hg, hrg, ?_⟩
          intro m hm g1 hg1
          cases m with
          | zero =>
            simp only [List.getElem?_cons_zero, Option.some.injEq] at hg1
            subst hg1; exact hr
          | succ m =>
            exact hmin m (by omega) g1 (by simpa using hg1)
        · rintro ⟨n, g, hi, hg, hrg, hmin⟩
          cases n with
          | zero =>
            simp only [List.getElem?_cons_zero, Option.some.injEq] at hg
            subst hg; exact absurd hrg hr
          | succ n =>
            refine ⟨n, g, by omega, by simpa using hg, hrg, ?_⟩
            intro m hm g1 hg1
            exact hmin (m + 1) (by omega) g1 (by simpa using hg1)
      · rw [hrest.2]
        simp only [List.mem_cons, forall_eq_or_imp]
        constructor
        · intro h; exact ⟨hr, h⟩
        · intro h; exact h.2

/-! ## Updates through a feature pointer -/

theorem resolved_ne_skip {s : FeatureStatus} (h : Resolved s) : s ≠ FeatureSkip := by
  rcases h with h | h
  · rw [h]; exact pass_ne_skip
  · rw [h]; exact defect_ne_skip

theorem lookupFeature_some {r : testRunner} {k : String} {j : Nat} {g : featureInfo}
    (h : r.lookupFeature k = some (j, g)) :
    r.featuresMap.lookup k = some j ∧ r.features[j]? = some g := by
  unfold testRunner.lookupFeature at h
  cases hm : r.featuresMap.lookup k with
  | none => simp [hm] at h
  | some i =>
    cases hg : r.features[i]? with
    | none => simp [hm, hg] at h
    | some f =>
      simp only [hm, hg, Option.some.injEq, Prod.mk.injEq] at h
      obtain ⟨rfl, rfl⟩ := h
      exact ⟨rfl, hg⟩

theorem lookupFeature_of {r : testRunner} {k : String} {j : Nat} {g : featureInfo}
    (hm : r.featuresMap.lookup k = some j) (hg : r.features[j]? = some g) :
    r.lookupFeature k = some (j, g) := by
  simp [testRunner.lookupFeature, hm, hg]

theorem getElem?_set_of_some {l : List featureInfo} {i : Nat} {f : featureInfo}
    (hf : l[i]? = some f) (g : featureInfo) (j : Nat) :
    (l.set i g)[j]? = if i = j then some g else l[j]? := by
  have hi : i < l.length := (List.getElem?_eq_some.1 hf).1
  rw [List.getElem?_set]
  simp [hi]

/-- A point update keeps each feature or replaces it by the new value. -/
theorem lookupFeature_update {r r1 : testRunner} {i : Nat} {f f1 : featureInfo}
    (hf : r.features[i]? = some f) (hfe : r1.features = r.features.set i f1)
    (hm : r1.featuresMap = r.featuresMap) {k : String} {j : Nat} {g : featureInfo}
    (h : r.lookupFeature k = some (j, g)) :
    r1.lookupFeature k = some (j, if i = j then f1 else g) := by
  obtain ⟨h1, h2⟩ := lookupFeature_some h
  apply lookupFeature_of (by rw [hm]; exact h1)
  rw [hfe, getElem?_set_of_some hf]
  by_cases hij : i = j
  · simp [hij]
  · simp [hij, h2]

theorem gateOpen_update {r r1 : testRunner} {i : Nat} {f f1 : featureInfo}
    (hf : r.features[i]? = some f) (hfe : r1.features = r.features.set i f1)
    (hm : r1.featuresMap = r.featuresMap) (hres : Resolved f.status → Resolved f1.status)
    {keys : List String} (h : gateOpen r keys) : gateOpen r1 keys := by
  intro k hk
  obtain ⟨j, g, hl, hg⟩ := h k hk
  refine ⟨j, _, lookupFeature_update hf hfe hm hl, ?_⟩
  by_cases hij : i = j
  · subst hij
    have : g = f := by
      have := (lookupFeature_some hl).2
      rw [hf] at this
      exact (Option.some.inj this).symm
    subst this
    simpa using hres hg
  · simpa [hij] using hg

theorem getElem?_append_singleton {l : List Event} {e a : Event} {p : Nat}
    (h : (l ++ [e])[p]? = some a) : (p < l.length ∧ l[p]? = some a) ∨ (p = l.length ∧ a = e) := by
  by_cases hp : p < l.length
  · left
    rw [List.getElem?_append_left hp] at h
    exact ⟨hp, h⟩
  · right
    rw [List.getElem?_append_right (by omega)] at h
    have hlt : p - l.length < 1 := by
      by_contra hc
      rw [List.getElem?_eq_none (by simp; omega)] at h
      cases h
    have h0 : p - l.length = 0 := by omega
    rw [h0] at h
    simp at h
    exact ⟨by omega, h.symm⟩

/-- A point update that keeps the definition and never leaves `Pass`/`Defect`,
on a feature whose checker has been executed, preserves the invariant. -/
theorem runInv_update {r r1 : testRunner} {i : Nat} {f f1 : featureInfo}
    (hinv : runInv r) (hf : r.features[i]? = some f)
    (hfe : r1.features = r.features.set i f1) (hm : r1.featuresMap = r.featuresMap)
    (ht : r1.trace = r.trace) (hconf : f1.conf = f.conf)
    (hres : Resolved f.status → Resolved f1.status) (hex : Event.check i ∈ r.trace) :
    runInv r1 := by
  obtain ⟨hT, hD, hO⟩ := hinv
  -- the definition stored at an index does not change
  have hold : ∀ (x : Nat) (fx : featureInfo), r1.features[x]? = some fx →
      ∃ gx, r.features[x]? = some gx ∧ gx.conf = fx.conf := by
    intro x fx hx
    rw [hfe, getElem?_set_of_some hf] at hx
    by_cases hix : i = x
    · subst hix
      simp at hx
      subst hx
      exact ⟨f, hf, hconf.symm⟩
    · simp [hix] at hx
      exact ⟨fx, hx, rfl⟩
  refine ⟨?_, ?_, ?_⟩
  · intro j g hj hne
    rw [ht]
    rw [hfe, getElem?_set_of_some hf] at hj
    by_cases hij : i = j
    · subst hij; exact hex
    · simp [hij] at hj
      exact hT j g hj hne
  · intro x fx hx hfx
    rw [ht] at hx
    obtain ⟨gx, hgx, hc⟩ := hold x fx hfx
    rw [← hc]
    exact gateOpen_update hf hfe hm hres (hD x gx hx hgx)
  · intro p x fx hp hfx k hk y hy q hq
    rw [ht] at hp hq
    rw [hm] at hy
    obtain ⟨gx, hgx, hc⟩ := hold x fx hfx
    rw [← hc] at hk
    exact hO p x gx hp hgx k hk y hy q hq

/-- Recording the invocation of a test function preserves the invariant. -/
theorem runInv_trace_test {r : testRunner} (hinv : runInv r) (j : Nat) :
    runInv { r with trace := r.trace ++ [Event.test j] } := by
  obtain ⟨hT, hD, hO⟩ := hinv
  refine ⟨?_, ?_, ?_⟩
  · intro x f hx hne
    exact List.mem_append_left _ (hT x f hx hne)
  · intro x fx hx hfx
    have hx1 : Event.check x ∈ r.trace := by
      simpa using hx
    exact hD x fx hx1 hfx
  · intro p x fx hp hfx k hk y hy q hq
    rcases getElem?_append_singleton hp with ⟨_, hp1⟩ | ⟨_, hp1⟩
    · rcases getElem?_append_singleton hq with ⟨_, hq1⟩ | ⟨_, hq1⟩
      · exact hO p x fx hp1 hfx k hk y hy q hq1
      · cases hq1
    · cases hp1

/-- Executing the checker of a `Skip` feature whose gate is open preserves the
invariant, whatever status and records the feature gets. -/
theorem runInv_check {r r1 : testRunner} {i : Nat} {f f1 : featureInfo}
    (hinv : runInv r) (hf : r.features[i]? = some f)
    (hfe : r1.features = r.features.set i f1) (hm : r1.featuresMap = r.featuresMap)
    (ht : r1.trace = r.trace ++ [Event.check i]) (hconf : f1.conf = f.conf)
    (hskip : f.status = FeatureSkip) (hgate : gateOpen r f.conf.requiredFeatures) :
    runInv r1 := by
  obtain ⟨hT, hD, hO⟩ := hinv
  have hres : Resolved f.status → Resolved f1.status := fun h =>
    absurd hskip (resolved_ne_skip h)
  have hold : ∀ (x : Nat) (fx : featureInfo), r1.features[x]? = some fx →
      ∃ gx, r.features[x]? = some gx ∧ gx.conf = fx.conf := by
    intro x fx hx
    rw [hfe, getElem?_set_of_some hf] at hx
    by_cases hix : i = x
    · subst hix
      simp at hx
      subst hx
      exact ⟨f, hf, hconf.symm⟩
    · simp [hix] at hx
      exact ⟨fx, hx, rfl⟩
  -- a feature required by an executed feature is not the one executed now
  have hne : ∀ keys, gateOpen r keys → ∀ k ∈ keys, ∀ y,
      r.featuresMap.lookup k = some y → y ≠ i := by
    intro keys hg k hk y hy hyi
    obtain ⟨y1, g, hl, hgr⟩ := hg k hk
    obtain ⟨h1, h2⟩ := lookupFeature_some hl
    rw [hy] at h1
    have : y = y1 := Option.some.inj h1
    subst this
    subst hyi
    rw [hf] at h2
    have : f = g := Option.some.inj h2
    subst this
    exact resolved_ne_skip hgr hskip
  refine ⟨?_, ?_, ?_⟩
  · intro j g hj hne1
    rw [ht]
    rw [hfe, getElem?_set_of_some hf] at hj
    by_cases hij : i = j
    · subst hij; simp
    · simp [hij] at hj
      exact List.mem_append_left _ (hT j g hj hne1)
  · intro x fx hx hfx
    obtain ⟨gx, hgx, hc⟩ := hold x fx hfx
    rw [← hc]
    apply gateOpen_update hf hfe hm hres
    rw [ht] at hx
    rcases List.mem_append.1 hx with hx1 | hx1
    · exact hD x gx hx1 hgx
    · simp at hx1
      subst hx1
      rw [hf] at hgx
      have : f = gx := Option.some.inj hgx
      subst this
      exact hgate
  · intro p x fx hp hfx k hk y hy q hq
    rw [ht] at hp hq
    rw [hm] at hy
    obtain ⟨gx, hgx, hc⟩ := hold x fx hfx
    rw [← hc] at hk
    rcases getElem?_append_singleton hp with ⟨hpl, hp1⟩ | ⟨hpl, hp1⟩
    · have hxmem : Event.check x ∈ r.trace := List.mem_iff_getElem?.2 ⟨p, hp1⟩
      rcases getElem?_append_singleton hq with ⟨_, hq1⟩ | ⟨_, hq1⟩
      · exact hO p x gx hp1 hgx k hk y hy q hq1
      · simp only [Event.check.injEq] at hq1
        exact absurd hq1 (hne _ (hD x gx hxmem hgx) k hk y hy)
    · simp only [Event.check.injEq] at hp1
      subst hp1
      rw [hf] at hgx
      have : f = gx := Option.some.inj hgx
      subst this
      rcases getElem?_append_singleton hq with ⟨hql, _⟩ | ⟨_, hq1⟩
      · omega
      · simp only [Event.check.injEq] at hq1
        exact absurd hq1 (hne _ hgate k hk y hy)

/-! ## The initial state -/

theorem newTestRunnerLoop_eq (confs : List featureConf) (r : testRunner) :
    (newTestRunnerLoop confs r).features
        = r.features ++ confs.map (fun c => { conf := c, status := FeatureSkip, records := [] }) ∧
    (newTestRunnerLoop confs r).trace = r.trace ∧
    (newTestRunnerLoop confs r).tests = r.tests ∧
    (newTestRunnerLoop confs r).stories = r.stories := by
  induction confs generalizing r with
  | nil => simp [newTestRunnerLoop]
  | cons c cs ih =>
    obtain ⟨h1, h2, h3, h4⟩ := ih
      { r with
        features := r.features ++ [{ conf := c, status := FeatureSkip, records := [] }]
        featuresMap := (c.key, r.features.length) :: r.featuresMap }
    simp only [newTestRunnerLoop]
    exact ⟨by rw [h1]; simp, h2, h3, h4⟩

theorem newTestRunner_features (reg : Registry) :
    (newTestRunner reg).features
      = reg.featureConfs.map (fun c => { conf := c, status := FeatureSkip, records := [] }) := by
  have h := (newTestRunnerLoop_eq reg.featureConfs
    { features := [], featuresMap := [], stories := reg.storyConfs, tests := reg.testConfs,
      trace := [] }).1
  simpa [newTestRunner] using h

theorem newTestRunner_trace (reg : Registry) : (newTestRunner reg).trace = [] :=
  (newTestRunnerLoop_eq reg.featureConfs _).2.1

theorem newTestRunner_fresh (reg : Registry) (j : Nat) (f : featureInfo)
    (hf : (newTestRunner reg).features[j]? = some f) :
    f.status = FeatureSkip ∧ f.records = [] := by
  have hmem : f ∈ (newTestRunner reg).features := List.mem_iff_getElem?.2 ⟨j, hf⟩
  rw [newTestRunner_features] at hmem
  obtain ⟨c, _, rfl⟩ := List.mem_map.1 hmem
  exact ⟨rfl, rfl⟩

theorem runInv_newTestRunner (reg : Registry) : runInv (newTestRunner reg) := by
  refine ⟨?_, ?_, ?_⟩
  · intro j f hf hne
    obtain ⟨h1, h2⟩ := newTestRunner_fresh reg j f hf
    rcases hne with h | h
    · exact absurd h1 h
    · exact absurd h2 h
  · intro x fx hx
    rw [newTestRunner_trace] at hx
    cases hx
  · intro p x fx hp
    rw [newTestRunner_trace] at hp
    simp at hp

theorem lookup_cons_ne {k a : String} {b : Nat} {es : List (String × Nat)} (h : k ≠ a) :
    List.lookup k ((a, b) :: es) = List.lookup k es := by
  have hb : (k == a) = false := by simpa using h
  simp [List.lookup_cons, hb]

theorem lookup_cons_self (k : String) (b : Nat) (es : List (String × Nat)) :
    List.lookup k ((k, b) :: es) = some b := by
  simp [List.lookup_cons]

/-- A key that no remaining definition carries keeps its binding. -/
theorem newTestRunnerLoop_lookup_absent (confs : List featureConf) (r : testRunner)
    (k : String) (h : ∀ c ∈ confs, c.key ≠ k) :
    (newTestRunnerLoop confs r).featuresMap.lookup k = r.featuresMap.lookup k := by
  induction confs generalizing r with
  | nil => rfl
  | cons c cs ih =>
    rw [newTestRunnerLoop, ih _ (fun c1 h1 => h c1 (List.mem_cons_of_mem _ h1))]
    exact lookup_cons_ne (fun hk => h c (List.mem_cons_self _ _) hk.symm)

/-- With pairwise distinct keys, the map sends the key of the `n`-th remaining
definition to the index at which its feature is stored. -/
theorem newTestRunnerLoop_lookup (confs : List featureConf) (r : testRunner)
    (hnd : (confs.map (fun c => c.key)).Nodup) (n : Nat) (c : featureConf)
    (hc : confs[n]? = some c) :
    (newTestRunnerLoop confs r).featuresMap.lookup c.key = some (r.features.length + n) := by
  induction confs generalizing r n with
  | nil => simp at hc
  | cons c0 cs ih =>
    rw [List.map_cons, List.nodup_cons] at hnd
    rw [newTestRunnerLoop]
    cases n with
    | zero =>
      simp only [List.getElem?_cons_zero, Option.some.injEq] at hc
      subst hc
      rw [newTestRunnerLoop_lookup_absent]
      · exact lookup_cons_self _ _ _
      · intro c1 h1 hk
        exact hnd.1 (List.mem_map.2 ⟨c1, h1, hk⟩)
    | succ n =>
      simp only [List.getElem?_cons_succ] at hc
      rw [ih _ hnd.2 n hc]
      simp only [List.length_append, List.length_singleton]
      congr 1
      omega

theorem newTestRunner_lookup (reg : Registry)
    (hnd : (reg.featureConfs.map (fun c => c.key)).Nodup) (n : Nat) (c : featureConf)
    (hc : reg.featureConfs[n]? = some c) :
    (newTestRunner reg).featuresMap.lookup c.key = some n := by
  have h := newTestRunnerLoop_lookup reg.featureConfs
    { features := [], featuresMap := [], stories := reg.storyConfs, tests := reg.testConfs,
      trace := [] } hnd n c hc
  simpa [newTestRunner] using h

theorem newTestRunner_conf (reg : Registry) :
    (newTestRunner reg).features.map (fun f => f.conf) = reg.featureConfs := by
  rw [newTestRunner_features, List.map_map]
  simp [Function.comp_def]

/-- In a state with the registered content of the fresh runner, the feature
stored at an index carries the definition registered at that index. -/
theorem sameConf_getElem? {reg : Registry} {r : testRunner}
    (hs : sameConf (newTestRunner reg) r) (i : Nat) :
    (r.features[i]?).map (fun f => f.conf) = reg.featureConfs[i]? := by
  rw [← List.getElem?_map, hs.2.2.2, newTestRunner_conf]

/-! ## The report -/

/-- The feature report built from a runtime state. -/
theorem reportFeature_ok {r : testRunner} {key : String} {fr : FeatureReport}
    (h : r.reportFeature key = .ok fr) :
    ∃ i f, r.lookupFeature key = some (i, f) ∧
      fr = { Key := f.conf.key, Description := f.conf.description, Status := f.status,
             Records := f.records } := by
  unfold testRunner.reportFeature at h
  cases hl : r.lookupFeature key with
  | none => rw [hl] at h; cases h
  | some p =>
    obtain ⟨i, f⟩ := p
    rw [hl] at h
    simp only [Except.ok.injEq] at h
    exact ⟨i, f, rfl, h.symm⟩

theorem reportFeatures_mem {r : testRunner} {keys : List String} {frs : List FeatureReport}
    (h : r.reportFeatures keys = .ok frs) {fr : FeatureReport} (hfr : fr ∈ frs) :
    ∃ key, r.reportFeature key = .ok fr := by
  induction keys generalizing frs with
  | nil =>
    simp only [testRunner.reportFeatures, Except.ok.injEq] at h
    subst h; cases hfr
  | cons k ks ih =>
    rw [testRunner.reportFeatures] at h
    cases h1 : r.reportFeature k with
    | error e => rw [h1] at h; cases h
    | ok fr1 =>
      rw [h1] at h
      cases h2 : r.reportFeatures ks with
      | error e => rw [h2] at h; cases h
      | ok frs1 =>
        rw [h2] at h
        simp only [Except.ok.injEq] at h
        subst h
        rcases List.mem_cons.1 hfr with hh | hh
        · subst hh; exact ⟨k, h1⟩
        · exact ih h2 hh

theorem reportStories_mem {r : testRunner} {ss : List storyConf} {srs : List StoryReport}
    {reported : List String} (h : r.reportStories ss = .ok (srs, reported))
    {sr : StoryReport} (hsr : sr ∈ srs) {fr : FeatureReport} (hfr : fr ∈ sr.Features) :
    ∃ key, r.reportFeature key = .ok fr := by
  induction ss generalizing srs reported with
  | nil =>
    simp only [testRunner.reportStories, Except.ok.injEq, Prod.mk.injEq] at h
    obtain ⟨h, _⟩ := h
    subst h; cases hsr
  | cons s rest ih =>
    rw [testRunner.reportStories] at h
    cases h1 : r.reportStory s with
    | error e => rw [h1] at h; cases h
    | ok sr1 =>
      rw [h1] at h
      cases h2 : r.reportStories rest with
      | error e => rw [h2] at h; cases h
      | ok p =>
        obtain ⟨srs1, rep1⟩ := p
        rw [h2] at h
        simp only [Except.ok.injEq, Prod.mk.injEq] at h
        obtain ⟨h, _⟩ := h
        subst h
        rcases List.mem_cons.1 hsr with hh | hh
        · subst hh
          unfold testRunner.reportStory at h1
          cases h3 : r.reportFeatures s.features with
          | error e => rw [h3] at h1; cases h1
          | ok frs =>
            rw [h3] at h1
            simp only [Except.ok.injEq] at h1
            subst h1
            exact reportFeatures_mem h3 hfr
        · exact ih h2 hh

theorem reportRest_mem {r : testRunner} {reported : List String} {fs : List featureInfo}
    {frs : List FeatureReport} (h : r.reportRest reported fs = .ok frs)
    {fr : FeatureReport} (hfr : fr ∈ frs) : ∃ key, r.reportFeature key = .ok fr := by
  induction fs generalizing frs with
  | nil =>
    simp only [testRunner.reportRest, Except.ok.injEq] at h
    subst h; cases hfr
  | cons f rest ih =>
    rw [testRunner.reportRest] at h
    by_cases hm : f.conf.key ∈ reported
    · rw [if_pos hm] at h
      exact ih h hfr
    · rw [if_neg hm] at h
      cases h1 : r.reportFeature f.conf.key with
      | error e => rw [h1] at h; cases h
      | ok fr1 =>
        rw [h1] at h
        cases h2 : r.reportRest reported rest with
        | error e => rw [h2] at h; cases h
        | ok frs1 =>
          rw [h2] at h
          simp only [Except.ok.injEq] at h
          subst h
          rcases List.mem_cons.1 hfr with hh | hh
          · subst hh; exact ⟨_, h1⟩
          · exact ih h2 hh

/-- Every feature report of the report is the report of a runtime state. -/
theorem report_mem {r : testRunner} {rep : Report} (h : r.report = .ok rep)
    {fr : FeatureReport} (hfr : fr ∈ rep.Features ∨ ∃ sr ∈ rep.Stories, fr ∈ sr.Features) :
    ∃ (i : Nat) (f : featureInfo), r.features[i]? = some f ∧
      fr = { Key := f.conf.key, Description := f.conf.description, Status := f.status,
             Records := f.records } := by
  have key : ∃ key, r.reportFeature key = .ok fr := by
    unfold testRunner.report at h
    cases h1 : r.reportStories r.stories with
    | error e => rw [h1] at h; cases h
    | ok p =>
      obtain ⟨srs, reported⟩ := p
      rw [h1] at h
      simp only [] at h
      cases h2 : r.reportRest reported r.features with
      | error e => rw [h2] at h; cases h
      | ok frs =>
        rw [h2] at h
        simp only [Except.ok.injEq] at h
        subst h
        rcases hfr with hh | ⟨sr, hsr, hh⟩
        · exact reportRest_mem h2 hh
        · exact reportStories_mem h1 hsr hh
  obtain ⟨k, hk⟩ := key
  obtain ⟨i, f, hl, he⟩ := reportFeature_ok hk
  exact ⟨i, f, (lookupFeature_some hl).2, he⟩

/-! ## The steps of `run` -/

theorem sameConf_refl (r : testRunner) : sameConf r r := ⟨rfl, rfl, rfl, rfl⟩

theorem sameConf_trans {r r1 r2 : testRunner} (h1 : sameConf r r1) (h2 : sameConf r1 r2) :
    sameConf r r2 :=
  ⟨h2.1.trans h1.1, h2.2.1.trans h1.2.1, h2.2.2.1.trans h1.2.2.1, h2.2.2.2.trans h1.2.2.2⟩

theorem map_conf_set {l : List featureInfo} {i : Nat} {f f1 : featureInfo}
    (hf : l[i]? = some f) (hconf : f1.conf = f.conf) :
    (l.set i f1).map (fun g => g.conf) = l.map (fun g => g.conf) := by
  apply List.ext_getElem?
  intro j
  rw [List.getElem?_map, getElem?_set_of_some hf, List.getElem?_map]
  by_cases hij : i = j
  · subst hij; simp [hf, hconf]
  · simp [hij]

theorem nextFeatureFrom_some (r : testRunner) (l : List featureInfo) (i0 i : Nat)
    (h : r.nextFeatureFrom i0 l = .ok (some i)) :
    ∃ n f, i = i0 + n ∧ l[n]? = some f ∧ f.status = FeatureSkip ∧
      r.checkRequiredFeatures f.conf.requiredFeatures = .ok true := by
  induction l generalizing i0 with
  | nil => simp [testRunner.nextFeatureFrom] at h
  | cons f rest ih =>
    have hrec : r.nextFeatureFrom (i0 + 1) rest = .ok (some i) →
        ∃ n g, i = i0 + n ∧ (f :: rest)[n]? = some g ∧ g.status = FeatureSkip ∧
          r.checkRequiredFeatures g.conf.requiredFeatures = .ok true := by
      intro h1
      obtain ⟨n, g, hi, hg, hs, hc⟩ := ih (i0 + 1) h1
      exact ⟨n + 1, g, by omega, by simpa using hg, hs, hc⟩
    simp only [testRunner.nextFeatureFrom] at h
    by_cases hs : f.status = FeatureSkip
    · rw [if_pos hs] at h
      cases hc : r.checkRequiredFeatures f.conf.requiredFeatures with
      | error e => rw [hc] at h; cases h
      | ok b =>
        rw [hc] at h
        cases b with
        | true =>
          simp only [Except.ok.injEq, Option.some.injEq] at h
          exact ⟨0, f, by omega, by simp, hs, hc⟩
        | false => exact hrec h
    · rw [if_neg hs] at h
      exact hrec h

/-- The feature returned by `nextFeature` is `Skip` and its gate is open. -/
theorem nextFeature_some {r : testRunner} {i : Nat} (h : r.nextFeature = .ok (some i)) :
    ∃ f, r.features[i]? = some f ∧ f.status = FeatureSkip ∧
      gateOpen r f.conf.requiredFeatures := by
  obtain ⟨n, f, hi, hf, hs, hc⟩ := nextFeatureFrom_some r r.features 0 i h
  have : i = n := by omega
  subst this
  exact ⟨f, hf, hs, (checkRequiredFeatures_eq_true_iff r _).1 hc⟩

/-- What `runFeatureChecker` changes: the status and the records of the feature
at index `i`, and the trace. -/
theorem runFeatureChecker_eq (env : LogEnv) {r : testRunner} {i : Nat} {f : featureInfo}
    (hf : r.features[i]? = some f) :
    ∃ f1, f1.conf = f.conf ∧
      f1.status = (callChecker env r.trace
        (newRecorder ("check " ++ f.conf.key ++ "(" ++ f.conf.description ++ ")"))
        f.conf.checkF).2 ∧
      (∃ rec, f1.records = f.records ++ [rec]) ∧
      (r.runFeatureChecker env i).features = r.features.set i f1 ∧
      (r.runFeatureChecker env i).featuresMap = r.featuresMap ∧
      (r.runFeatureChecker env i).tests = r.tests ∧
      (r.runFeatureChecker env i).stories = r.stories ∧
      (r.runFeatureChecker env i).trace = r.trace ++ [Event.check i] := by
  simp only [testRunner.runFeatureChecker, hf, testRunner.setFeature]
  refine ⟨_, ?_, ?_, ?_, rfl, trivial, trivial, trivial, trivial⟩
  · rfl
  · rfl
  · exact ⟨_, rfl⟩

theorem runInv_runFeatureChecker (env : LogEnv) {r : testRunner} {i : Nat}
    (hinv : runInv r) (h : r.nextFeature = .ok (some i)) :
    runInv (r.runFeatureChecker env i) := by
  obtain ⟨f, hf, hs, hg⟩ := nextFeature_some h
  obtain ⟨f1, hc, _, _, hfe, hm, _, _, ht⟩ := runFeatureChecker_eq env hf
  exact runInv_check hinv hf hfe hm ht hc hs hg

theorem sameConf_runFeatureChecker (env : LogEnv) (r : testRunner) (i : Nat) :
    sameConf r (r.runFeatureChecker env i) := by
  cases hf : r.features[i]? with
  | none => simp only [testRunner.runFeatureChecker, hf]; exact sameConf_refl r
  | some f =>
    obtain ⟨f1, hc, _, _, hfe, hm, h1, h2, _⟩ := runFeatureChecker_eq env hf
    exact ⟨hm, h1, h2, by rw [hfe]; exact map_conf_set hf hc⟩

theorem featureIter_succ (env : LogEnv) (n : Nat) (r : testRunner) :
    testRunner.featureIter env (n + 1) r =
      match (testRunner.featureIter env n r).nextFeature with
      | .ok (some i) => (testRunner.featureIter env n r).runFeatureChecker env i
      | _ => testRunner.featureIter env n r := by
  induction n generalizing r with
  | zero =>
    simp only [testRunner.featureIter]
  | succ n ih =>
    rw [testRunner.featureIter]
    cases hn : r.nextFeature with
    | error e => simp only [testRunner.featureIter, hn]
    | ok o =>
      cases o with
      | none => simp only [testRunner.featureIter, hn]
      | some i =>
        simp only []
        rw [ih]
        simp only [testRunner.featureIter, hn]

theorem runInv_featureIter (env : LogEnv) (n : Nat) {r : testRunner} (hinv : runInv r) :
    runInv (testRunner.featureIter env n r) := by
  induction n generalizing r with
  | zero => exact hinv
  | succ n ih =>
    rw [testRunner.featureIter]
    cases hn : r.nextFeature with
    | error e => exact hinv
    | ok o =>
      cases o with
      | none => exact hinv
      | some i => exact ih (runInv_runFeatureChecker env hinv hn)

theorem sameConf_featureIter (env : LogEnv) (n : Nat) (r : testRunner) :
    sameConf r (testRunner.featureIter env n r) := by
  induction n generalizing r with
  | zero => exact sameConf_refl r
  | succ n ih =>
    rw [testRunner.featureIter]
    cases hn : r.nextFeature with
    | error e => exact sameConf_refl r
    | ok o =>
      cases o with
      | none => exact sameConf_refl r
      | some i => exact sameConf_trans (sameConf_runFeatureChecker env r i) (ih _)

/-- When the first loop of `run` ends within the fuel, its final state is the
state after that many iterations and no feature is left to execute. -/
theorem runFeatures_eq_some (env : LogEnv) (fuel : Nat) (r rf : testRunner)
    (h : testRunner.runFeatures env fuel r = some (.ok rf)) :
    rf = testRunner.featureIter env fuel r ∧ rf.nextFeature = .ok none := by
  induction fuel generalizing r with
  | zero => simp [testRunner.runFeatures] at h
  | succ n ih =>
    rw [testRunner.runFeatures] at h
    rw [testRunner.featureIter]
    cases hn : r.nextFeature with
    | error e => rw [hn] at h; simp at h
    | ok o =>
      cases o with
      | none =>
        rw [hn] at h
        simp only [Option.some.injEq, Except.ok.injEq] at h
        subst h
        exact ⟨rfl, hn⟩
      | some i =>
        rw [hn] at h
        exact ih _ h

/-! ## The loop of `runTest` -/

theorem runTestBody_conf (env : LogEnv) (recorder : Recorder) (f : featureInfo) :
    (runTestBody env recorder f).conf = f.conf := rfl

theorem runTestBody_status (env : LogEnv) (recorder : Recorder) (f : featureInfo) :
    (runTestBody env recorder f).status =
      if recorder.Success = false ∧ f.status = FeaturePass then FeatureDefect else f.status :=
  rfl

theorem runTestBody_records (env : LogEnv) (recorder : Recorder) (f : featureInfo) :
    (runTestBody env recorder f).records = f.records ++
      [recorder.copy.Log env "runner.go:126"
        (testFinish recorder.copy.Success (runTestBody env recorder f).status)] := rfl

theorem runTestBody_resolved (env : LogEnv) (recorder : Recorder) (f : featureInfo)
    (h : Resolved f.status) : Resolved (runTestBody env recorder f).status := by
  rw [runTestBody_status]
  by_cases hd : recorder.Success = false ∧ f.status = FeaturePass
  · rw [if_pos hd]; exact Or.inr rfl
  · rw [if_neg hd]; exact h

theorem runTestLoop_cons (env : LogEnv) (recorder : Recorder) (k : String) (ks : List String)
    (r : testRunner) (i : Nat) (f : featureInfo) (hl : r.lookupFeature k = some (i, f)) :
    testRunner.runTestLoop env recorder (k :: ks) r =
      testRunner.runTestLoop env recorder ks (r.setFeature i (runTestBody env recorder f)) := by
  rw [testRunner.runTestLoop, hl]

theorem testEvol_runTestLoop (env : LogEnv) (recorder : Recorder) (keys : List String)
    (r r1 : testRunner) (h : testRunner.runTestLoop env recorder keys r = .ok r1) :
    testEvol recorder keys r r1 := by
  induction keys generalizing r with
  | nil =>
    simp only [testRunner.runTestLoop, Except.ok.injEq] at h
    subst h
    exact ⟨sameConf_refl r, rfl, fun j f hf => ⟨f, hf, rfl, Or.inl rfl, Or.inl rfl, [], by simp⟩⟩
  | cons k ks ih =>
    cases hl : r.lookupFeature k with
    | none => rw [testRunner.runTestLoop, hl] at h; cases h
    | some p =>
      obtain ⟨i, f0⟩ := p
      rw [runTestLoop_cons env recorder k ks r i f0 hl] at h
      obtain ⟨hmi, hfi⟩ := lookupFeature_some hl
      have hget : ∀ j : Nat, (r.setFeature i (runTestBody env recorder f0)).features[j]?
          = if i = j then some (runTestBody env recorder f0) else r.features[j]? :=
        fun j => getElem?_set_of_some hfi _ j
      have h0 : sameConf r (r.setFeature i (runTestBody env recorder f0)) :=
        ⟨rfl, rfl, rfl, map_conf_set hfi (runTestBody_conf env recorder f0)⟩
      obtain ⟨hs, ht, hstep⟩ := ih _ h
      refine ⟨sameConf_trans h0 hs, ht, ?_⟩
      intro j f hf
      by_cases hij : i = j
      · subst hij
        rw [hfi] at hf
        have : f0 = f := Option.some.inj hf
        subst this
        obtain ⟨f1, h1, h2, _, h4, ext, h5⟩ := hstep i (runTestBody env recorder f0)
          (by rw [hget]; simp)
        refine ⟨f1, h1, h2, Or.inr ⟨k, List.mem_cons_self _ _, hmi⟩, ?_, ?_⟩
        · rw [runTestBody_status] at h4
          by_cases hd : recorder.Success = false ∧ f0.status = FeaturePass
          · right
            rw [if_pos hd] at h4
            rcases h4 with h4 | h4
            · exact ⟨hd.2, h4, hd.1⟩
            · exact ⟨hd.2, h4.2.1, hd.1⟩
          · rw [if_neg hd] at h4
            rcases h4 with h4 | h4
            · exact Or.inl h4
            · exact Or.inr h4
        · rw [runTestBody_records] at h5
          exact ⟨[recorder.copy.Log env "runner.go:126"
            (testFinish recorder.copy.Success (runTestBody env recorder f0).status)] ++ ext,
            by rw [h5, List.append_assoc]⟩
      · obtain ⟨f1, h1, h2, h3, h4, h5⟩ := hstep j f (by rw [hget]; simp [hij, hf])
        refine ⟨f1, h1, h2, ?_, h4, h5⟩
        rcases h3 with h3 | ⟨k1, hk1, hk2⟩
        · exact Or.inl h3
        · exact Or.inr ⟨k1, List.mem_cons_of_mem _ hk1, hk2⟩

/-- With its gate open, the loop of `runTest` ends without a failed lookup and
preserves the invariant. -/
theorem runInv_runTestLoop (env : LogEnv) (recorder : Recorder) (keys : List String)
    (r : testRunner) (hinv : runInv r) (hgate : gateOpen r keys) :
    ∃ r1, testRunner.runTestLoop env recorder keys r = .ok r1 ∧ runInv r1 := by
  induction keys generalizing r with
  | nil => exact ⟨r, rfl, hinv⟩
  | cons k ks ih =>
    obtain ⟨i, f, hl, hres⟩ := hgate k (List.mem_cons_self _ _)
    obtain ⟨_, hfi⟩ := lookupFeature_some hl
    have hex : Event.check i ∈ r.trace := hinv.1 i f hfi (Or.inl (resolved_ne_skip hres))
    rw [runTestLoop_cons env recorder k ks r i f hl]
    apply ih
    · exact @runInv_update r (r.setFeature i (runTestBody env recorder f)) i f _ hinv hfi rfl
        rfl rfl (runTestBody_conf env recorder f) (runTestBody_resolved env recorder f) hex
    · exact @gateOpen_update r (r.setFeature i (runTestBody env recorder f)) i f _ hfi rfl rfl
        (runTestBody_resolved env recorder f) ks
        (fun k1 hk1 => hgate k1 (List.mem_cons_of_mem _ hk1))

theorem gateOpen_trace (r : testRunner) (tr : List Event) (keys : List String)
    (h : gateOpen r keys) : gateOpen { r with trace := tr } keys := h

/-- A test whose gate is open runs to its end and preserves the invariant. -/
theorem runInv_runTest (env : LogEnv) (r : testRunner) (j : Nat) (t : testConf)
    (hinv : runInv r) (hgate : gateOpen r t.features) :
    ∃ r1, r.runTest env j t = .ok r1 ∧ runInv r1 := by
  unfold testRunner.runTest
  exact runInv_runTestLoop env _ t.features _ (runInv_trace_test hinv j)
    (gateOpen_trace r _ _ hgate)

theorem sameConf_runTest (env : LogEnv) (r r1 : testRunner) (j : Nat) (t : testConf)
    (h : r.runTest env j t = .ok r1) : sameConf r r1 := by
  unfold testRunner.runTest at h
  have := (testEvol_runTestLoop env _ _ _ _ h).1
  exact this

theorem runTestsFrom_inv (env : LogEnv) (j : Nat) (ts : List testConf) (r rf : testRunner)
    (hinv : runInv r) (h : testRunner.runTestsFrom env j ts r = .ok rf) :
    runInv rf ∧ sameConf r rf := by
  induction ts generalizing r j with
  | nil =>
    simp only [testRunner.runTestsFrom, Except.ok.injEq] at h
    subst h
    exact ⟨hinv, sameConf_refl r⟩
  | cons t rest ih =>
    rw [testRunner.runTestsFrom] at h
    cases hc : r.checkRequiredFeatures t.features with
    | error e => rw [hc] at h; cases h
    | ok b =>
      rw [hc] at h
      cases b with
      | false => exact ih (j + 1) r hinv h
      | true =>
        simp only [] at h
        obtain ⟨r1, hr1, hinv1⟩ := runInv_runTest env r j t hinv
          ((checkRequiredFeatures_eq_true_iff r _).1 hc)
        rw [hr1] at h
        simp only [] at h
        obtain ⟨h1, h2⟩ := ih (j + 1) r1 hinv1 h
        exact ⟨h1, sameConf_trans (sameConf_runTest env r r1 j t hr1) h2⟩

/-- The final state of a `run` that ends satisfies the invariant and carries the
registered content of the initial state. -/
theorem run_inv (env : LogEnv) (fuel : Nat) (r rf : testRunner) (hinv : runInv r)
    (h : r.run env fuel = some (.ok rf)) : runInv rf ∧ sameConf r rf := by
  unfold testRunner.run at h
  cases hf : testRunner.runFeatures env fuel r with
  | none => rw [hf] at h; cases h
  | some x =>
    cases x with
    | error e => rw [hf] at h; simp at h
    | ok r1 =>
      rw [hf] at h
      simp only [Option.some.injEq] at h
      obtain ⟨he, _⟩ := runFeatures_eq_some env fuel r r1 hf
      have hinv1 : runInv r1 := by rw [he]; exact runInv_featureIter env fuel hinv
      have hs1 : sameConf r r1 := by rw [he]; exact sameConf_featureIter env fuel r
      obtain ⟨h1, h2⟩ := runTestsFrom_inv env 0 r1.tests r1 rf hinv1 h
      exact ⟨h1, sameConf_trans hs1 h2⟩

/-- C1: in a runner state where every required key is registered,
`nextFeature` returns the first feature in registration order that is `Skip`
and whose every required feature has status `Pass` or `Defect`, and it returns
nil exactly when no registered feature satisfies both conditions. -/
theorem nextFeature_first_ready (r : testRunner)
    (hreg : ∀ f ∈ r.features, ∀ k ∈ f.conf.requiredFeatures,
      (r.lookupFeature k).isSome = true) :
    (∀ i, r.nextFeature = .ok (some i) ↔
      ∃ f, r.features[i]? = some f ∧ readySpec r f ∧
        ∀ j, j < i → ∀ g, r.features[j]? = some g → ¬ readySpec r g) ∧
    (r.nextFeature = .ok none ↔ ∀ f ∈ r.features, ¬ readySpec r f) := by
  have h := nextFeatureFrom_spec r r.features 0 hreg
  refine ⟨fun i => ?_, h.2⟩
  rw [testRunner.nextFeature, h.1 i]
  constructor
  · rintro ⟨n, f, hi, hf, hr, hmin⟩
    have : i = n := by omega
    subst this
    exact ⟨f, hf, hr, hmin⟩
  · rintro ⟨f, hf, hr, hmin⟩
    exact ⟨i, f, by omega, hf, hr, hmin⟩

/-- Witness of C1: the registry `A`, `D requires A` before any checker has run;
`nextFeature` returns `A`. -/
theorem nextFeature_first_ready_witness :
    (newTestRunner ⟨[⟨"A", "describe A", [], none⟩, ⟨"D", "describe D", ["A"], none⟩],
        [], []⟩).nextFeature = .ok (some 0) ↔
      ∃ f, (newTestRunner ⟨[⟨"A", "describe A", [], none⟩, ⟨"D", "describe D", ["A"], none⟩],
          [], []⟩).features[0]? = some f ∧
        readySpec (newTestRunner ⟨[⟨"A", "describe A", [], none⟩,
          ⟨"D", "describe D", ["A"], none⟩], [], []⟩) f ∧
        ∀ j, j < 0 → ∀ g, (newTestRunner ⟨[⟨"A", "describe A", [], none⟩,
          ⟨"D", "describe D", ["A"], none⟩], [], []⟩).features[j]? = some g →
          ¬ readySpec (newTestRunner ⟨[⟨"A", "describe A", [], none⟩,
            ⟨"D", "describe D", ["A"], none⟩], [], []⟩) g :=
  (nextFeature_first_ready
    (newTestRunner ⟨[⟨"A", "describe A", [], none⟩, ⟨"D", "describe D", ["A"], none⟩], [], []⟩)
    (by decide)).1 0

/-- C2: whenever the first loop of `run`, started on a fresh runner, executes
the checker of a feature (iteration `n + 1` executes the feature `i` that
`nextFeature` returns in the state after `n` iterations), every feature it
requires is registered, has status `Pass` or `Defect` at that moment and has
had its own checker executed earlier in the run; hence in the sequence of
executed checkers, in every state of the loop and in the final state of `run`,
each execution of a feature comes after every execution of a feature it
requires.  The statement needs no assumption on the registry: with an
unregistered required key `nextFeature` fails instead of returning a feature. -/
theorem checker_runs_after_required (env : LogEnv) (reg : Registry) (n i : Nat)
    (f : featureInfo)
    (hexec : ((newTestRunner reg).featureIter env n).nextFeature = .ok (some i))
    (hf : ((newTestRunner reg).featureIter env n).features[i]? = some f) :
    (newTestRunner reg).featureIter env (n + 1)
      = ((newTestRunner reg).featureIter env n).runFeatureChecker env i ∧
    ((newTestRunner reg).featureIter env (n + 1)).trace
      = ((newTestRunner reg).featureIter env n).trace ++ [Event.check i] ∧
    (∀ k ∈ f.conf.requiredFeatures, ∃ j g,
      ((newTestRunner reg).featureIter env n).lookupFeature k = some (j, g) ∧
      (g.status = FeaturePass ∨ g.status = FeatureDefect) ∧
      Event.check j ∈ ((newTestRunner reg).featureIter env n).trace) ∧
    (∀ (m p q x y : Nat) (fx : featureInfo) (k : String),
      ((newTestRunner reg).featureIter env m).trace[p]? = some (Event.check x) →
      ((newTestRunner reg).featureIter env m).trace[q]? = some (Event.check y) →
      ((newTestRunner reg).featureIter env m).features[x]? = some fx →
      k ∈ fx.conf.requiredFeatures →
      ((newTestRunner reg).featureIter env m).featuresMap.lookup k = some y → q < p) ∧
    (∀ (fuel : Nat) (rf : testRunner), (newTestRunner reg).run env fuel = some (.ok rf) →
      ∀ (p q x y : Nat) (fx : featureInfo) (k : String),
        rf.trace[p]? = some (Event.check x) → rf.trace[q]? = some (Event.check y) →
        rf.features[x]? = some fx → k ∈ fx.conf.requiredFeatures →
        rf.featuresMap.lookup k = some y → q < p) := by
  have hinv := runInv_featureIter env n (runInv_newTestRunner reg)
  have hstep : (newTestRunner reg).featureIter env (n + 1)
      = ((newTestRunner reg).featureIter env n).runFeatureChecker env i := by
    rw [featureIter_succ, hexec]
  refine ⟨hstep, ?_, ?_, ?_, ?_⟩
  · rw [hstep]
    obtain ⟨_, _, _, _, _, _, _, _, ht⟩ := runFeatureChecker_eq env hf
    exact ht
  · obtain ⟨f0, hf0, hs, hg⟩ := nextFeature_some hexec
    rw [hf] at hf0
    have : f = f0 := Option.some.inj hf0
    subst this
    intro k hk
    obtain ⟨j, g, hl, hr⟩ := hg k hk
    exact ⟨j, g, hl, hr, hinv.1 j g (lookupFeature_some hl).2 (Or.inl (resolved_ne_skip hr))⟩
  · intro m p q x y fx k hp hq hfx hk hy
    exact (runInv_featureIter env m (runInv_newTestRunner reg)).2.2 p x fx hp hfx k hk y hy q hq
  · intro fuel rf hrun p q x y fx k hp hq hfx hk hy
    exact (run_inv env fuel _ rf (runInv_newTestRunner reg) hrun).1.2.2 p x fx hp hfx k hk y hy q hq

/-- Witness of C2: in the registry `A`, `D requires A`, both returning `Pass`,
the second iteration executes `D`. -/
theorem checker_runs_after_required_witness :
    ((newTestRunner ⟨[⟨"A", "describe A", [], some (fun _ => ⟨[], .ok FeaturePass⟩)⟩,
        ⟨"D", "describe D", ["A"], some (fun _ => ⟨[], .ok FeaturePass⟩)⟩], [], []⟩).featureIter
        ⟨"[TIME]", false⟩ 2).trace
      = ((newTestRunner ⟨[⟨"A", "describe A", [], some (fun _ => ⟨[], .ok FeaturePass⟩)⟩,
        ⟨"D", "describe D", ["A"], some (fun _ => ⟨[], .ok FeaturePass⟩)⟩], [], []⟩).featureIter
        ⟨"[TIME]", false⟩ 1).trace ++ [Event.check 1] :=
  (checker_runs_after_required ⟨"[TIME]", false⟩
    ⟨[⟨"A", "describe A", [], some (fun _ => ⟨[], .ok FeaturePass⟩)⟩,
      ⟨"D", "describe D", ["A"], some (fun _ => ⟨[], .ok FeaturePass⟩)⟩], [], []⟩ 1 1
    ⟨⟨"D", "describe D", ["A"], some (fun _ => ⟨[], .ok FeaturePass⟩)⟩, FeatureSkip, []⟩
    (by rfl) (by rfl)).2.1

/-- C3: in a registry with pairwise distinct keys, let the feature `X` list the
key `k` of a feature that ends the run with status `Fail` or `NotImplemented`
(the status its checker resolved it to).  Then the checker of `X` is never
executed, `X` ends the run at `Skip` without any record, and every feature
report for the key of `X` in the report returned by `RunAll` has status `SKIP`
and an empty record list. -/
theorem dependent_of_failed_is_skipped (env : LogEnv) (reg : Registry) (fuel : Nat)
    (rf : testRunner) (i j : Nat) (X : featureConf) (k : String) (g : featureInfo)
    (hnd : (reg.featureConfs.map (fun c => c.key)).Nodup)
    (hrun : (newTestRunner reg).run env fuel = some (.ok rf))
    (hX : reg.featureConfs[i]? = some X) (hk : k ∈ X.requiredFeatures)
    (hY : rf.lookupFeature k = some (j, g))
    (hres : g.status = FeatureFail ∨ g.status = FeatureNotImplemented) :
    RunAll env fuel reg = some rf.report ∧
    Event.check i ∉ rf.trace ∧
    rf.features[i]? = some { conf := X, status := FeatureSkip, records := [] } ∧
    rf.reportFeature X.key
      = .ok ⟨X.key, X.description, FeatureSkip, []⟩ ∧
    ∀ rep, rf.report = .ok rep →
      ∀ fr, (fr ∈ rep.Features ∨ ∃ sr ∈ rep.Stories, fr ∈ sr.Features) → fr.Key = X.key →
        fr.Status = FeatureSkip ∧ fr.Records = [] := by
  obtain ⟨hinv, hs⟩ := run_inv env fuel _ rf (runInv_newTestRunner reg) hrun
  have hnr : ¬ Resolved g.status := by
    rintro (h | h)
    · rcases hres with h1 | h1
      · rw [h1] at h; exact fail_ne_pass h
      · rw [h1] at h; exact notImplemented_ne_pass h
    · rcases hres with h1 | h1
      · rw [h1] at h; exact fail_ne_defect h
      · rw [h1] at h; exact notImplemented_ne_defect h
  -- the runtime state of `X`
  obtain ⟨fx, hfx, hcx⟩ : ∃ fx, rf.features[i]? = some fx ∧ fx.conf = X := by
    have h := sameConf_getElem? hs i
    rw [hX] at h
    cases hfi : rf.features[i]? with
    | none => rw [hfi] at h; cases h
    | some fx =>
      rw [hfi] at h
      simp only [Option.map_some', Option.some.injEq] at h
      exact ⟨fx, rfl, h⟩
  have hnot : Event.check i ∉ rf.trace := by
    intro hmem
    have hgate := hinv.2.1 i fx hmem hfx
    rw [hcx] at hgate
    obtain ⟨j1, g1, hl1, hr1⟩ := hgate k hk
    rw [hY] at hl1
    simp only [Option.some.injEq, Prod.mk.injEq] at hl1
    obtain ⟨_, rfl⟩ := hl1
    exact hnr hr1
  have hfresh : fx.status = FeatureSkip ∧ fx.records = [] := by
    constructor
    · by_contra h
      exact hnot (hinv.1 i fx hfx (Or.inl h))
    · by_contra h
      exact hnot (hinv.1 i fx hfx (Or.inr h))
  have hfx1 : fx = { conf := X, status := FeatureSkip, records := [] } := by
    cases fx
    simp only at hcx hfresh
    simp [hcx, hfresh.1, hfresh.2]
  have hmap : rf.featuresMap.lookup X.key = some i := by
    rw [hs.1]
    exact newTestRunner_lookup reg hnd i X hX
  refine ⟨?_, hnot, by rw [hfx, hfx1], ?_, ?_⟩
  · simp only [RunAll, hrun]
  · simp only [testRunner.reportFeature, lookupFeature_of hmap hfx, hfx1]
  · intro rep hrep fr hfr hkey
    obtain ⟨i1, f1, hf1, he⟩ := report_mem hrep hfr
    have hc1 : reg.featureConfs[i1]? = some f1.conf := by
      rw [← sameConf_getElem? hs i1, hf1]
      rfl
    have hm1 := newTestRunner_lookup reg hnd i1 f1.conf hc1
    have hm := newTestRunner_lookup reg hnd i X hX
    have hk1 : f1.conf.key = X.key := by rw [← hkey, he]
    rw [hk1, hm] at hm1
    have : i = i1 := Option.some.inj hm1
    subst this
    rw [hfx] at hf1
    have : fx = f1 := Option.some.inj hf1
    subst this
    rw [he]
    exact hfresh

/-- Witness of C3: `C` fails and `X` requires `C`; after the run `X` has not been
executed. -/
theorem dependent_of_failed_is_skipped_witness :
    Event.check 1 ∉ ((newTestRunner
      ⟨[⟨"C", "describe C", [], some (fun _ => ⟨[], .ok FeatureFail⟩)⟩,
        ⟨"X", "describe X", ["C"], some (fun _ => ⟨[], .ok FeaturePass⟩)⟩], [], []⟩).featureIter
        ⟨"[TIME]", false⟩ 1).trace :=
  (dependent_of_failed_is_skipped ⟨"[TIME]", false⟩
    ⟨[⟨"C", "describe C", [], some (fun _ => ⟨[], .ok FeatureFail⟩)⟩,
      ⟨"X", "describe X", ["C"], some (fun _ => ⟨[], .ok FeaturePass⟩)⟩], [], []⟩ 2
    ((newTestRunner
      ⟨[⟨"C", "describe C", [], some (fun _ => ⟨[], .ok FeatureFail⟩)⟩,
        ⟨"X", "describe X", ["C"], some (fun _ => ⟨[], .ok FeaturePass⟩)⟩], [], []⟩).featureIter
        ⟨"[TIME]", false⟩ 1)
    1 0 ⟨"X", "describe X", ["C"], some (fun _ => ⟨[], .ok FeaturePass⟩)⟩ "C"
    ⟨⟨"C", "describe C", [], some (fun _ => ⟨[], .ok FeatureFail⟩)⟩, FeatureFail,
      [⟨"check C(describe C)", ["[TIME] check finish. success=false, feature.status=FAIL"],
        false⟩]⟩
    (by decide) (by rfl) (by rfl) (by decide) (by rfl) (Or.inl rfl)).2.1

/-! ## A checker outcome of `Skip` -/

/-- A runner with one feature without requirements, at status `Skip`, whose
checker leaves it at `Skip`, never leaves the first loop of `run`: every
iteration executes the checker again. -/
theorem single_skip_loops (env : LogEnv) (c : featureConf) (hreq : c.requiredFeatures = [])
    (hskip : ∀ hist recorder, (callChecker env hist recorder c.checkF).2 = FeatureSkip)
    (n : Nat) (recs : List Recorder) (tr : List Event) (m : List (String × Nat))
    (ss : List storyConf) (ts : List testConf) :
    (testRunner.featureIter env n ⟨[⟨c, FeatureSkip, recs⟩], m, ss, ts, tr⟩).trace
        = tr ++ List.replicate n (Event.check 0) ∧
    testRunner.runFeatures env n ⟨[⟨c, FeatureSkip, recs⟩], m, ss, ts, tr⟩ = none := by
  induction n generalizing recs tr with
  | zero => simp [testRunner.featureIter, testRunner.runFeatures]
  | succ n ih =>
    have hnext : (⟨[⟨c, FeatureSkip, recs⟩], m, ss, ts, tr⟩ : testRunner).nextFeature
        = .ok (some 0) := by
      simp [testRunner.nextFeature, testRunner.nextFeatureFrom, hreq,
        testRunner.checkRequiredFeatures]
    have hstep : ∃ recs1, testRunner.runFeatureChecker env
        (⟨[⟨c, FeatureSkip, recs⟩], m, ss, ts, tr⟩ : testRunner) 0
        = ⟨[⟨c, FeatureSkip, recs1⟩], m, ss, ts, tr ++ [Event.check 0]⟩ := by
      refine ⟨recs ++ [(callChecker env tr
        (newRecorder ("check " ++ c.key ++ "(" ++ c.description ++ ")")) c.checkF).1.Log env
        "runner.go:96" (checkFinish (callChecker env tr
          (newRecorder ("check " ++ c.key ++ "(" ++ c.description ++ ")")) c.checkF).1.Success
          (callChecker env tr
            (newRecorder ("check " ++ c.key ++ "(" ++ c.description ++ ")")) c.checkF).2)], ?_⟩
      simp only [testRunner.runFeatureChecker, List.getElem?_cons_zero, testRunner.setFeature,
        List.set_cons_zero, hskip]
    obtain ⟨recs1, hrecs1⟩ := hstep
    obtain ⟨h1, h2⟩ := ih recs1 (tr ++ [Event.check 0])
    rw [testRunner.featureIter, testRunner.runFeatures, hnext]
    simp only [hrecs1, h1, h2, and_true]
    rw [List.append_assoc, List.replicate_succ, List.singleton_append]

/-- C4: on the registry whose single feature `A` has a checker returning `Skip`,
the `n`-th iteration of the first loop of `run` invokes that checker for the
`n`-th time (two invocations after two iterations), and `run` does not end
within any fuel. -/
theorem skip_checker_runs_again (env : LogEnv) (n : Nat) :
    ((newTestRunner skipRegistry).featureIter env n).trace
        = List.replicate n (Event.check 0) ∧
    ((newTestRunner skipRegistry).featureIter env 2).trace
        = [Event.check 0, Event.check 0] ∧
    (newTestRunner skipRegistry).run env n = none := by
  have h := fun k => single_skip_loops env
    ⟨"A", "describe A", [], some (fun _ => ⟨[], .ok FeatureSkip⟩)⟩ rfl
    (fun _ _ => rfl) k [] [] [("A", 0)] [] []
  refine ⟨?_, ?_, ?_⟩
  · simpa using (h n).1
  · simpa using (h 2).1
  · have h2 := (h n).2
    unfold testRunner.run
    have he : newTestRunner skipRegistry
        = ⟨[⟨⟨"A", "describe A", [], some (fun _ => ⟨[], .ok FeatureSkip⟩)⟩, FeatureSkip, []⟩],
            [("A", 0)], [], [], []⟩ := rfl
    rw [he, h2]

/-- C5: on the registry whose single feature `A` has a nil checker, `RunAll`
returns no report within any fuel: the first loop of `run` selects `A` in every
iteration. -/
theorem nil_checker_never_returns (env : LogEnv) (fuel : Nat) :
    RunAll env fuel nilRegistry = none ∧
    ((newTestRunner nilRegistry).featureIter env fuel).nextFeature = .ok (some 0) := by
  have h := single_skip_loops env ⟨"A", "describe A", [], none⟩ rfl
    (fun _ _ => rfl) fuel [] [] [("A", 0)] [] []
  have he : newTestRunner nilRegistry
      = ⟨[⟨⟨"A", "describe A", [], none⟩, FeatureSkip, []⟩], [("A", 0)], [], [], []⟩ := rfl
  constructor
  · unfold RunAll testRunner.run
    rw [he, h.2]
  · rw [he]
    have hshape : ∀ (k : Nat) (recs : List Recorder) (tr : List Event),
        ∃ recs1 tr1, testRunner.featureIter env k
          ⟨[⟨⟨"A", "describe A", [], none⟩, FeatureSkip, recs⟩], [("A", 0)], [], [], tr⟩
          = ⟨[⟨⟨"A", "describe A", [], none⟩, FeatureSkip, recs1⟩], [("A", 0)], [], [], tr1⟩ := by
      intro k
      induction k with
      | zero => intro recs tr; exact ⟨recs, tr, rfl⟩
      | succ k ih =>
        intro recs tr
        rw [testRunner.featureIter]
        have hnext : (⟨[⟨⟨"A", "describe A", [], none⟩, FeatureSkip, recs⟩], [("A", 0)], [], [],
            tr⟩ : testRunner).nextFeature = .ok (some 0) := rfl
        rw [hnext]
        exact ih _ _
    obtain ⟨recs1, tr1, h1⟩ := hshape fuel [] []
    rw [h1]
    rfl

/-! ## Status transitions -/

theorem featureIter_stop (env : LogEnv) (n : Nat) (r : testRunner)
    (h : ∀ i, r.nextFeature ≠ .ok (some i)) : testRunner.featureIter env n r = r := by
  cases n with
  | zero => rfl
  | succ n =>
    rw [testRunner.featureIter]
    cases hn : r.nextFeature with
    | error e => rfl
    | ok o =>
      cases o with
      | none => rfl
      | some i => exact absurd hn (h i)

theorem featureIter_add (env : LogEnv) (a b : Nat) (r : testRunner) :
    testRunner.featureIter env (a + b) r
      = testRunner.featureIter env b (testRunner.featureIter env a r) := by
  induction a generalizing r with
  | zero => simp [testRunner.featureIter]
  | succ a ih =>
    have hab : a + 1 + b = (a + b) + 1 := by omega
    rw [hab, testRunner.featureIter, testRunner.featureIter]
    cases hn : r.nextFeature with
    | error e =>
      simp only []
      exact (featureIter_stop env b r (by intro i; rw [hn]; simp)).symm
    | ok o =>
      cases o with
      | none =>
        simp only []
        exact (featureIter_stop env b r (by intro i; rw [hn]; simp)).symm
      | some i =>
        simp only []
        exact ih _

/-- The first loop of `run` never touches a feature that has left `Skip`. -/
theorem featureIter_frozen (env : LogEnv) (n : Nat) (r : testRunner) (idx : Nat)
    (f : featureInfo) (hf : r.features[idx]? = some f) (hs : f.status ≠ FeatureSkip) :
    (testRunner.featureIter env n r).features[idx]? = some f := by
  induction n generalizing r with
  | zero => exact hf
  | succ n ih =>
    rw [testRunner.featureIter]
    cases hn : r.nextFeature with
    | error e => exact hf
    | ok o =>
      cases o with
      | none => exact hf
      | some i =>
        simp only []
        apply ih
        obtain ⟨f0, hf0, hs0, _⟩ := nextFeature_some hn
        obtain ⟨f1, _, _, _, hfe, _⟩ := runFeatureChecker_eq env hf0
        rw [hfe, getElem?_set_of_some hf0]
        have hne : i ≠ idx := by
          intro h
          subst h
          rw [hf] at hf0
          have : f = f0 := Option.some.inj hf0
          subst this
          exact hs hs0
        simp [hne, hf]

/-- What one executed test may do to the status of a feature. -/
theorem runTest_status (env : LogEnv) (r r1 : testRunner) (j : Nat) (t : testConf)
    (h : r.runTest env j t = .ok r1) (idx : Nat) (f : featureInfo)
    (hf : r.features[idx]? = some f) :
    ∃ f1, r1.features[idx]? = some f1 ∧ f1.conf = f.conf ∧
      (f1.status = f.status ∨
        (f.status = FeaturePass ∧ f1.status = FeatureDefect ∧
          (callTest env r.trace (newRecorder t.description) t.testF).Success = false ∧
          ∃ k ∈ t.features, r.featuresMap.lookup k = some idx)) := by
  unfold testRunner.runTest at h
  obtain ⟨_, _, hstep⟩ := testEvol_runTestLoop env _ _ _ _ h
  obtain ⟨f1, h1, h2, h3, h4, _⟩ := hstep idx f hf
  refine ⟨f1, h1, h2, ?_⟩
  rcases h4 with h4 | ⟨hp, hd, hsucc⟩
  · exact Or.inl h4
  · right
    refine ⟨hp, hd, hsucc, ?_⟩
    rcases h3 with h3 | h3
    · exfalso
      rw [h3, hp] at hd
      exact absurd hd (by decide)
    · exact h3

theorem runTestsFrom_status (env : LogEnv) (j : Nat) (ts : List testConf) (r rf : testRunner)
    (h : testRunner.runTestsFrom env j ts r = .ok rf) (idx : Nat) (f : featureInfo)
    (hf : r.features[idx]? = some f) :
    ∃ f1, rf.features[idx]? = some f1 ∧
      (f1.status = f.status ∨ (f.status = FeaturePass ∧ f1.status = FeatureDefect)) := by
  induction ts generalizing r j f with
  | nil =>
    simp only [testRunner.runTestsFrom, Except.ok.injEq] at h
    subst h
    exact ⟨f, hf, Or.inl rfl⟩
  | cons t rest ih =>
    rw [testRunner.runTestsFrom] at h
    cases hc : r.checkRequiredFeatures t.features with
    | error e => rw [hc] at h; cases h
    | ok b =>
      rw [hc] at h
      cases b with
      | false => exact ih (j + 1) r h f hf
      | true =>
        simp only [] at h
        cases hr : r.runTest env j t with
        | error e => rw [hr] at h; cases h
        | ok r1 =>
          rw [hr] at h
          simp only [] at h
          obtain ⟨f1, h1, _, h2⟩ := runTest_status env r r1 j t hr idx f hf
          obtain ⟨f2, h3, h4⟩ := ih (j + 1) r1 h f1 h1
          refine ⟨f2, h3, ?_⟩
          rcases h2 with h2 | ⟨hp, hd, _⟩
          · rw [h2] at h4; exact h4
          · right
            refine ⟨hp, ?_⟩
            rcases h4 with h4 | h4
            · rw [h4]; exact hd
            · exact h4.2

/-- The status transitions of a run.  Every feature of a fresh runner is
`Skip`.  An iteration of the first loop of `run` changes the feature returned
by `nextFeature` and no other: that feature was `Skip` and its new status is
the outcome of `callChecker` on its own checker.  A feature that has left
`Skip` is never touched again by the first loop, so the replacement by the
checker outcome changes a status at most once.  An executed test changes the
status of a feature only from `Pass` to `Defect`, only when the test failed and
lists a key naming that feature; so over the whole second loop a status either
stays or goes from `Pass` to `Defect`, and `NotImplemented`, `Fail` and `Defect`
never change. -/
theorem status_transitions (env : LogEnv) :
    (∀ reg : Registry, ∀ f ∈ (newTestRunner reg).features, f.status = FeatureSkip) ∧
    (∀ (r : testRunner) (i : Nat), r.nextFeature = .ok (some i) →
      ∃ f f1, r.features[i]? = some f ∧ f.status = FeatureSkip ∧
        (r.runFeatureChecker env i).features = r.features.set i f1 ∧ f1.conf = f.conf ∧
        f1.status = (callChecker env r.trace
          (newRecorder ("check " ++ f.conf.key ++ "(" ++ f.conf.description ++ ")"))
          f.conf.checkF).2) ∧
    (∀ (r : testRunner) (n m idx : Nat) (f : featureInfo), n ≤ m →
      (testRunner.featureIter env n r).features[idx]? = some f → f.status ≠ FeatureSkip →
      (testRunner.featureIter env m r).features[idx]? = some f) ∧
    (∀ (r r1 : testRunner) (j : Nat) (t : testConf), r.runTest env j t = .ok r1 →
      ∀ (idx : Nat) (f : featureInfo), r.features[idx]? = some f →
        ∃ f1, r1.features[idx]? = some f1 ∧ f1.conf = f.conf ∧
          (f1.status = f.status ∨
            (f.status = FeaturePass ∧ f1.status = FeatureDefect ∧
              (callTest env r.trace (newRecorder t.description) t.testF).Success = false ∧
              ∃ k ∈ t.features, r.featuresMap.lookup k = some idx))) ∧
    (∀ (r rf : testRunner) (j : Nat) (ts : List testConf),
      testRunner.runTestsFrom env j ts r = .ok rf →
      ∀ (idx : Nat) (f : featureInfo), r.features[idx]? = some f →
        ∃ f1, rf.features[idx]? = some f1 ∧
          (f1.status = f.status ∨ (f.status = FeaturePass ∧ f1.status = FeatureDefect)) ∧
          (f.status = FeatureNotImplemented ∨ f.status = FeatureFail ∨
            f.status = FeatureDefect → f1.status = f.status)) := by
  refine ⟨?_, ?_, ?_, ?_, ?_⟩
  · intro reg f hf
    obtain ⟨n, hn⟩ := List.mem_iff_getElem?.1 hf
    exact (newTestRunner_fresh reg n f hn).1
  · intro r i h
    obtain ⟨f, hf, hs, _⟩ := nextFeature_some h
    obtain ⟨f1, hc, hst, _, hfe, _⟩ := runFeatureChecker_eq env hf
    exact ⟨f, f1, hf, hs, hfe, hc, hst⟩
  · intro r n m idx f hnm hf hs
    obtain ⟨d, rfl⟩ := Nat.exists_eq_add_of_le hnm
    rw [featureIter_add]
    exact featureIter_frozen env d _ idx f hf hs
  · intro r r1 j t h idx f hf
    exact runTest_status env r r1 j t h idx f hf
  · intro r rf j ts h idx f hf
    obtain ⟨f1, h1, h2⟩ := runTestsFrom_status env j ts r rf h idx f hf
    refine ⟨f1, h1, h2, ?_⟩
    intro h3
    rcases h2 with h2 | ⟨hp, _⟩
    · exact h2
    · exfalso
      rcases h3 with h3 | h3 | h3
      · rw [h3] at hp; exact notImplemented_ne_pass hp
      · rw [h3] at hp; exact fail_ne_pass hp
      · rw [h3] at hp; exact absurd hp (by decide)

/-! ## A failed test -/

/-- The body of the loop of `runTest` for a failed test on a feature that is
`Pass` or `Defect`: the feature ends at `Defect` with one more record. -/
theorem runTestBody_failed (env : LogEnv) (recorder : Recorder) (f : featureInfo)
    (hfail : recorder.Success = false) (hres : Resolved f.status) :
    runTestBody env recorder f =
      { conf := f.conf, status := FeatureDefect,
        records := f.records ++
          [recorder.copy.Log env "runner.go:126" (testFinish false FeatureDefect)] } := by
  have hst : (if recorder.Success = false ∧ f.status = FeaturePass then FeatureDefect
      else f.status) = FeatureDefect := by
    by_cases hp : f.status = FeaturePass
    · rw [if_pos ⟨hfail, hp⟩]
    · rw [if_neg (fun h => hp h.2)]
      rcases hres with h | h
      · exact absurd h hp
      · exact h
  simp only [runTestBody, hst]
  simp only [Recorder.copy, hfail]

theorem runTestLoop_failed (env : LogEnv) (recorder : Recorder) (keys : List String)
    (r : testRunner) (hfail : recorder.Success = false) (hgate : gateOpen r keys) :
    ∃ r1, testRunner.runTestLoop env recorder keys r = .ok r1 ∧
      r1.featuresMap = r.featuresMap ∧
      ∀ (j : Nat) (f : featureInfo), r.features[j]? = some f →
        r1.features[j]? = some
          (if keys.countP (fun k => r.featuresMap.lookup k == some j) = 0 then f
           else { conf := f.conf, status := FeatureDefect,
                  records := f.records ++
                    List.replicate (keys.countP (fun k => r.featuresMap.lookup k == some j))
                      (recorder.copy.Log env "runner.go:126"
                        (testFinish false FeatureDefect)) }) := by
  induction keys generalizing r with
  | nil => exact ⟨r, rfl, rfl, fun j f hf => by simpa using hf⟩
  | cons k ks ih =>
    obtain ⟨i, f0, hl, hres⟩ := hgate k (List.mem_cons_self _ _)
    obtain ⟨hmi, hfi⟩ := lookupFeature_some hl
    have hgate1 : gateOpen (r.setFeature i (runTestBody env recorder f0)) ks :=
      @gateOpen_update r (r.setFeature i (runTestBody env recorder f0)) i f0 _ hfi rfl rfl
        (runTestBody_resolved env recorder f0) ks
        (fun k1 hk1 => hgate k1 (List.mem_cons_of_mem _ hk1))
    obtain ⟨r1, hr1, hm1, hstep⟩ := ih _ hgate1
    refine ⟨r1, by rw [runTestLoop_cons env recorder k ks r i f0 hl]; exact hr1, hm1, ?_⟩
    intro j f hf
    have hget : (r.setFeature i (runTestBody env recorder f0)).features[j]?
        = if i = j then some (runTestBody env recorder f0) else r.features[j]? :=
      getElem?_set_of_some hfi _ j
    have hmap : (r.setFeature i (runTestBody env recorder f0)).featuresMap = r.featuresMap :=
      rfl
    rw [hmap] at hstep
    by_cases hij : i = j
    · subst hij
      rw [hfi] at hf
      have : f0 = f := Option.some.inj hf
      subst this
      have hc : (k :: ks).countP (fun k1 => r.featuresMap.lookup k1 == some i)
          = ks.countP (fun k1 => r.featuresMap.lookup k1 == some i) + 1 := by
        rw [List.countP_cons]
        simp [hmi]
      rw [hstep i (runTestBody env recorder f0) (by rw [hget]; simp), hc,
        runTestBody_failed env recorder f0 hfail hres]
      by_cases h0 : ks.countP (fun k1 => r.featuresMap.lookup k1 == some i) = 0
      · simp [h0]
      · simp [h0, List.replicate_succ]
    · have hc : (k :: ks).countP (fun k1 => r.featuresMap.lookup k1 == some j)
          = ks.countP (fun k1 => r.featuresMap.lookup k1 == some j) := by
        rw [List.countP_cons]
        simp [hmi, hij]
      rw [hc]
      exact hstep j f (by rw [hget]; simp [hij, hf])

/-- C10: a test that `run` executes (its gate is open: every listed feature is
registered and `Pass` or `Defect`) and whose function aborts with the message
`err` is run to its end by `runTest`, and afterwards every feature it lists has
status `Defect` and has received, once for each time the test lists it, its own
copy of the failed record of the test, closed by the line stating the status
`DEFECT`. -/
theorem aborted_test_marks_defect (env : LogEnv) (r : testRunner) (j : Nat) (t : testConf)
    (tf : List Event → TestOutcome) (err : String)
    (hgate : r.checkRequiredFeatures t.features = .ok true) (htf : t.testF = some tf)
    (habort : (tf r.trace).abort = some err) :
    ∃ r1, r.runTest env j t = .ok r1 ∧
      (∀ rest, testRunner.runTestsFrom env j (t :: rest) r
        = testRunner.runTestsFrom env (j + 1) rest r1) ∧
      ∀ k ∈ t.features, ∃ i f g, r.lookupFeature k = some (i, f) ∧
        (f.status = FeaturePass ∨ f.status = FeatureDefect) ∧
        r1.lookupFeature k = some (i, g) ∧ g.conf = f.conf ∧ g.status = FeatureDefect ∧
        0 < t.features.countP (fun k1 => r.featuresMap.lookup k1 == some i) ∧
        g.records = f.records ++
          List.replicate (t.features.countP (fun k1 => r.featuresMap.lookup k1 == some i))
            { Description := t.description,
              Logs := userLines env (tf r.trace).logs ++ [env.now ++ " " ++ err] ++
                [logLine env env.LogFileLine "runner.go:126" (testFinish false FeatureDefect)],
              Success := false } := by
  have hg : gateOpen r t.features := (checkRequiredFeatures_eq_true_iff r _).1 hgate
  have hrec := callTest_aborted env r.trace (newRecorder t.description) tf err habort
  have hfail : (callTest env r.trace (newRecorder t.description) (some tf)).Success = false := by
    rw [hrec]; rfl
  obtain ⟨r1, hr1, hm1, hstep⟩ := runTestLoop_failed env
    (callTest env r.trace (newRecorder t.description) (some tf)) t.features
    { r with trace := r.trace ++ [Event.test j] } hfail (gateOpen_trace r _ _ hg)
  have hrun : r.runTest env j t = .ok r1 := by
    unfold testRunner.runTest
    rw [htf]
    exact hr1
  refine ⟨r1, hrun, ?_, ?_⟩
  · intro rest
    rw [testRunner.runTestsFrom, hgate]
    simp only [hrun]
  · intro k hk
    obtain ⟨i, f, hl, hres⟩ := hg k hk
    obtain ⟨hmi, hfi⟩ := lookupFeature_some hl
    have hpos : 0 < t.features.countP (fun k1 => r.featuresMap.lookup k1 == some i) := by
      apply List.countP_pos_iff.2
      exact ⟨k, hk, by simp [hmi]⟩
    have hi := hstep i f hfi
    simp only [] at hi
    rw [if_neg (by omega)] at hi
    refine ⟨i, f, _, hl, hres, lookupFeature_of (by rw [hm1]; exact hmi) hi, rfl, rfl, hpos, ?_⟩
    simp only [hrec, Recorder.copy, Recorder.Log, Recorder.log]
    simp only [newRecorder, List.nil_append]

/-- Witness of C10: the test `test G` of the repository test, reached when `G`
is `Pass`. -/
theorem aborted_test_marks_defect_witness :
    ∃ r1, (⟨[⟨⟨"G", "describe G", [], none⟩, FeaturePass, []⟩], [("G", 0)], [], [], []⟩ :
        testRunner).runTest ⟨"[TIME]", false⟩ 0
          ⟨"test G", ["G"], some (fun _ => ⟨[], some "G has a bug"⟩)⟩ = .ok r1 ∧
      ∃ g, r1.lookupFeature "G" = some (0, g) ∧ g.status = FeatureDefect :=
  match aborted_test_marks_defect ⟨"[TIME]", false⟩
    ⟨[⟨⟨"G", "describe G", [], none⟩, FeaturePass, []⟩], [("G", 0)], [], [], []⟩ 0
    ⟨"test G", ["G"], some (fun _ => ⟨[], some "G has a bug"⟩)⟩
    (fun _ => ⟨[], some "G has a bug"⟩) "G has a bug" (by rfl) rfl rfl with
  | ⟨r1, h1, _, h3⟩ =>
    match h3 "G" (by decide) with
    | ⟨i, _, g, hl, _, hl1, _, hd, _, _⟩ =>
      ⟨r1, h1, g, by
        have hi : i = 0 := by
          have := (lookupFeature_some hl).1
          simpa [List.lookup] using this.symm
        subst hi
        exact hl1, hd⟩

/-! ## Registration -/

theorem any_key_iff (confs : List featureConf) (key : String) :
    confs.any (fun feature => feature.key == key) = true ↔ ∃ c ∈ confs, c.key = key := by
  simp [List.any_eq_true]

/-- C16: `RegisterFeature` fails exactly when a feature with the same key is
already registered, and then leaves the registry unchanged; otherwise it
returns the key, appends the new definition as the last element of the feature
list and leaves the earlier features, the stories and the tests unchanged. -/
theorem RegisterFeature_spec (reg : Registry) (key description : String)
    (requireFeatures : List String) (checkF : Option (List Event → CheckerOutcome)) :
    ((∃ e, (RegisterFeature reg key description requireFeatures checkF).2 = .error e) ↔
      ∃ c ∈ reg.featureConfs, c.key = key) ∧
    ((∃ c ∈ reg.featureConfs, c.key = key) →
      RegisterFeature reg key description requireFeatures checkF
        = (reg, .error ("duplicated feature key: " ++ key))) ∧
    ((¬ ∃ c ∈ reg.featureConfs, c.key = key) →
      (RegisterFeature reg key description requireFeatures checkF).2 = .ok key ∧
      (RegisterFeature reg key description requireFeatures checkF).1.featureConfs
        = reg.featureConfs ++ [⟨key, description, requireFeatures, checkF⟩] ∧
      (RegisterFeature reg key description requireFeatures checkF).1.storyConfs
        = reg.storyConfs ∧
      (RegisterFeature reg key description requireFeatures checkF).1.testConfs
        = reg.testConfs) := by
  by_cases h : ∃ c ∈ reg.featureConfs, c.key = key
  · have ha := (any_key_iff reg.featureConfs key).2 h
    refine ⟨?_, ?_, fun hn => absurd h hn⟩
    · simp only [RegisterFeature, ha, if_true]
      exact ⟨fun _ => h, fun _ => ⟨_, rfl⟩⟩
    · intro _
      simp only [RegisterFeature, ha, if_true]
  · have ha : reg.featureConfs.any (fun feature => feature.key == key) = false := by
      cases hb : reg.featureConfs.any (fun feature => feature.key == key) with
      | false => rfl
      | true => exact absurd ((any_key_iff reg.featureConfs key).1 hb) h
    refine ⟨?_, fun hy => absurd hy h, fun _ => ?_⟩
    · simp only [RegisterFeature, ha]
      constructor
      · rintro ⟨e, he⟩
        simp at he
      · intro hy; exact absurd hy h
    · simp only [RegisterFeature, ha]
      simp

theorem register_nodup (reg : Registry) (call : RegCall)
    (h : (reg.featureConfs.map (fun c => c.key)).Nodup) :
    ((register reg call).featureConfs.map (fun c => c.key)).Nodup := by
  cases call with
  | story d fs => exact h
  | test d fs tf => exact h
  | feature key d req cf =>
    simp only [register, RegisterFeature]
    by_cases ha : reg.featureConfs.any (fun feature => feature.key == key) = true
    · simp only [ha, if_true]; exact h
    · have hno : ¬ ∃ c ∈ reg.featureConfs, c.key = key :=
        fun hy => ha ((any_key_iff reg.featureConfs key).2 hy)
      rw [if_neg ha]
      simp only []
      rw [List.map_append, List.nodup_append]
      refine ⟨h, by simp, ?_⟩
      intro k hk1 hk2
      simp only [List.map_cons, List.map_nil, List.mem_singleton] at hk2
      subst hk2
      obtain ⟨c, hc, hck⟩ := List.mem_map.1 hk1
      exact hno ⟨c, hc, hck⟩

theorem registerAll_nodup (calls : List RegCall) (reg : Registry)
    (h : (reg.featureConfs.map (fun c => c.key)).Nodup) :
    ((registerAll calls reg).featureConfs.map (fun c => c.key)).Nodup := by
  induction calls generalizing reg with
  | nil => exact h
  | cons c cs ih => exact ih _ (register_nodup reg c h)

/-- C18: after any sequence of registration calls from the empty registry the
registered feature keys are pairwise distinct; `newTestRunner` then builds one
runtime state per registered feature, in registration order, each `Skip`
without records, and its map sends the key of every registered feature to the
runtime state built for it. -/
theorem registered_keys_distinct (calls : List RegCall) :
    ((registerAll calls emptyRegistry).featureConfs.map (fun c => c.key)).Nodup ∧
    (newTestRunner (registerAll calls emptyRegistry)).features
      = (registerAll calls emptyRegistry).featureConfs.map
          (fun c => { conf := c, status := FeatureSkip, records := [] }) ∧
    ∀ (n : Nat) (c : featureConf),
      (registerAll calls emptyRegistry).featureConfs[n]? = some c →
      (newTestRunner (registerAll calls emptyRegistry)).lookupFeature c.key
        = some (n, { conf := c, status := FeatureSkip, records := [] }) := by
  have hnd := registerAll_nodup calls emptyRegistry (by simp [emptyRegistry])
  refine ⟨hnd, newTestRunner_features _, ?_⟩
  intro n c hc
  apply lookupFeature_of (newTestRunner_lookup _ hnd n c hc)
  rw [newTestRunner_features, List.getElem?_map, hc]
  rfl

/-! ## The scenario of `TestValidator` -/

/-- More fuel does not change the result of the first loop of `run`. -/
theorem runFeatures_mono (env : LogEnv) (fuel k : Nat) (r : testRunner)
    (x : Except String testRunner) (h : testRunner.runFeatures env fuel r = some x) :
    testRunner.runFeatures env (fuel + k) r = some x := by
  induction fuel generalizing r with
  | zero => simp [testRunner.runFeatures] at h
  | succ n ih =>
    have hn : n + 1 + k = (n + k) + 1 := by omega
    rw [hn, testRunner.runFeatures]
    rw [testRunner.runFeatures] at h
    cases hnext : r.nextFeature with
    | error e => rw [hnext] at h; exact h
    | ok o =>
      cases o with
      | none => rw [hnext] at h; exact h
      | some i =>
        rw [hnext] at h
        exact ih _ h

theorem RunAll_mono (env : LogEnv) (fuel k : Nat) (reg : Registry)
    (x : Except String Report) (h : RunAll env fuel reg = some x) :
    RunAll env (fuel + k) reg = some x := by
  unfold RunAll testRunner.run at h ⊢
  cases hf : testRunner.runFeatures env fuel (newTestRunner reg) with
  | none => rw [hf] at h; cases h
  | some y =>
    rw [runFeatures_mono env fuel k _ y hf]
    rw [hf] at h
    exact h

/-- C17: with source positions disabled and the time rendered as `[TIME]`,
`RunAll` on the registry of `TestValidator` returns, for every fuel from seven
on, exactly the report that the test expects: the story `E and F` with `E`
(`SKIP`, no records) and `F` (`PASS`, one successful record with the lines
`[TIME] foobar` and the closing line), then `A`, `B`, `C`, `D`, `G` at top
level, `G` being `DEFECT` with the checker record and the failed record
`test G`. -/
theorem testValidator_report (k : Nat) :
    RunAll ⟨"[TIME]", false⟩ (7 + k) (testValidatorRegistry ⟨"[TIME]", false⟩)
      = some (.ok testValidatorExpect) :=
  RunAll_mono ⟨"[TIME]", false⟩ 7 k (testValidatorRegistry ⟨"[TIME]", false⟩)
    (.ok testValidatorExpect) (by rfl)

/-! ## A test whose gate is closed -/

/-- The events that the second loop of `run` adds to the trace are invocations
of tests from the `j`-th on. -/
theorem runTestsFrom_trace (env : LogEnv) (j : Nat) (ts : List testConf) (r rf : testRunner)
    (h : testRunner.runTestsFrom env j ts r = .ok rf) :
    ∃ js : List Nat, rf.trace = r.trace ++ js.map Event.test ∧
      js.Pairwise (fun a b => a < b) ∧ ∀ a ∈ js, j ≤ a ∧ a < j + ts.length := by
  induction ts generalizing r j with
  | nil =>
    simp only [testRunner.runTestsFrom, Except.ok.injEq] at h
    subst h
    exact ⟨[], by simp, List.Pairwise.nil, by simp⟩
  | cons t rest ih =>
    rw [testRunner.runTestsFrom] at h
    cases hc : r.checkRequiredFeatures t.features with
    | error e => rw [hc] at h; cases h
    | ok b =>
      rw [hc] at h
      cases b with
      | false =>
        obtain ⟨js, h1, h2, h3⟩ := ih (j + 1) r h
        refine ⟨js, h1, h2, ?_⟩
        intro a ha
        have := h3 a ha
        simp only [List.length_cons]
        omega
      | true =>
        simp only [] at h
        cases hr : r.runTest env j t with
        | error e => rw [hr] at h; cases h
        | ok r1 =>
          rw [hr] at h
          simp only [] at h
          obtain ⟨js, h1, h2, h3⟩ := ih (j + 1) r1 h
          have ht1 : r1.trace = r.trace ++ [Event.test j] := by
            unfold testRunner.runTest at hr
            exact (testEvol_runTestLoop env _ _ _ _ hr).2.1
          refine ⟨j :: js, ?_, ?_, ?_⟩
          · rw [h1, ht1]; simp
          · refine List.Pairwise.cons ?_ h2
            intro a ha
            have := h3 a ha
            omega
          · intro a ha
            simp only [List.length_cons]
            rcases List.mem_cons.1 ha with rfl | ha
            · omega
            · have := h3 a ha
              omega

/-- C11: when the second loop of `run` reaches a test that lists a feature whose
status is neither `Pass` nor `Defect`, the gate check does not answer true: the
loop goes on to the next test from the very same runner state (the test
function is not invoked, no record is appended, no status changes), or, if a
key listed before that feature is unregistered, the check panics.  With every
listed key registered the first case applies. -/
theorem closed_gate_skips_test (env : LogEnv) (r : testRunner) (j : Nat) (t : testConf)
    (rest : List testConf) (k : String) (i : Nat) (g : featureInfo) (hk : k ∈ t.features)
    (hl : r.lookupFeature k = some (i, g))
    (hs : g.status ≠ FeaturePass ∧ g.status ≠ FeatureDefect) :
    ((r.checkRequiredFeatures t.features = .ok false ∧
        testRunner.runTestsFrom env j (t :: rest) r
          = testRunner.runTestsFrom env (j + 1) rest r) ∨
      (∃ e, r.checkRequiredFeatures t.features = .error e ∧
        testRunner.runTestsFrom env j (t :: rest) r = .error e)) ∧
    ((∀ k1 ∈ t.features, (r.lookupFeature k1).isSome = true) →
      r.checkRequiredFeatures t.features = .ok false ∧
      testRunner.runTestsFrom env j (t :: rest) r
        = testRunner.runTestsFrom env (j + 1) rest r) ∧
    (∀ rf, testRunner.runTestsFrom env j (t :: rest) r = .ok rf →
      Event.test j ∉ r.trace → Event.test j ∉ rf.trace) := by
  have hnot : r.checkRequiredFeatures t.features ≠ .ok true := by
    intro h
    obtain ⟨i1, g1, h1, h2⟩ := (checkRequiredFeatures_eq_true_iff r _).1 h k hk
    rw [hl] at h1
    simp only [Option.some.injEq, Prod.mk.injEq] at h1
    obtain ⟨_, rfl⟩ := h1
    rcases h2 with h2 | h2
    · exact hs.1 h2
    · exact hs.2 h2
  have hcases : (r.checkRequiredFeatures t.features = .ok false ∧
        testRunner.runTestsFrom env j (t :: rest) r
          = testRunner.runTestsFrom env (j + 1) rest r) ∨
      (∃ e, r.checkRequiredFeatures t.features = .error e ∧
        testRunner.runTestsFrom env j (t :: rest) r = .error e) := by
    cases hc : r.checkRequiredFeatures t.features with
    | error e =>
      right
      exact ⟨e, rfl, by rw [testRunner.runTestsFrom, hc]⟩
    | ok b =>
      cases b with
      | true => exact absurd hc hnot
      | false =>
        left
        exact ⟨rfl, by rw [testRunner.runTestsFrom, hc]⟩
  refine ⟨hcases, ?_, ?_⟩
  · intro hreg
    obtain ⟨b, hb⟩ := checkRequiredFeatures_registered r t.features hreg
    rcases hcases with h | ⟨e, he, _⟩
    · exact h
    · rw [hb] at he; cases he
  · intro rf hrf hnin hin
    rcases hcases with ⟨_, h⟩ | ⟨e, _, h⟩
    · rw [h] at hrf
      obtain ⟨js, h1, _, h3⟩ := runTestsFrom_trace env (j + 1) rest r rf hrf
      rw [h1] at hin
      rcases List.mem_append.1 hin with h4 | h4
      · exact hnin h4
      · obtain ⟨a, ha, hae⟩ := List.mem_map.1 h4
        simp only [Event.test.injEq] at hae
        have := h3 a ha
        omega
    · rw [h] at hrf; cases hrf

/-- Witness of C11: `B` is `NotImplemented` when the test listing it is reached. -/
theorem closed_gate_skips_test_witness :
    testRunner.runTestsFrom ⟨"[TIME]", false⟩ 0
        [⟨"test B", ["B"], some (fun _ => ⟨[], none⟩)⟩]
        ⟨[⟨⟨"B", "describe B", [], none⟩, FeatureNotImplemented, []⟩], [("B", 0)], [], [], []⟩
      = testRunner.runTestsFrom ⟨"[TIME]", false⟩ 1 []
        ⟨[⟨⟨"B", "describe B", [], none⟩, FeatureNotImplemented, []⟩], [("B", 0)], [], [], []⟩ :=
  ((closed_gate_skips_test ⟨"[TIME]", false⟩
    ⟨[⟨⟨"B", "describe B", [], none⟩, FeatureNotImplemented, []⟩], [("B", 0)], [], [], []⟩ 0
    ⟨"test B", ["B"], some (fun _ => ⟨[], none⟩)⟩ [] "B" 0
    ⟨⟨"B", "describe B", [], none⟩, FeatureNotImplemented, []⟩
    (by decide) (by rfl) (by decide)).2.1 (by decide)).2

/-! ## The records of an executed test -/

theorem runTestBody_eq (env : LogEnv) (recorder : Recorder) (f : featureInfo) :
    runTestBody env recorder f =
      { conf := f.conf, status := downgraded recorder f.status,
        records := f.records ++ [closingRecord env recorder (downgraded recorder f.status)] } :=
  rfl

theorem downgraded_idem (recorder : Recorder) (s : FeatureStatus) :
    downgraded recorder (downgraded recorder s) = downgraded recorder s := by
  unfold downgraded
  by_cases h : recorder.Success = false ∧ s = FeaturePass
  · rw [if_pos h]
    have : ¬ (recorder.Success = false ∧ FeatureDefect = FeaturePass) :=
      fun h1 => absurd h1.2 (by decide)
    rw [if_neg this]
  · rw [if_neg h, if_neg h]

/-- The loop of `runTest` ends normally when every listed key is registered. -/
theorem runTestLoop_ok (env : LogEnv) (recorder : Recorder) (keys : List String)
    (r : testRunner) (hreg : ∀ k ∈ keys, (r.lookupFeature k).isSome = true) :
    ∃ r1, testRunner.runTestLoop env recorder keys r = .ok r1 := by
  induction keys generalizing r with
  | nil => exact ⟨r, rfl⟩
  | cons k ks ih =>
    cases hl : r.lookupFeature k with
    | none =>
      have := hreg k (List.mem_cons_self _ _)
      simp [hl] at this
    | some p =>
      obtain ⟨i, f⟩ := p
      rw [runTestLoop_cons env recorder k ks r i f hl]
      apply ih
      intro k1 hk1
      have h1 := hreg k1 (List.mem_cons_of_mem _ hk1)
      cases hl1 : r.lookupFeature k1 with
      | none => simp [hl1] at h1
      | some q =>
        obtain ⟨i1, f1⟩ := q
        rw [@lookupFeature_update r (r.setFeature i (runTestBody env recorder f)) i f _
          (lookupFeature_some hl).2 rfl rfl k1 i1 f1 hl1]
        rfl

/-- What the loop of `runTest` does to every feature: a feature that no listed
key names is left as it is; a feature named by `n` of the listed keys gets the
downgraded status and `n` copies of the record closed by the line stating that
status. -/
theorem runTestLoop_eq (env : LogEnv) (recorder : Recorder) (keys : List String)
    (r r1 : testRunner) (h : testRunner.runTestLoop env recorder keys r = .ok r1) :
    r1.featuresMap = r.featuresMap ∧
    ∀ (j : Nat) (f : featureInfo), r.features[j]? = some f →
      r1.features[j]? = some
        (if listings r keys j = 0 then f
         else { conf := f.conf, status := downgraded recorder f.status,
                records := f.records ++ List.replicate (listings r keys j)
                  (closingRecord env recorder (downgraded recorder f.status)) }) := by
  induction keys generalizing r with
  | nil =>
    simp only [testRunner.runTestLoop, Except.ok.injEq] at h
    subst h
    exact ⟨rfl, fun j f hf => by simpa [listings] using hf⟩
  | cons k ks ih =>
    cases hl : r.lookupFeature k with
    | none => rw [testRunner.runTestLoop, hl] at h; cases h
    | some p =>
      obtain ⟨i, f0⟩ := p
      rw [runTestLoop_cons env recorder k ks r i f0 hl] at h
      obtain ⟨hmi, hfi⟩ := lookupFeature_some hl
      obtain ⟨hm1, hstep⟩ := ih _ h
      have hmap : (r.setFeature i (runTestBody env recorder f0)).featuresMap = r.featuresMap :=
        rfl
      have hlist : ∀ j, listings (r.setFeature i (runTestBody env recorder f0)) ks j
          = listings r ks j := fun j => rfl
      have hget : ∀ j : Nat, (r.setFeature i (runTestBody env recorder f0)).features[j]?
          = if i = j then some (runTestBody env recorder f0) else r.features[j]? :=
        fun j => getElem?_set_of_some hfi _ j
      refine ⟨by rw [hm1, hmap], ?_⟩
      intro j f hf
      by_cases hij : i = j
      · subst hij
        rw [hfi] at hf
        have : f0 = f := Option.some.inj hf
        subst this
        have hc : listings r (k :: ks) i = listings r ks i + 1 := by
          unfold listings
          rw [List.countP_cons]
          simp [hmi]
        rw [hstep i (runTestBody env recorder f0) (by rw [hget]; simp), hc, hlist,
          runTestBody_eq]
        simp only [downgraded_idem]
        by_cases h0 : listings r ks i = 0
        · simp [h0]
        · simp [h0, List.replicate_succ]
      · have hc : listings r (k :: ks) j = listings r ks j := by
          unfold listings
          rw [List.countP_cons]
          simp [hmi, hij]
        rw [hc, ← hlist]
        exact hstep j f (by rw [hget]; simp [hij, hf])

theorem countP_eq_one {l : List String} {p : String → Bool} {a : String} (hnd : l.Nodup)
    (ha : a ∈ l) (hp : p a = true) (huniq : ∀ b ∈ l, p b = true → b = a) :
    l.countP p = 1 := by
  induction l with
  | nil => cases ha
  | cons x xs ih =>
    rw [List.nodup_cons] at hnd
    rw [List.countP_cons]
    rcases List.mem_cons.1 ha with hax | hax
    · subst hax
      have h0 : xs.countP p = 0 := by
        rw [List.countP_eq_zero]
        intro b hb hpb
        have := huniq b (List.mem_cons_of_mem _ hb) hpb
        subst this
        exact hnd.1 hb
      simp [h0, hp]
    · have hx : ¬ p x = true := by
        intro hpx
        have := huniq x (List.mem_cons_self _ _) hpx
        subst this
        exact hnd.1 hax
      rw [ih hnd.2 hax (fun b hb hpb => huniq b (List.mem_cons_of_mem _ hb) hpb)]
      simp [hx]

/-- The contents after `runTest`: an executed test (its gate is open) is run to
its end by `runTest`.
Every feature that `n` of the listed keys name gets the status after the
downgrade and `n` appended copies of the record of the test: the description
of the test, its outcome as `Success` flag, and as logs the lines of the test
followed by the one closing line stating that feature's own status; every
other feature, and every record that was there before, is left as it is.  When
the listed keys are pairwise distinct and the map sends each key to a feature
carrying that key, each listed feature gets exactly one record. -/
theorem runTest_appends_records (env : LogEnv) (r : testRunner) (j : Nat) (t : testConf)
    (hgate : r.checkRequiredFeatures t.features = .ok true) :
    ∃ r1, r.runTest env j t = .ok r1 ∧
      (∀ (idx : Nat) (f : featureInfo), r.features[idx]? = some f →
        r1.features[idx]? = some
          (if listings r t.features idx = 0 then f
           else { conf := f.conf,
                  status := downgraded
                    (callTest env r.trace (newRecorder t.description) t.testF) f.status,
                  records := f.records ++ List.replicate (listings r t.features idx)
                    { Description := t.description,
                      Logs := (callTest env r.trace (newRecorder t.description) t.testF).Logs ++
                        [logLine env env.LogFileLine "runner.go:126"
                          (testFinish
                            (callTest env r.trace (newRecorder t.description) t.testF).Success
                            (downgraded
                              (callTest env r.trace (newRecorder t.description) t.testF)
                              f.status))],
                      Success :=
                        (callTest env r.trace (newRecorder t.description) t.testF).Success } })) ∧
      (∀ k ∈ t.features, ∃ i f, r.lookupFeature k = some (i, f) ∧
        0 < listings r t.features i) ∧
      (t.features.Nodup →
        (∀ k i, r.featuresMap.lookup k = some i →
          ∃ f, r.features[i]? = some f ∧ f.conf.key = k) →
        ∀ k ∈ t.features, ∀ i, r.featuresMap.lookup k = some i →
          listings r t.features i = 1) := by
  have hg : gateOpen r t.features := (checkRequiredFeatures_eq_true_iff r _).1 hgate
  have hreg : ∀ k ∈ t.features,
      (({ r with trace := r.trace ++ [Event.test j] } : testRunner).lookupFeature k).isSome
        = true := by
    intro k hk
    obtain ⟨i, f, hl, _⟩ := hg k hk
    have : ({ r with trace := r.trace ++ [Event.test j] } : testRunner).lookupFeature k
        = some (i, f) := hl
    rw [this]; rfl
  obtain ⟨r1, hr1⟩ := runTestLoop_ok env
    (callTest env r.trace (newRecorder t.description) t.testF) t.features _ hreg
  have hdesc : (callTest env r.trace (newRecorder t.description) t.testF).Description
      = t.description := by
    unfold callTest
    cases t.testF with
    | none => rfl
    | some tf =>
      simp only [userLogs_eq]
      cases (tf r.trace).abort <;> rfl
  obtain ⟨_, hstep⟩ := runTestLoop_eq env _ t.features _ r1 hr1
  refine ⟨r1, hr1, ?_, ?_, ?_⟩
  · intro idx f hf
    have := hstep idx f hf
    simp only [closingRecord, hdesc] at this
    exact this
  · intro k hk
    obtain ⟨i, f, hl, _⟩ := hg k hk
    refine ⟨i, f, hl, ?_⟩
    unfold listings
    apply List.countP_pos_iff.2
    exact ⟨k, hk, by simp [(lookupFeature_some hl).1]⟩
  · intro hnd hmap k hk i hi
    unfold listings
    apply countP_eq_one hnd hk (by simp [hi])
    intro b _ hb
    have hb1 : r.featuresMap.lookup b = some i := by simpa using hb
    obtain ⟨f1, hf1, hk1⟩ := hmap b i hb1
    obtain ⟨f2, hf2, hk2⟩ := hmap k i hi
    rw [hf1] at hf2
    have : f1 = f2 := Option.some.inj hf2
    subst this
    rw [← hk1, ← hk2]

/-- An instance of `runTest_appends_records`: the test `test G` of the repository
test, reached when `G` is `Pass`. -/
theorem runTest_appends_records_witness :
    ∃ r1, (⟨[⟨⟨"G", "describe G", [], none⟩, FeaturePass, []⟩], [("G", 0)], [], [], []⟩ :
        testRunner).runTest ⟨"[TIME]", false⟩ 0
          ⟨"test G", ["G"], some (fun _ => ⟨[], some "G has a bug"⟩)⟩ = .ok r1 :=
  match runTest_appends_records ⟨"[TIME]", false⟩
    ⟨[⟨⟨"G", "describe G", [], none⟩, FeaturePass, []⟩], [("G", 0)], [], [], []⟩ 0
    ⟨"test G", ["G"], some (fun _ => ⟨[], some "G has a bug"⟩)⟩ (by rfl) with
  | ⟨r1, h1, _⟩ => ⟨r1, h1⟩

/-! ## The report and its reference -/

theorem mapM_option_cons {α β : Type} (f : α → Option β) (a : α) (l : List α) :
    (a :: l).mapM f = match f a with
      | none => none
      | some b => match l.mapM f with
        | none => none
        | some bs => some (b :: bs) := by
  rw [List.mapM_cons]
  cases f a with
  | none => rfl
  | some b =>
    cases l.mapM f with
    | none => rfl
    | some bs => rfl

theorem mapM_option_nil {α β : Type} (f : α → Option β) :
    ([] : List α).mapM f = some [] := rfl

/-- The map of a runner under construction binds a key only to the index of a
feature that carries the key. -/
theorem newTestRunnerLoop_sound (confs : List featureConf) (r : testRunner)
    (h : ∀ k i, r.featuresMap.lookup k = some i →
      ∃ f, r.features[i]? = some f ∧ f.conf.key = k) :
    ∀ k i, (newTestRunnerLoop confs r).featuresMap.lookup k = some i →
      ∃ f, (newTestRunnerLoop confs r).features[i]? = some f ∧ f.conf.key = k := by
  induction confs generalizing r with
  | nil => exact h
  | cons c cs ih =>
    rw [newTestRunnerLoop]
    apply ih
    intro k i hk
    simp only [] at hk ⊢
    by_cases hkc : k = c.key
    · subst hkc
      rw [lookup_cons_self] at hk
      have : r.features.length = i := Option.some.inj hk
      subst this
      exact ⟨_, List.getElem?_concat_length _ _, rfl⟩
    · rw [lookup_cons_ne hkc] at hk
      obtain ⟨f, hf, hfk⟩ := h k i hk
      refine ⟨f, ?_, hfk⟩
      rw [List.getElem?_append_left (List.getElem?_eq_some.1 hf).1]
      exact hf

theorem newTestRunner_sound (reg : Registry) (k : String) (i : Nat)
    (h : (newTestRunner reg).featuresMap.lookup k = some i) :
    ∃ c, reg.featureConfs[i]? = some c ∧ c.key = k := by
  obtain ⟨f, hf, hfk⟩ := newTestRunnerLoop_sound reg.featureConfs
    { features := [], featuresMap := [], stories := reg.storyConfs, tests := reg.testConfs,
      trace := [] } (by intro k i hk; simp at hk) k i h
  refine ⟨f.conf, ?_, hfk⟩
  have h1 : ((newTestRunner reg).features.map (fun f => f.conf))[i]? = some f.conf := by
    rw [List.getElem?_map]
    have : (newTestRunner reg).features[i]? = some f := hf
    rw [this]; rfl
  rw [newTestRunner_conf] at h1
  exact h1

/-- In a state with the registered content of a fresh runner, the map binds a
key only to the index of a feature that carries the key. -/
theorem mapSound_of_sameConf {reg : Registry} {r : testRunner}
    (hs : sameConf (newTestRunner reg) r) (k : String) (i : Nat)
    (h : r.featuresMap.lookup k = some i) :
    ∃ f, r.features[i]? = some f ∧ f.conf.key = k := by
  rw [hs.1] at h
  obtain ⟨c, hc, hck⟩ := newTestRunner_sound reg k i h
  have h1 := sameConf_getElem? hs i
  rw [hc] at h1
  cases hf : r.features[i]? with
  | none => rw [hf] at h1; cases h1
  | some f =>
    rw [hf] at h1
    simp only [Option.map_some', Option.some.injEq] at h1
    exact ⟨f, rfl, by rw [h1]; exact hck⟩

theorem find?_of_nodup (l : List featureInfo) (hnd : (l.map (fun f => f.conf.key)).Nodup)
    (i : Nat) (f : featureInfo) (hf : l[i]? = some f) :
    l.find? (fun g => g.conf.key == f.conf.key) = some f := by
  induction l generalizing i with
  | nil => simp at hf
  | cons a rest ih =>
    rw [List.map_cons, List.nodup_cons] at hnd
    cases i with
    | zero =>
      simp only [List.getElem?_cons_zero, Option.some.injEq] at hf
      subst hf
      simp [List.find?_cons]
    | succ n =>
      simp only [List.getElem?_cons_succ] at hf
      have hne : a.conf.key ≠ f.conf.key := by
        intro he
        apply hnd.1
        rw [he]
        exact List.mem_map.2 ⟨f, List.mem_iff_getElem?.2 ⟨n, hf⟩, rfl⟩
      have hb : (a.conf.key == f.conf.key) = false := by simpa using hne
      rw [List.find?_cons, hb]
      exact ih hnd.2 n hf

/-- With pairwise distinct keys, a lookup through the map finds the runtime
state of the registered feature with that key. -/
theorem lookupFeature_eq_find {reg : Registry} {r : testRunner}
    (hnd : (reg.featureConfs.map (fun c => c.key)).Nodup)
    (hs : sameConf (newTestRunner reg) r) (k : String) :
    (r.lookupFeature k).map Prod.snd = r.findFeature k := by
  have hndr : (r.features.map (fun f => f.conf.key)).Nodup := by
    have : r.features.map (fun f => f.conf.key)
        = (r.features.map (fun f => f.conf)).map (fun c => c.key) := by
      rw [List.map_map]; rfl
    rw [this, hs.2.2.2, newTestRunner_conf]
    exact hnd
  cases hfind : r.findFeature k with
  | some f =>
    have hmem : f ∈ r.features := List.mem_of_find?_eq_some hfind
    have hkey : f.conf.key = k := by
      have := List.find?_some hfind
      simpa using this
    obtain ⟨i, hi⟩ := List.mem_iff_getElem?.1 hmem
    have hc : reg.featureConfs[i]? = some f.conf := by
      rw [← sameConf_getElem? hs i, hi]; rfl
    have hl : r.featuresMap.lookup k = some i := by
      rw [hs.1, ← hkey]
      exact newTestRunner_lookup reg hnd i f.conf hc
    rw [lookupFeature_of hl hi]; rfl
  | none =>
    cases hl : r.lookupFeature k with
    | none => rfl
    | some p =>
      exfalso
      obtain ⟨i, f⟩ := p
      obtain ⟨h1, h2⟩ := lookupFeature_some hl
      obtain ⟨f1, hf1, hk1⟩ := mapSound_of_sameConf hs k i h1
      rw [h2] at hf1
      have : f = f1 := Option.some.inj hf1
      subst this
      have hnone := List.find?_eq_none.1 hfind f (List.mem_iff_getElem?.2 ⟨i, h2⟩)
      simp [hk1] at hnone

theorem reportFeature_eq_find {r : testRunner}
    (hkey : ∀ k, (r.lookupFeature k).map Prod.snd = r.findFeature k) (k : String) :
    r.reportFeature k = match r.findFeature k with
      | some f => .ok (featureReportOf f)
      | none => .error ("feature not found: " ++ k) := by
  have h := hkey k
  unfold testRunner.reportFeature
  cases hl : r.lookupFeature k with
  | none => rw [hl] at h; simp only [Option.map_none'] at h; rw [← h]
  | some p =>
    obtain ⟨i, f⟩ := p
    rw [hl] at h
    simp only [Option.map_some'] at h
    rw [← h]
    rfl

theorem reportFeatures_iff {r : testRunner}
    (hkey : ∀ k, (r.lookupFeature k).map Prod.snd = r.findFeature k) (keys : List String)
    (frs : List FeatureReport) :
    r.reportFeatures keys = .ok frs ↔
      keys.mapM (fun k => (r.findFeature k).map featureReportOf) = some frs := by
  induction keys generalizing frs with
  | nil =>
    rw [testRunner.reportFeatures, mapM_option_nil]
    simp
  | cons k ks ih =>
    rw [testRunner.reportFeatures, mapM_option_cons, reportFeature_eq_find hkey]
    cases hf : r.findFeature k with
    | none => simp
    | some f =>
      simp only [Option.map_some']
      cases hr : r.reportFeatures ks with
      | error e =>
        have hn : ks.mapM (fun k => (r.findFeature k).map featureReportOf) = none := by
          cases hm : ks.mapM (fun k => (r.findFeature k).map featureReportOf) with
          | none => rfl
          | some l => exact absurd ((ih l).2 hm) (by rw [hr]; simp)
        rw [hn]
        simp
      | ok l =>
        rw [(ih l).1 hr]
        simp [eq_comm]

theorem reportStories_iff {r : testRunner}
    (hkey : ∀ k, (r.lookupFeature k).map Prod.snd = r.findFeature k) (ss : List storyConf)
    (srs : List StoryReport) (reported : List String) :
    r.reportStories ss = .ok (srs, reported) ↔
      (ss.mapM (fun s =>
        (s.features.mapM (fun k => (r.findFeature k).map featureReportOf)).map
          (fun frs => ({ Description := s.description, Features := frs } : StoryReport)))
        = some srs ∧ reported = ss.flatMap (fun s => s.features)) := by
  induction ss generalizing srs reported with
  | nil =>
    rw [testRunner.reportStories, mapM_option_nil]
    simp only [Except.ok.injEq, Prod.mk.injEq, List.flatMap_nil, Option.some.injEq]
    constructor
    · rintro ⟨h1, h2⟩; exact ⟨h1, h2.symm⟩
    · rintro ⟨h1, h2⟩; exact ⟨h1, h2.symm⟩
  | cons s rest ih =>
    rw [testRunner.reportStories, mapM_option_cons, testRunner.reportStory]
    cases hm : s.features.mapM (fun k => (r.findFeature k).map featureReportOf) with
    | none =>
      have hr : ∀ frs, r.reportFeatures s.features ≠ .ok frs := by
        intro frs h
        rw [(reportFeatures_iff hkey s.features frs).1 h] at hm
        cases hm
      cases hrf : r.reportFeatures s.features with
      | ok frs => exact absurd hrf (hr frs)
      | error e => simp
    | some frs =>
      rw [(reportFeatures_iff hkey s.features frs).2 hm]
      simp only [Option.map_some', List.flatMap_cons]
      cases hrest : r.reportStories rest with
      | error e =>
        have hn : rest.mapM (fun s =>
            (s.features.mapM (fun k => (r.findFeature k).map featureReportOf)).map
              (fun frs => ({ Description := s.description, Features := frs } : StoryReport)))
            = none := by
          cases hmm : rest.mapM (fun s =>
            (s.features.mapM (fun k => (r.findFeature k).map featureReportOf)).map
              (fun frs => ({ Description := s.description, Features := frs } : StoryReport)))
            with
          | none => rfl
          | some l => exact absurd ((ih l _).2 ⟨hmm, rfl⟩) (by rw [hrest]; simp)
        rw [hn]
        simp
      | ok p =>
        obtain ⟨srs1, rep1⟩ := p
        obtain ⟨h1, h2⟩ := (ih srs1 rep1).1 hrest
        rw [h1]
        simp only [Except.ok.injEq, Prod.mk.injEq, Option.some.injEq]
        constructor
        · rintro ⟨h3, h4⟩
          exact ⟨h3, by rw [← h4, h2]⟩
        · rintro ⟨h3, h4⟩
          exact ⟨h3, by rw [h4, h2]⟩

theorem reportRest_eq {r : testRunner} (reported : List String) (fs : List featureInfo)
    (hfs : ∀ f ∈ fs, r.reportFeature f.conf.key = .ok (featureReportOf f)) :
    r.reportRest reported fs
      = .ok ((fs.filter (fun f => decide (f.conf.key ∉ reported))).map featureReportOf) := by
  induction fs with
  | nil => rfl
  | cons f rest ih =>
    have ih1 := ih (fun g hg => hfs g (List.mem_cons_of_mem _ hg))
    rw [testRunner.reportRest]
    by_cases hm : f.conf.key ∈ reported
    · rw [if_pos hm, ih1, List.filter_cons]
      simp [hm]
    · rw [if_neg hm, hfs f (List.mem_cons_self _ _), ih1, List.filter_cons]
      simp [hm]

/-- The report equals the reference report, in a state where the map finds the
registered feature with a key and every feature is found under its own key. -/
theorem report_iff_spec {r : testRunner}
    (hkey : ∀ k, (r.lookupFeature k).map Prod.snd = r.findFeature k)
    (hself : ∀ f ∈ r.features, r.findFeature f.conf.key = some f) (rep : Report) :
    r.report = .ok rep ↔ reportSpec r = some rep := by
  have hrest : ∀ reported, r.reportRest reported r.features
      = .ok ((r.features.filter (fun f => decide (f.conf.key ∉ reported))).map
          featureReportOf) := by
    intro reported
    apply reportRest_eq
    intro f hf
    rw [reportFeature_eq_find hkey, hself f hf]
  unfold testRunner.report reportSpec
  cases hm : r.stories.mapM (fun s =>
      (s.features.mapM (fun k => (r.findFeature k).map featureReportOf)).map
        (fun frs => ({ Description := s.description, Features := frs } : StoryReport))) with
  | none =>
    cases hr : r.reportStories r.stories with
    | error e => simp
    | ok p =>
      obtain ⟨srs, reported⟩ := p
      rw [((reportStories_iff hkey r.stories srs reported).1 hr).1] at hm
      cases hm
  | some srs =>
    rw [(reportStories_iff hkey r.stories srs _).2 ⟨hm, rfl⟩]
    simp only [hrest, testRunner.storyKeys]
    simp [eq_comm]

theorem mapM_option_some {α β : Type} (f : α → Option β) (l : List α)
    (h : ∀ a ∈ l, (f a).isSome = true) : ∃ bs, l.mapM f = some bs := by
  induction l with
  | nil => exact ⟨[], rfl⟩
  | cons a rest ih =>
    obtain ⟨bs, hbs⟩ := ih (fun b hb => h b (List.mem_cons_of_mem _ hb))
    have ha := h a (List.mem_cons_self _ _)
    cases hfa : f a with
    | none => rw [hfa] at ha; cases ha
    | some b => exact ⟨b :: bs, by rw [mapM_option_cons, hfa, hbs]⟩

/-- The feature reports of a story carry, in order, the keys that the story
lists. -/
theorem mapM_reports_keys (r : testRunner) (keys : List String) (frs : List FeatureReport)
    (h : keys.mapM (fun k => (r.findFeature k).map featureReportOf) = some frs) :
    frs.map (fun fr => fr.Key) = keys := by
  induction keys generalizing frs with
  | nil =>
    rw [mapM_option_nil] at h
    rw [← Option.some.inj h]; rfl
  | cons k ks ih =>
    rw [mapM_option_cons] at h
    cases hf : r.findFeature k with
    | none => rw [hf] at h; cases h
    | some f =>
      rw [hf] at h
      simp only [Option.map_some'] at h
      cases hm : ks.mapM (fun k => (r.findFeature k).map featureReportOf) with
      | none => rw [hm] at h; cases h
      | some l =>
        rw [hm] at h
        rw [← Option.some.inj h]
        have hk : f.conf.key = k := by
          have := List.find?_some hf
          simpa using this
        simp [featureReportOf, hk, ih l hm]

theorem mapM_stories_keys (r : testRunner) (ss : List storyConf) (srs : List StoryReport)
    (h : ss.mapM (fun s =>
      (s.features.mapM (fun k => (r.findFeature k).map featureReportOf)).map
        (fun frs => ({ Description := s.description, Features := frs } : StoryReport)))
      = some srs) :
    (srs.flatMap (fun sr => sr.Features)).map (fun fr => fr.Key)
      = ss.flatMap (fun s => s.features) := by
  induction ss generalizing srs with
  | nil =>
    rw [mapM_option_nil] at h
    rw [← Option.some.inj h]; rfl
  | cons s rest ih =>
    rw [mapM_option_cons] at h
    cases hm : s.features.mapM (fun k => (r.findFeature k).map featureReportOf) with
    | none => rw [hm] at h; cases h
    | some frs =>
      rw [hm] at h
      simp only [Option.map_some'] at h
      cases hr : rest.mapM (fun s =>
        (s.features.mapM (fun k => (r.findFeature k).map featureReportOf)).map
          (fun frs => ({ Description := s.description, Features := frs } : StoryReport))) with
      | none => rw [hr] at h; cases h
      | some l =>
        rw [hr] at h
        rw [← Option.some.inj h]
        simp only [List.flatMap_cons, List.map_append, ih l hr, mapM_reports_keys r _ frs hm]

/-- The facts about the final state of a run on which the report rests. -/
theorem run_report_facts (env : LogEnv) (reg : Registry) (fuel : Nat) (rf : testRunner)
    (hnd : (reg.featureConfs.map (fun c => c.key)).Nodup)
    (hrun : (newTestRunner reg).run env fuel = some (.ok rf)) :
    (∀ k, (rf.lookupFeature k).map Prod.snd = rf.findFeature k) ∧
    (∀ (i : Nat) (f : featureInfo), rf.features[i]? = some f →
      rf.findFeature f.conf.key = some f) ∧
    rf.stories = reg.storyConfs ∧
    rf.features.map (fun f => f.conf.key) = reg.featureConfs.map (fun c => c.key) := by
  obtain ⟨_, hs⟩ := run_inv env fuel _ rf (runInv_newTestRunner reg) hrun
  have hkeys : rf.features.map (fun f => f.conf.key)
      = reg.featureConfs.map (fun c => c.key) := by
    have : rf.features.map (fun f => f.conf.key)
        = (rf.features.map (fun f => f.conf)).map (fun c => c.key) := by
      rw [List.map_map]; rfl
    rw [this, hs.2.2.2, newTestRunner_conf]
  refine ⟨lookupFeature_eq_find hnd hs, ?_, ?_, hkeys⟩
  · intro i f hf
    exact find?_of_nodup rf.features (by rw [hkeys]; exact hnd) i f hf
  · rw [hs.2.2.1]
    exact (newTestRunnerLoop_eq reg.featureConfs _).2.2.2

/-- C14: for the final state `rf` of a run on a registry with pairwise distinct
keys, `report` returns a report exactly when the reference report exists, and
then returns the reference report: the registered stories in registration
order, each with its description and one feature report per listed key in the
order of the story, then the registered features that no story lists, in
registration order, every feature report carrying the key, description, status
and records of the final runtime state of the feature with that key.  The
reference exists when every story member is registered. -/
theorem report_equals_reference (env : LogEnv) (reg : Registry) (fuel : Nat) (rf : testRunner)
    (hnd : (reg.featureConfs.map (fun c => c.key)).Nodup)
    (hrun : (newTestRunner reg).run env fuel = some (.ok rf)) :
    (∀ rep, rf.report = .ok rep ↔ reportSpec rf = some rep) ∧
    (∀ rep, RunAll env fuel reg = some (.ok rep) ↔ reportSpec rf = some rep) ∧
    ((∀ s ∈ reg.storyConfs, ∀ k ∈ s.features, ∃ c ∈ reg.featureConfs, c.key = k) →
      ∃ rep, reportSpec rf = some rep ∧ RunAll env fuel reg = some (.ok rep)) ∧
    (∀ (i : Nat) (f : featureInfo), rf.features[i]? = some f →
      rf.findFeature f.conf.key = some f) ∧
    rf.stories = reg.storyConfs ∧
    rf.features.map (fun f => f.conf.key) = reg.featureConfs.map (fun c => c.key) := by
  obtain ⟨hkey, hself, hst, hkeys⟩ := run_report_facts env reg fuel rf hnd hrun
  have hiff : ∀ rep, rf.report = .ok rep ↔ reportSpec rf = some rep := by
    intro rep
    apply report_iff_spec hkey
    intro f hf
    obtain ⟨i, hi⟩ := List.mem_iff_getElem?.1 hf
    exact hself i f hi
  have hall : ∀ rep, RunAll env fuel reg = some (.ok rep) ↔ reportSpec rf = some rep := by
    intro rep
    rw [← hiff rep]
    simp only [RunAll, hrun, Option.some.injEq]
  refine ⟨hiff, hall, ?_, hself, hst, hkeys⟩
  intro hreg
  have hsome : ∃ srs, rf.stories.mapM (fun s =>
      (s.features.mapM (fun k => (rf.findFeature k).map featureReportOf)).map
        (fun frs => ({ Description := s.description, Features := frs } : StoryReport)))
      = some srs := by
    apply mapM_option_some
    intro s hs
    rw [hst] at hs
    obtain ⟨frs, hfrs⟩ := mapM_option_some
      (fun k => (rf.findFeature k).map featureReportOf) s.features (by
        intro k hk
        obtain ⟨c, hc, hck⟩ := hreg s hs k hk
        have hmem : k ∈ rf.features.map (fun f => f.conf.key) := by
          rw [hkeys]
          exact List.mem_map.2 ⟨c, hc, hck⟩
        obtain ⟨f, hf, hfk⟩ := List.mem_map.1 hmem
        obtain ⟨i, hi⟩ := List.mem_iff_getElem?.1 hf
        have := hself i f hi
        rw [hfk] at this
        show ((rf.findFeature k).map featureReportOf).isSome = true
        rw [this]; rfl)
    rw [hfrs]; rfl
  obtain ⟨srs, hsrs⟩ := hsome
  have hspec : reportSpec rf = some
      { Stories := srs,
        Features := (rf.features.filter (fun f => decide (f.conf.key ∉ rf.storyKeys))).map
          featureReportOf } := by
    unfold reportSpec
    rw [hsrs]
  exact ⟨_, hspec, (hall _).2 hspec⟩

/-- Witness of C14: the registry with the feature `A` and two stories listing
it. -/
theorem report_equals_reference_witness :
    ∃ rep, reportSpec ((newTestRunner twoStoriesRegistry).featureIter ⟨"[TIME]", false⟩ 1)
        = some rep ∧
      RunAll ⟨"[TIME]", false⟩ 2 twoStoriesRegistry = some (.ok rep) :=
  (report_equals_reference ⟨"[TIME]", false⟩ twoStoriesRegistry 2
    ((newTestRunner twoStoriesRegistry).featureIter ⟨"[TIME]", false⟩ 1)
    (by decide) (by rfl)).2.2.1 (by decide)

/-- Counterexample to C13: both stories of `twoStoriesRegistry` list `A`, every
story member is registered, and the report returned by `RunAll` contains two
feature reports for `A`. -/
theorem feature_reported_twice :
    ∃ rep, RunAll ⟨"[TIME]", false⟩ 2 twoStoriesRegistry = some (.ok rep) ∧
      ((rep.Stories.flatMap (fun sr => sr.Features)).map (fun fr => fr.Key)
        ++ rep.Features.map (fun fr => fr.Key)).count "A" = 2 :=
  ⟨_, rfl, by decide⟩

/-- C13, amended: in the report returned for a registry with pairwise distinct
keys, the feature reports inside the story reports carry, in order, exactly
the keys that the stories list (one report for each listing, so a feature that
stories list more than once is reported more than once), and the top-level
list carries, in registration order, exactly the keys of the registered
features that no story lists.  So a registered feature is at top level once
if no story lists it and not at all otherwise, it is inside story reports once
for each listing: never in both places, never dropped. -/
theorem report_covers_features (env : LogEnv) (reg : Registry) (fuel : Nat) (rf : testRunner)
    (rep : Report) (hnd : (reg.featureConfs.map (fun c => c.key)).Nodup)
    (hrun : (newTestRunner reg).run env fuel = some (.ok rf))
    (hrep : rf.report = .ok rep) :
    RunAll env fuel reg = some (.ok rep) ∧
    (rep.Stories.flatMap (fun sr => sr.Features)).map (fun fr => fr.Key)
      = reg.storyConfs.flatMap (fun s => s.features) ∧
    rep.Features.map (fun fr => fr.Key)
      = (reg.featureConfs.map (fun c => c.key)).filter
          (fun k => decide (k ∉ reg.storyConfs.flatMap (fun s => s.features))) ∧
    ∀ c ∈ reg.featureConfs,
      (rep.Features.map (fun fr => fr.Key)).count c.key
        = (if c.key ∈ reg.storyConfs.flatMap (fun s => s.features) then 0 else 1) ∧
      ((rep.Stories.flatMap (fun sr => sr.Features)).map (fun fr => fr.Key)).count c.key
        = (reg.storyConfs.flatMap (fun s => s.features)).count c.key ∧
      0 < ((rep.Stories.flatMap (fun sr => sr.Features)).map (fun fr => fr.Key)
            ++ rep.Features.map (fun fr => fr.Key)).count c.key := by
  obtain ⟨hkey, hself, hst, hkeys⟩ := run_report_facts env reg fuel rf hnd hrun
  have hspec : reportSpec rf = some rep := by
    apply (report_iff_spec hkey ?_ rep).1 hrep
    intro f hf
    obtain ⟨i, hi⟩ := List.mem_iff_getElem?.1 hf
    exact hself i f hi
  unfold reportSpec at hspec
  cases hm : rf.stories.mapM (fun s =>
      (s.features.mapM (fun k => (rf.findFeature k).map featureReportOf)).map
        (fun frs => ({ Description := s.description, Features := frs } : StoryReport))) with
  | none => rw [hm] at hspec; cases hspec
  | some srs =>
    rw [hm] at hspec
    simp only [Option.some.injEq] at hspec
    have h1 : (rep.Stories.flatMap (fun sr => sr.Features)).map (fun fr => fr.Key)
        = reg.storyConfs.flatMap (fun s => s.features) := by
      rw [← hspec, ← hst]
      exact mapM_stories_keys rf rf.stories srs hm
    have h2 : rep.Features.map (fun fr => fr.Key)
        = (reg.featureConfs.map (fun c => c.key)).filter
            (fun k => decide (k ∉ reg.storyConfs.flatMap (fun s => s.features))) := by
      rw [← hspec, ← hkeys, testRunner.storyKeys, hst]
      simp only [List.map_map, List.filter_map]
      rfl
    refine ⟨by simp only [RunAll, hrun, hrep], h1, h2, ?_⟩
    intro c hc
    have hmem : c.key ∈ reg.featureConfs.map (fun c => c.key) := List.mem_map.2 ⟨c, hc, rfl⟩
    have hone : (reg.featureConfs.map (fun c => c.key)).count c.key = 1 :=
      List.count_eq_one_of_mem hnd hmem
    have htop : (rep.Features.map (fun fr => fr.Key)).count c.key
        = (if c.key ∈ reg.storyConfs.flatMap (fun s => s.features) then 0 else 1) := by
      rw [h2]
      by_cases hin : c.key ∈ reg.storyConfs.flatMap (fun s => s.features)
      · rw [if_pos hin]
        apply List.count_eq_zero_of_not_mem
        intro hf
        have := (List.mem_filter.1 hf).2
        simp [hin] at this
      · rw [if_neg hin, List.count_filter (by simp [hin]), hone]
    refine ⟨htop, by rw [h1], ?_⟩
    rw [List.count_append, htop, h1]
    by_cases hin : c.key ∈ reg.storyConfs.flatMap (fun s => s.features)
    · have := List.count_pos_iff.2 hin
      omega
    · rw [if_neg hin]; omega

/-- Witness of C13, amended: the registry with two stories listing `A`. -/
theorem report_covers_features_witness :
    ∃ rep, RunAll ⟨"[TIME]", false⟩ 2 twoStoriesRegistry = some (.ok rep) ∧
      (rep.Stories.flatMap (fun sr => sr.Features)).map (fun fr => fr.Key) = ["A", "A"] :=
  ⟨_, (report_covers_features ⟨"[TIME]", false⟩ twoStoriesRegistry 2
    ((newTestRunner twoStoriesRegistry).featureIter ⟨"[TIME]", false⟩ 1) _
    (by decide) (by rfl) (by rfl)).1,
    (report_covers_features ⟨"[TIME]", false⟩ twoStoriesRegistry 2
    ((newTestRunner twoStoriesRegistry).featureIter ⟨"[TIME]", false⟩ 1) _
    (by decide) (by rfl) (by rfl)).2.1⟩

/-! ## Unregistered keys -/

/-- C15: on `missingKeyRegistry` the unregistered keys `missing` (required by
`X`) and `absent` (listed by the test) are never looked up, because the scan of
each list stops at `B`, which is `NotImplemented`: `RunAll` returns a report,
with `X` reported `SKIP`, instead of aborting. -/
theorem unregistered_key_unnoticed :
    RunAll ⟨"[TIME]", false⟩ 2 missingKeyRegistry
      = some (.ok
          { Stories := [],
            Features :=
              [{ Key := "B", Description := "describe B", Status := FeatureNotImplemented,
                 Records :=
                   [{ Description := "check B(describe B)",
                      Logs := ["[TIME] check finish. success=true, feature.status=NOT_IMPL"],
                      Success := true }] },
               { Key := "X", Description := "describe X", Status := FeatureSkip,
                 Records := [] }] }) := by
  rfl

/-! ## Dependency cycles -/

/-- In a state of a run on a registry with pairwise distinct keys, no feature
of a set whose every member requires a member of the set has been executed. -/
theorem closed_set_not_executed {reg : Registry} {r : testRunner}
    (hnd : (reg.featureConfs.map (fun c => c.key)).Nodup)
    (hs : sameConf (newTestRunner reg) r) (hinv : runInv r) (cyc : List Nat)
    (hcyc : ∀ x ∈ cyc, ∃ fx, reg.featureConfs[x]? = some fx ∧
      ∃ y ∈ cyc, ∃ fy, reg.featureConfs[y]? = some fy ∧ fy.key ∈ fx.requiredFeatures)
    (x : Nat) (hx : x ∈ cyc) : Event.check x ∉ r.trace := by
  have key : ∀ (p : Nat) (x : Nat), x ∈ cyc → r.trace[p]? ≠ some (Event.check x) := by
    intro p
    induction p using Nat.strong_induction_on with
    | _ p ih =>
      intro x hx hp
      obtain ⟨fx, hfx, y, hy, fy, hfy, hreq⟩ := hcyc x hx
      obtain ⟨gx, hgx, hcx⟩ : ∃ gx, r.features[x]? = some gx ∧ gx.conf = fx := by
        have h := sameConf_getElem? hs x
        rw [hfx] at h
        cases hfi : r.features[x]? with
        | none => rw [hfi] at h; cases h
        | some g =>
          rw [hfi] at h
          simp only [Option.map_some', Option.some.injEq] at h
          exact ⟨g, rfl, h⟩
      have hmem : Event.check x ∈ r.trace := List.mem_iff_getElem?.2 ⟨p, hp⟩
      have hgate := hinv.2.1 x gx hmem hgx
      rw [hcx] at hgate
      obtain ⟨y1, g, hl, hres⟩ := hgate fy.key hreq
      obtain ⟨hl1, hl2⟩ := lookupFeature_some hl
      have hlook : r.featuresMap.lookup fy.key = some y := by
        rw [hs.1]
        exact newTestRunner_lookup reg hnd y fy hfy
      rw [hlook] at hl1
      have : y = y1 := Option.some.inj hl1
      subst this
      have hymem := hinv.1 y g hl2 (Or.inl (resolved_ne_skip hres))
      obtain ⟨q, hq⟩ := List.mem_iff_getElem?.1 hymem
      have hqp := hinv.2.2 p x gx hp hgx fy.key (by rw [hcx]; exact hreq) y hlook q hq
      exact ih q hqp y hy hq
  intro hmem
  obtain ⟨p, hp⟩ := List.mem_iff_getElem?.1 hmem
  exact key p x hx hp

/-- A feature of such a set is `Skip` without records, and the check of its
required features answers false when all of them are registered. -/
theorem closed_set_skip {reg : Registry} {r : testRunner}
    (hnd : (reg.featureConfs.map (fun c => c.key)).Nodup)
    (hs : sameConf (newTestRunner reg) r) (hinv : runInv r) (cyc : List Nat)
    (hcyc : ∀ x ∈ cyc, ∃ fx, reg.featureConfs[x]? = some fx ∧
      ∃ y ∈ cyc, ∃ fy, reg.featureConfs[y]? = some fy ∧ fy.key ∈ fx.requiredFeatures)
    (x : Nat) (hx : x ∈ cyc) (fx : featureConf) (hfx : reg.featureConfs[x]? = some fx) :
    r.features[x]? = some { conf := fx, status := FeatureSkip, records := [] } ∧
    r.reportFeature fx.key = .ok ⟨fx.key, fx.description, FeatureSkip, []⟩ ∧
    ((∀ k ∈ fx.requiredFeatures, ∃ c ∈ reg.featureConfs, c.key = k) →
      r.checkRequiredFeatures fx.requiredFeatures = .ok false) := by
  have hnot := closed_set_not_executed hnd hs hinv cyc hcyc
  obtain ⟨gx, hgx, hcx⟩ : ∃ gx, r.features[x]? = some gx ∧ gx.conf = fx := by
    have h := sameConf_getElem? hs x
    rw [hfx] at h
    cases hfi : r.features[x]? with
    | none => rw [hfi] at h; cases h
    | some g =>
      rw [hfi] at h
      simp only [Option.map_some', Option.some.injEq] at h
      exact ⟨g, rfl, h⟩
  have hfresh : gx.status = FeatureSkip ∧ gx.records = [] := by
    constructor
    · by_contra h
      exact hnot x hx (hinv.1 x gx hgx (Or.inl h))
    · by_contra h
      exact hnot x hx (hinv.1 x gx hgx (Or.inr h))
  have hgx1 : gx = { conf := fx, status := FeatureSkip, records := [] } := by
    cases gx
    simp only at hcx hfresh
    simp [hcx, hfresh.1, hfresh.2]
  have hmap : r.featuresMap.lookup fx.key = some x := by
    rw [hs.1]
    exact newTestRunner_lookup reg hnd x fx hfx
  refine ⟨by rw [hgx, hgx1], ?_, ?_⟩
  · simp only [testRunner.reportFeature, lookupFeature_of hmap hgx, hgx1]
  · intro hreg
    obtain ⟨b, hb⟩ := checkRequiredFeatures_registered r fx.requiredFeatures (by
      intro k hk
      obtain ⟨c, hc, hck⟩ := hreg k hk
      obtain ⟨i, hi⟩ := List.mem_iff_getElem?.1 hc
      have hl : r.featuresMap.lookup k = some i := by
        rw [hs.1, ← hck]
        exact newTestRunner_lookup reg hnd i c hi
      have hfi := sameConf_getElem? hs i
      rw [hi] at hfi
      cases hf : r.features[i]? with
      | none => rw [hf] at hfi; cases hfi
      | some g => rw [lookupFeature_of hl hf]; rfl)
    cases b with
    | false => exact hb
    | true =>
      exfalso
      obtain ⟨fx1, hfx1, y, hy, fy, hfy, hreq⟩ := hcyc x hx
      rw [hfx] at hfx1
      have hfe : fx = fx1 := Option.some.inj hfx1
      subst hfe
      obtain ⟨y1, g, hl, hres⟩ := (checkRequiredFeatures_eq_true_iff r _).1 hb fy.key hreq
      obtain ⟨hl1, hl2⟩ := lookupFeature_some hl
      have hlook : r.featuresMap.lookup fy.key = some y := by
        rw [hs.1]
        exact newTestRunner_lookup reg hnd y fy hfy
      rw [hlook] at hl1
      have : y = y1 := Option.some.inj hl1
      subst this
      exact hnot y hy (hinv.1 y g hl2 (Or.inl (resolved_ne_skip hres)))

/-- C19: in a registry with pairwise distinct keys, let `cyc` be a set of
features each of which requires a member of the set (a dependency cycle
`f1 .. fk`, a feature that requires itself).  Then in every state of the first
loop of `run` none of them has been executed, each is `Skip` without records,
and the check of its required features answers false (no error) when they are
all registered; and in the final state of a run that ends none of them has been
executed and each is reported `SKIP` with an empty record list. -/
theorem cycle_stays_skip (env : LogEnv) (reg : Registry) (cyc : List Nat)
    (hnd : (reg.featureConfs.map (fun c => c.key)).Nodup)
    (hcyc : ∀ x ∈ cyc, ∃ fx, reg.featureConfs[x]? = some fx ∧
      ∃ y ∈ cyc, ∃ fy, reg.featureConfs[y]? = some fy ∧ fy.key ∈ fx.requiredFeatures) :
    (∀ (n : Nat), ∀ x ∈ cyc, ∀ fx, reg.featureConfs[x]? = some fx →
      Event.check x ∉ ((newTestRunner reg).featureIter env n).trace ∧
      ((newTestRunner reg).featureIter env n).features[x]?
        = some { conf := fx, status := FeatureSkip, records := [] } ∧
      ((∀ k ∈ fx.requiredFeatures, ∃ c ∈ reg.featureConfs, c.key = k) →
        ((newTestRunner reg).featureIter env n).checkRequiredFeatures fx.requiredFeatures
          = .ok false)) ∧
    (∀ (fuel : Nat) (rf : testRunner), (newTestRunner reg).run env fuel = some (.ok rf) →
      ∀ x ∈ cyc, ∀ fx, reg.featureConfs[x]? = some fx →
        Event.check x ∉ rf.trace ∧
        rf.features[x]? = some { conf := fx, status := FeatureSkip, records := [] } ∧
        rf.reportFeature fx.key = .ok ⟨fx.key, fx.description, FeatureSkip, []⟩) := by
  constructor
  · intro n x hx fx hfx
    have hinv := runInv_featureIter env n (runInv_newTestRunner reg)
    have hs := sameConf_featureIter env n (newTestRunner reg)
    obtain ⟨h1, _, h3⟩ := closed_set_skip hnd hs hinv cyc hcyc x hx fx hfx
    exact ⟨closed_set_not_executed hnd hs hinv cyc hcyc x hx, h1, h3⟩
  · intro fuel rf hrun x hx fx hfx
    obtain ⟨hinv, hs⟩ := run_inv env fuel _ rf (runInv_newTestRunner reg) hrun
    obtain ⟨h1, h2, _⟩ := closed_set_skip hnd hs hinv cyc hcyc x hx fx hfx
    exact ⟨closed_set_not_executed hnd hs hinv cyc hcyc x hx, h1, h2⟩

/-- Witness of C19: the cycle `P`, `Q` and the self-requiring `S` of
`cycleRegistry`; the run ends at once and reports `P` as `SKIP`. -/
theorem cycle_stays_skip_witness :
    (newTestRunner cycleRegistry).run ⟨"[TIME]", false⟩ 1 = some (.ok (newTestRunner cycleRegistry)) ∧
    (newTestRunner cycleRegistry).reportFeature "P"
      = .ok ⟨"P", "describe P", FeatureSkip, []⟩ :=
  ⟨by rfl,
   ((cycle_stays_skip ⟨"[TIME]", false⟩ cycleRegistry [0, 1, 2] (by decide)
      (by
        intro x hx
        simp only [List.mem_cons, List.mem_singleton, List.not_mem_nil, or_false] at hx
        rcases hx with rfl | rfl | rfl
        · exact ⟨_, rfl, 1, by simp, _, rfl, by decide⟩
        · exact ⟨_, rfl, 0, by simp, _, rfl, by decide⟩
        · exact ⟨_, rfl, 2, by simp, _, rfl, by decide⟩)).2 1 (newTestRunner cycleRegistry)
      (by rfl) 0 (by simp) ⟨"P", "describe P", ["Q"], some (fun _ => ⟨[], .ok FeaturePass⟩)⟩
      rfl).2.2⟩

/-! ## The records of a feature -/

theorem callChecker_description (env : LogEnv) (hist : List Event) (recorder : Recorder)
    (f : Option (List Event → CheckerOutcome)) :
    (callChecker env hist recorder f).1.Description = recorder.Description := by
  unfold callChecker
  cases f with
  | none => rfl
  | some c =>
    simp only [userLogs_eq]
    cases (c hist).result <;> rfl

theorem callTest_description (env : LogEnv) (hist : List Event) (recorder : Recorder)
    (f : Option (List Event → TestOutcome)) :
    (callTest env hist recorder f).Description = recorder.Description := by
  unfold callTest
  cases f with
  | none => rfl
  | some t =>
    simp only [userLogs_eq]
    cases (t hist).abort <;> rfl

theorem recordDescs_congr {r r1 : testRunner} {f f1 : featureInfo} (i : Nat)
    (ht : r1.tests = r.tests) (hm : r1.featuresMap = r.featuresMap) (hc : f1.conf = f.conf) :
    recordDescs r1 i f1 = recordDescs r i f := by
  funext e
  cases e with
  | check x => simp only [recordDescs, hc]
  | test j => simp only [recordDescs, listings, ht, hm]

/-- The record that `runFeatureChecker` appends is described
`check KEY(DESCRIPTION)`. -/
theorem runFeatureChecker_desc (env : LogEnv) {r : testRunner} {i : Nat} {f : featureInfo}
    (hf : r.features[i]? = some f) :
    ∃ f1 rec, f1.conf = f.conf ∧ f1.records = f.records ++ [rec] ∧
      rec.Description = "check " ++ f.conf.key ++ "(" ++ f.conf.description ++ ")" ∧
      (r.runFeatureChecker env i).features = r.features.set i f1 ∧
      (r.runFeatureChecker env i).featuresMap = r.featuresMap ∧
      (r.runFeatureChecker env i).tests = r.tests ∧
      (r.runFeatureChecker env i).trace = r.trace ++ [Event.check i] := by
  simp only [testRunner.runFeatureChecker, hf, testRunner.setFeature]
  refine ⟨_, (callChecker env r.trace
      (newRecorder ("check " ++ f.conf.key ++ "(" ++ f.conf.description ++ ")"))
      f.conf.checkF).1.Log env "runner.go:96"
      (checkFinish (callChecker env r.trace
          (newRecorder ("check " ++ f.conf.key ++ "(" ++ f.conf.description ++ ")"))
          f.conf.checkF).1.Success
        (callChecker env r.trace
          (newRecorder ("check " ++ f.conf.key ++ "(" ++ f.conf.description ++ ")"))
          f.conf.checkF).2), ?_, ?_, ?_, rfl, trivial, trivial, trivial⟩
  · rfl
  · rfl
  · simp only [Recorder.Log, Recorder.log, callChecker_description, newRecorder]

theorem descInv_runFeatureChecker (env : LogEnv) {r : testRunner} {i0 : Nat}
    {f0 : featureInfo} (hinv : descInv r) (hf0 : r.features[i0]? = some f0) :
    descInv (r.runFeatureChecker env i0) := by
  obtain ⟨f1, rec, hc, hrec, hd, hfe, hm, ht, htr⟩ := runFeatureChecker_desc env hf0
  intro i f hf
  rw [hfe, getElem?_set_of_some hf0] at hf
  rw [htr, List.flatMap_append]
  by_cases hi : i0 = i
  · subst hi
    simp only [if_true, Option.some.injEq] at hf
    subst hf
    rw [recordDescs_congr i0 ht hm hc, ← hinv i0 f0 hf0, hrec, List.map_append]
    simp [recordDescs, hd]
  · simp only [if_neg hi] at hf
    rw [recordDescs_congr i ht hm rfl, ← hinv i f hf]
    simp [recordDescs, hi]

theorem descInv_featureIter (env : LogEnv) (n : Nat) {r : testRunner} (hinv : descInv r) :
    descInv (testRunner.featureIter env n r) := by
  induction n generalizing r with
  | zero => exact hinv
  | succ n ih =>
    rw [testRunner.featureIter]
    cases hn : r.nextFeature with
    | error e => exact hinv
    | ok o =>
      cases o with
      | none => exact hinv
      | some i =>
        obtain ⟨f, hf, _, _⟩ := nextFeature_some hn
        exact ih (descInv_runFeatureChecker env hinv hf)

theorem descInv_runTest (env : LogEnv) {r r1 : testRunner} {j : Nat} {t : testConf}
    (hinv : descInv r) (ht : r.tests[j]? = some t) (h : r.runTest env j t = .ok r1) :
    descInv r1 := by
  unfold testRunner.runTest at h
  obtain ⟨hs, htr, _⟩ := testEvol_runTestLoop env _ _ _ _ h
  obtain ⟨hm, hstep⟩ := runTestLoop_eq env _ _ _ _ h
  intro i f1 hf1
  have htests : r1.tests = r.tests := hs.2.1
  have hmap : r1.featuresMap = r.featuresMap := hs.1
  cases hf : r.features[i]? with
  | none =>
    have hlen : r1.features.length = r.features.length := by
      have := congrArg List.length hs.2.2.2
      simpa using this
    have h1 := (List.getElem?_eq_some.1 hf1).1
    have h2 := List.getElem?_eq_none_iff.1 hf
    omega
  | some f =>
    have hnew := hstep i f hf
    rw [hf1] at hnew
    have hf1e := Option.some.inj hnew
    have hconf : f1.conf = f.conf := by
      rw [hf1e]
      split <;> rfl
    have hrecs : f1.records.map (fun rec => rec.Description)
        = f.records.map (fun rec => rec.Description)
          ++ List.replicate (listings r t.features i) t.description := by
      rw [hf1e]
      by_cases h0 : listings r t.features i = 0
      · have h0' : listings { r with trace := r.trace ++ [Event.test j] } t.features i = 0 := h0
        rw [if_pos h0', h0]
        simp
      · have h0' : ¬ listings { r with trace := r.trace ++ [Event.test j] } t.features i = 0 :=
          h0
        rw [if_neg h0']
        simp only [List.map_append, List.map_replicate, closingRecord, callTest_description,
          newRecorder]
        rfl
    rw [htr, recordDescs_congr i htests hmap hconf]
    show _ = (r.trace ++ [Event.test j]).flatMap (recordDescs r i f)
    rw [List.flatMap_append, ← hinv i f hf, hrecs]
    simp [recordDescs, ht]

theorem descInv_runTestsFrom (env : LogEnv) (j : Nat) (ts : List testConf) (r rf : testRunner)
    (hinv : descInv r) (pre : List testConf) (hpre : r.tests = pre ++ ts)
    (hj : pre.length = j) (h : testRunner.runTestsFrom env j ts r = .ok rf) : descInv rf := by
  induction ts generalizing r j pre with
  | nil =>
    simp only [testRunner.runTestsFrom, Except.ok.injEq] at h
    subst h
    exact hinv
  | cons t rest ih =>
    rw [testRunner.runTestsFrom] at h
    have hpre1 : r.tests = (pre ++ [t]) ++ rest := by rw [hpre]; simp
    have hj1 : (pre ++ [t]).length = j + 1 := by simp [hj]
    cases hc : r.checkRequiredFeatures t.features with
    | error e => rw [hc] at h; cases h
    | ok b =>
      rw [hc] at h
      cases b with
      | false => exact ih (j + 1) r hinv (pre ++ [t]) hpre1 hj1 h
      | true =>
        simp only [] at h
        cases hr : r.runTest env j t with
        | error e => rw [hr] at h; cases h
        | ok r1 =>
          rw [hr] at h
          simp only [] at h
          have htj : r.tests[j]? = some t := by
            rw [hpre, ← hj, List.getElem?_append_right (Nat.le_refl _)]
            simp
          have hinv1 := descInv_runTest env hinv htj hr
          have ht1 : r1.tests = r.tests := (sameConf_runTest env r r1 j t hr).2.1
          exact ih (j + 1) r1 hinv1 (pre ++ [t]) (by rw [ht1]; exact hpre1) hj1 h

theorem featureIter_trace_checks (env : LogEnv) (n : Nat) (r : testRunner) :
    ∃ cs : List Nat, (testRunner.featureIter env n r).trace = r.trace ++ cs.map Event.check := by
  induction n generalizing r with
  | zero => exact ⟨[], by simp [testRunner.featureIter]⟩
  | succ n ih =>
    rw [testRunner.featureIter]
    cases hn : r.nextFeature with
    | error e => exact ⟨[], by simp⟩
    | ok o =>
      cases o with
      | none => exact ⟨[], by simp⟩
      | some i =>
        obtain ⟨f, hf, _, _⟩ := nextFeature_some hn
        obtain ⟨_, _, _, _, _, _, _, _, htr⟩ := runFeatureChecker_eq env hf
        obtain ⟨cs, hcs⟩ := ih (r.runFeatureChecker env i)
        exact ⟨i :: cs, by simp only []; rw [hcs, htr]; simp⟩

theorem flatMap_checks (r : testRunner) (i : Nat) (f : featureInfo) (cs : List Nat) :
    (cs.map Event.check).flatMap (recordDescs r i f)
      = List.replicate (cs.count i)
          ("check " ++ f.conf.key ++ "(" ++ f.conf.description ++ ")") := by
  induction cs with
  | nil => rfl
  | cons x xs ih =>
    rw [List.map_cons, List.flatMap_cons, ih, List.count_cons]
    by_cases hx : x = i
    · subst hx
      simp [recordDescs, List.replicate_succ]
    · simp [recordDescs, hx]

theorem flatMap_tests (r : testRunner) (i : Nat) (f : featureInfo) (js : List Nat) :
    (js.map Event.test).flatMap (recordDescs r i f)
      = js.flatMap (fun j => match r.tests[j]? with
          | some t => List.replicate (listings r t.features i) t.description
          | none => []) := by
  induction js with
  | nil => rfl
  | cons x xs ih =>
    rw [List.map_cons, List.flatMap_cons, List.flatMap_cons, ih]
    rfl

theorem run_split (env : LogEnv) (fuel : Nat) (r rf : testRunner)
    (h : r.run env fuel = some (.ok rf)) :
    testRunner.runTestsFrom env 0 (testRunner.featureIter env fuel r).tests
      (testRunner.featureIter env fuel r) = .ok rf ∧
    (testRunner.featureIter env fuel r).nextFeature = .ok none := by
  unfold testRunner.run at h
  cases hf : testRunner.runFeatures env fuel r with
  | none => rw [hf] at h; cases h
  | some x =>
    cases x with
    | error e => rw [hf] at h; simp at h
    | ok r1 =>
      rw [hf] at h
      simp only [Option.some.injEq] at h
      obtain ⟨he, hn⟩ := runFeatures_eq_some env fuel r r1 hf
      subst he
      exact ⟨h, hn⟩

theorem descInv_newTestRunner (reg : Registry) : descInv (newTestRunner reg) := by
  intro i f hf
  rw [newTestRunner_trace, (newTestRunner_fresh reg i f hf).2]
  rfl

theorem trace_split_unique (cs js cs1 js1 : List Nat)
    (h : cs.map Event.check ++ js.map Event.test = cs1.map Event.check ++ js1.map Event.test) :
    cs1 = cs ∧ js1 = js := by
  induction cs generalizing cs1 with
  | nil =>
    cases cs1 with
    | nil =>
      simp only [List.map_nil, List.nil_append] at h
      exact ⟨rfl, (List.map_injective_iff.2 (fun a b hab => by cases hab; rfl) h).symm⟩
    | cons c1 rest1 =>
      cases js with
      | nil => simp at h
      | cons j rest => simp at h
  | cons c rest ih =>
    cases cs1 with
    | nil =>
      cases js1 with
      | nil => simp at h
      | cons j rest1 => simp at h
    | cons c1 rest1 =>
      simp only [List.map_cons, List.cons_append, List.cons.injEq, Event.check.injEq] at h
      obtain ⟨h1, h2⟩ := ih rest1 h.2
      exact ⟨by rw [h.1, h1], h2⟩

/-- Counterexample to C20: the one test of `doubleListingRegistry` is executed
and lists `G` twice; in the report returned by `RunAll` the checker record of
`G` is followed by two records of that test. -/
theorem test_listing_twice_records_twice :
    ∃ rep, RunAll ⟨"[TIME]", false⟩ 2 doubleListingRegistry = some (.ok rep) ∧
      rep.Features.map (fun fr => fr.Records.map (fun rec => rec.Description))
        = [["check G(describe G)", "test G", "test G"]] :=
  ⟨_, rfl, by decide⟩

/-- C20, amended: let a run on a registry with pairwise distinct keys end in the
state `rf`, let `cs` be the sequence of executed checkers and `js` the executed
tests, which come in registration order.  The report of a feature carries the
records of its final state.  A feature whose checker was never executed has no
records.  A feature whose checker was executed once has as its first record the
checker record, described `check KEY(DESCRIPTION)`, followed, for each executed
test in registration order, by one record of that test for each key of its list
that names the feature.  In general the records of a feature are one checker
record for each execution of its checker, followed by those test records. -/
theorem records_follow_trace (env : LogEnv) (reg : Registry) (fuel : Nat) (rf : testRunner)
    (hnd : (reg.featureConfs.map (fun c => c.key)).Nodup)
    (hrun : (newTestRunner reg).run env fuel = some (.ok rf)) :
    ∃ cs js : List Nat, rf.trace = cs.map Event.check ++ js.map Event.test ∧
      js.Pairwise (fun a b => a < b) ∧
      ∀ (i : Nat) (f : featureInfo), rf.features[i]? = some f →
        rf.reportFeature f.conf.key = .ok (featureReportOf f) ∧
        (i ∉ cs → f.records = []) ∧
        (cs.count i = 1 → ∃ c rest, f.records = c :: rest ∧
          c.Description = "check " ++ f.conf.key ++ "(" ++ f.conf.description ++ ")" ∧
          rest.map (fun rec => rec.Description)
            = js.flatMap (fun j => match rf.tests[j]? with
                | some t => List.replicate (listings rf t.features i) t.description
                | none => [])) ∧
        f.records.map (fun rec => rec.Description)
          = List.replicate (cs.count i)
              ("check " ++ f.conf.key ++ "(" ++ f.conf.description ++ ")") ++
            js.flatMap (fun j => match rf.tests[j]? with
              | some t => List.replicate (listings rf t.features i) t.description
              | none => []) := by
  obtain ⟨htests, _⟩ := run_split env fuel _ rf hrun
  obtain ⟨hinv, _⟩ := run_inv env fuel _ rf (runInv_newTestRunner reg) hrun
  obtain ⟨hkey, hself, _, _⟩ := run_report_facts env reg fuel rf hnd hrun
  obtain ⟨cs, hcs⟩ := featureIter_trace_checks env fuel (newTestRunner reg)
  rw [newTestRunner_trace, List.nil_append] at hcs
  obtain ⟨js, hjs, hpair, _⟩ := runTestsFrom_trace env 0 _ _ rf htests
  rw [hcs] at hjs
  have hdesc : descInv rf :=
    descInv_runTestsFrom env 0 _ _ rf (descInv_featureIter env fuel (descInv_newTestRunner reg))
      [] rfl rfl htests
  refine ⟨cs, js, hjs, hpair, ?_⟩
  intro i f hf
  refine ⟨?_, ?_, ?_, ?_⟩
  · rw [reportFeature_eq_find hkey, hself i f hf]
  · intro hni
    by_contra hrec
    have hmem := hinv.1 i f hf (Or.inr hrec)
    rw [hjs] at hmem
    rcases List.mem_append.1 hmem with h | h
    · obtain ⟨a, ha, hae⟩ := List.mem_map.1 h
      simp only [Event.check.injEq] at hae
      subst hae
      exact hni ha
    · obtain ⟨a, _, hae⟩ := List.mem_map.1 h
      cases hae
  · intro hone
    have h := hdesc i f hf
    rw [hjs, List.flatMap_append, flatMap_checks, flatMap_tests, hone] at h
    cases hrecs : f.records with
    | nil => rw [hrecs] at h; simp at h
    | cons c rest =>
      rw [hrecs] at h
      simp only [List.map_cons, List.replicate_one, List.singleton_append,
        List.cons.injEq] at h
      exact ⟨c, rest, rfl, h.1, h.2⟩
  · have h := hdesc i f hf
    rw [hjs, List.flatMap_append, flatMap_checks, flatMap_tests] at h
    exact h

/-- Witness of C20, amended: the run on `failingTestRegistry`, which executes
the checker of `G` once and then the test `test G`, which lists `G` once: the
records of `G` are the checker record followed by one record of the test. -/
theorem records_follow_trace_witness :
    ∃ c rest, failingTestFeature.records = c :: rest ∧
      c.Description = "check G(describe G)" ∧
      rest.map (fun rec => rec.Description) = ["test G"] := by
  obtain ⟨cs, js, h1, _, h3⟩ := records_follow_trace ⟨"[TIME]", false⟩ failingTestRegistry 2
    failingTestFinal (by decide) (by rfl)
  obtain ⟨hcs, hjs⟩ := trace_split_unique [0] [0] cs js h1
  subst hcs
  subst hjs
  exact (h3 0 failingTestFeature rfl).2.2.1 (by decide)

/-! ## The trimming of a feature report -/

theorem trimLoop_eq (showRecord : String) (showLog : Bool) (rs records : List Recorder) :
    trimLoop showRecord showLog rs records = records ++
      (rs.filter (fun r => decide (showRecord = "all" ∨
          (showRecord = "failed" ∧ r.Success = false)))).map
        (fun r => if showLog = false then { r with Logs := [] } else r) := by
  induction rs generalizing records with
  | nil => simp [trimLoop]
  | cons r rest ih =>
    rw [trimLoop]
    by_cases h : showRecord = "all" ∨ (showRecord = "failed" ∧ r.Success = false)
    · rw [if_pos h, ih, List.filter_cons]
      simp [h]
    · rw [if_neg h, ih, List.filter_cons]
      simp [h]

/-- C24: `trimFeatureReport` keeps, in their order, exactly the records that the
policy selects (all of them under `all`, those with `Success = false` under
`failed`, none under any other value), clears the logs of every kept record
unless `show-log` is set, and leaves key, description and status as they are. -/
theorem trimFeatureReport_spec (showRecord : String) (showLog : Bool) (report : FeatureReport) :
    (trimFeatureReport showRecord showLog report).Records
      = (report.Records.filter (fun r => decide (showRecord = "all" ∨
            (showRecord = "failed" ∧ r.Success = false)))).map
          (fun r => if showLog = false then { r with Logs := [] } else r) ∧
    (showRecord = "all" →
      (trimFeatureReport showRecord showLog report).Records
        = report.Records.map (fun r => if showLog = false then { r with Logs := [] } else r)) ∧
    (showRecord = "failed" →
      (trimFeatureReport showRecord showLog report).Records
        = (report.Records.filter (fun r => decide (r.Success = false))).map
            (fun r => if showLog = false then { r with Logs := [] } else r)) ∧
    (showRecord ≠ "all" → showRecord ≠ "failed" →
      (trimFeatureReport showRecord showLog report).Records = []) ∧
    (showLog = true →
      (trimFeatureReport showRecord showLog report).Records
        = report.Records.filter (fun r => decide (showRecord = "all" ∨
            (showRecord = "failed" ∧ r.Success = false)))) ∧
    (trimFeatureReport showRecord showLog report).Key = report.Key ∧
    (trimFeatureReport showRecord showLog report).Description = report.Description ∧
    (trimFeatureReport showRecord showLog report).Status = report.Status := by
  have h : (trimFeatureReport showRecord showLog report).Records
      = (report.Records.filter (fun r => decide (showRecord = "all" ∨
            (showRecord = "failed" ∧ r.Success = false)))).map
          (fun r => if showLog = false then { r with Logs := [] } else r) := by
    simp only [trimFeatureReport, trimLoop_eq, List.nil_append]
  refine ⟨h, ?_, ?_, ?_, ?_, rfl, rfl, rfl⟩
  · intro ha
    rw [h]
    simp [ha]
  · intro hf
    rw [h]
    subst hf
    simp
  · intro h1 h2
    rw [h]
    simp [h1, h2]
  · intro hl
    rw [h]
    subst hl
    simp

/-! ## A nil test function -/

/-- C27: a test with a nil test function whose gate is open is treated as a
failed test: `callTest` returns the fresh recorder as it is (`Success = false`,
no line logged), `runTest` runs to its end, and every listed feature ends at
`Defect` with a failed record of the test, whose only line is the closing line,
appended once for each time the test lists it. -/
theorem nil_test_marks_defect (env : LogEnv) (r : testRunner) (j : Nat) (t : testConf)
    (hgate : r.checkRequiredFeatures t.features = .ok true) (hnil : t.testF = none) :
    callTest env r.trace (newRecorder t.description) t.testF
      = { Description := t.description, Logs := [], Success := false } ∧
    ∃ r1, r.runTest env j t = .ok r1 ∧
      ∀ k ∈ t.features, ∃ i f g, r.lookupFeature k = some (i, f) ∧
        (f.status = FeaturePass ∨ f.status = FeatureDefect) ∧
        r1.lookupFeature k = some (i, g) ∧ g.conf = f.conf ∧ g.status = FeatureDefect ∧
        0 < listings r t.features i ∧
        g.records = f.records ++
          List.replicate (listings r t.features i)
            { Description := t.description,
              Logs := [logLine env env.LogFileLine "runner.go:126"
                (testFinish false FeatureDefect)],
              Success := false } := by
  have hg : gateOpen r t.features := (checkRequiredFeatures_eq_true_iff r _).1 hgate
  have hcall : callTest env r.trace (newRecorder t.description) t.testF
      = { Description := t.description, Logs := [], Success := false } := by
    rw [hnil]; rfl
  obtain ⟨r1, hr1, hm1, hstep⟩ := runTestLoop_failed env
    { Description := t.description, Logs := [], Success := false } t.features
    { r with trace := r.trace ++ [Event.test j] } rfl (gateOpen_trace r _ _ hg)
  have hrun : r.runTest env j t = .ok r1 := by
    unfold testRunner.runTest
    rw [hcall]
    exact hr1
  refine ⟨hcall, r1, hrun, ?_⟩
  intro k hk
  obtain ⟨i, f, hl, hres⟩ := hg k hk
  obtain ⟨hmi, hfi⟩ := lookupFeature_some hl
  have hpos : 0 < listings r t.features i := by
    unfold listings
    apply List.countP_pos_iff.2
    exact ⟨k, hk, by simp [hmi]⟩
  have hi := hstep i f hfi
  simp only [] at hi
  have hpos1 : ¬ List.countP (fun k => r.featuresMap.lookup k == some i) t.features = 0 := by
    unfold listings at hpos
    omega
  rw [if_neg hpos1] at hi
  exact ⟨i, f, _, hl, hres, lookupFeature_of (by rw [hm1]; exact hmi) hi, rfl, rfl, hpos, rfl⟩

/-- Witness of C27: a nil test function for a test listing `G`, reached when `G`
is `Pass`. -/
theorem nil_test_marks_defect_witness :
    callTest ⟨"[TIME]", false⟩ [] (newRecorder "test G") none
      = { Description := "test G", Logs := [], Success := false } :=
  (nil_test_marks_defect ⟨"[TIME]", false⟩
    ⟨[⟨⟨"G", "describe G", [], none⟩, FeaturePass, []⟩], [("G", 0)], [], [], []⟩ 0
    ⟨"test G", ["G"], none⟩ (by rfl) rfl).1

/-! ## The status of an error -/

theorem indexChars_prefix (sub s : List Char) (h : sub.isPrefixOf s = true) :
    indexChars sub s = 0 := by
  cases s with
  | nil =>
    cases sub with
    | nil => rfl
    | cons a as => simp [List.isPrefixOf] at h
  | cons c rest => simp [indexChars, h]

/-- C28: an error whose lower-cased message begins with `not implemented` is
mapped to `Fail`: the position of the phrase is zero and the comparison asks
for a position greater than zero. -/
theorem errToFeatureStatus_at_start (toLower : String → String) (msg : String)
    (h : "not implemented".data.isPrefixOf (toLower msg).data = true) :
    errToFeatureStatus toLower (some msg) = FeatureFail := by
  simp [errToFeatureStatus, stringsIndex, indexChars_prefix _ _ h]

/-- Witness of C28: the messages `not implemented` and `Not Implemented: scan`. -/
theorem errToFeatureStatus_at_start_witness :
    errToFeatureStatus asciiToLower (some "not implemented") = FeatureFail ∧
    errToFeatureStatus asciiToLower (some "Not Implemented: scan") = FeatureFail :=
  ⟨errToFeatureStatus_at_start asciiToLower "not implemented" (by decide),
   errToFeatureStatus_at_start asciiToLower "Not Implemented: scan" (by decide)⟩

/-! ## The fixpoint of the first loop -/

/-- A gate check that answers false has met a registered feature that is
neither `Pass` nor `Defect`. -/
theorem checkRequiredFeatures_false (r : testRunner) (keys : List String)
    (h : r.checkRequiredFeatures keys = .ok false) :
    ∃ k ∈ keys, ∃ j g, r.lookupFeature k = some (j, g) ∧
      g.status ≠ FeaturePass ∧ g.status ≠ FeatureDefect := by
  induction keys with
  | nil => simp [testRunner.checkRequiredFeatures] at h
  | cons k ks ih =>
    rw [testRunner.checkRequiredFeatures] at h
    cases hl : r.lookupFeature k with
    | none => rw [hl] at h; cases h
    | some p =>
      obtain ⟨j, g⟩ := p
      rw [hl] at h
      simp only [] at h
      by_cases hg : g.status ≠ FeaturePass ∧ g.status ≠ FeatureDefect
      · exact ⟨k, List.mem_cons_self _ _, j, g, hl, hg⟩
      · rw [if_neg hg] at h
        obtain ⟨k1, hk1, rest⟩ := ih h
        exact ⟨k1, List.mem_cons_of_mem _ hk1, rest⟩

theorem nextFeatureFrom_none (r : testRunner) (l : List featureInfo) (i0 : Nat)
    (h : r.nextFeatureFrom i0 l = .ok none) :
    ∀ f ∈ l, f.status = FeatureSkip →
      r.checkRequiredFeatures f.conf.requiredFeatures = .ok false := by
  induction l generalizing i0 with
  | nil => intro f hf; cases hf
  | cons a rest ih =>
    rw [testRunner.nextFeatureFrom] at h
    intro f hf hs
    by_cases ha : a.status = FeatureSkip
    · rw [if_pos ha] at h
      cases hc : r.checkRequiredFeatures a.conf.requiredFeatures with
      | error e => rw [hc] at h; cases h
      | ok b =>
        rw [hc] at h
        cases b with
        | true => simp at h
        | false =>
          rcases List.mem_cons.1 hf with rfl | hf1
          · exact hc
          · exact ih (i0 + 1) h f hf1 hs
    · rw [if_neg ha] at h
      rcases List.mem_cons.1 hf with rfl | hf1
      · exact absurd hs ha
      · exact ih (i0 + 1) h f hf1 hs

theorem conf_of_sameConf {r r1 : testRunner} (hs : sameConf r r1) {i : Nat}
    {f f1 : featureInfo} (hf : r.features[i]? = some f) (hf1 : r1.features[i]? = some f1) :
    f1.conf = f.conf := by
  have h := congrArg (fun l => l[i]?) hs.2.2.2
  simp only [List.getElem?_map, hf, hf1, Option.map_some', Option.some.injEq] at h
  exact h

theorem getElem?_of_sameConf {r r1 : testRunner} (hs : sameConf r r1) {i : Nat}
    {f1 : featureInfo} (hf1 : r1.features[i]? = some f1) : ∃ f, r.features[i]? = some f := by
  have hlen : r1.features.length = r.features.length := by
    have := congrArg List.length hs.2.2.2
    simpa using this
  have h1 := (List.getElem?_eq_some.1 hf1).1
  cases hf : r.features[i]? with
  | some f => exact ⟨f, rfl⟩
  | none =>
    have h2 := List.getElem?_eq_none_iff.1 hf
    omega

/-- C21: when a run ends, every feature that is still `Skip` has a required
feature that is registered and neither `Pass` nor `Defect`; so every feature
report with status `SKIP` in the returned report is that of a feature blocked
in this way, and no executable feature is left. -/
theorem skip_means_blocked (env : LogEnv) (reg : Registry) (fuel : Nat) (rf : testRunner)
    (hrun : (newTestRunner reg).run env fuel = some (.ok rf)) :
    (∀ (i : Nat) (f : featureInfo), rf.features[i]? = some f → f.status = FeatureSkip →
      ∃ k ∈ f.conf.requiredFeatures, ∃ j g, rf.lookupFeature k = some (j, g) ∧
        g.status ≠ FeaturePass ∧ g.status ≠ FeatureDefect) ∧
    (∀ rep, rf.report = .ok rep →
      ∀ fr, (fr ∈ rep.Features ∨ ∃ sr ∈ rep.Stories, fr ∈ sr.Features) →
        fr.Status = FeatureSkip →
        ∃ (i : Nat) (f : featureInfo), rf.features[i]? = some f ∧ fr = featureReportOf f ∧
          ∃ k ∈ f.conf.requiredFeatures, ∃ j g, rf.lookupFeature k = some (j, g) ∧
            g.status ≠ FeaturePass ∧ g.status ≠ FeatureDefect) := by
  obtain ⟨htests, hfix⟩ := run_split env fuel _ rf hrun
  have hinv1 := runInv_featureIter env fuel (runInv_newTestRunner reg)
  obtain ⟨_, hs⟩ := runTestsFrom_inv env 0 _ _ rf hinv1 htests
  have main : ∀ (i : Nat) (f : featureInfo), rf.features[i]? = some f →
      f.status = FeatureSkip →
      ∃ k ∈ f.conf.requiredFeatures, ∃ j g, rf.lookupFeature k = some (j, g) ∧
        g.status ≠ FeaturePass ∧ g.status ≠ FeatureDefect := by
    intro i f hf hskip
    obtain ⟨f1, hf1⟩ := getElem?_of_sameConf hs hf
    obtain ⟨f2, hf2, hst⟩ := runTestsFrom_status env 0 _ _ rf htests i f1 hf1
    rw [hf] at hf2
    have hfe : f = f2 := Option.some.inj hf2
    subst hfe
    have hskip1 : f1.status = FeatureSkip := by
      rcases hst with h | ⟨_, h⟩
      · rw [← h]; exact hskip
      · rw [h] at hskip; exact absurd hskip defect_ne_skip
    have hclosed := nextFeatureFrom_none _ _ 0 hfix f1 (List.mem_iff_getElem?.2 ⟨i, hf1⟩) hskip1
    obtain ⟨k, hk, j, g, hl, hg1, hg2⟩ := checkRequiredFeatures_false _ _ hclosed
    rw [← conf_of_sameConf hs hf1 hf] at hk
    obtain ⟨hlm, hlf⟩ := lookupFeature_some hl
    obtain ⟨g2, hg2f, hgst⟩ := runTestsFrom_status env 0 _ _ rf htests j g hlf
    refine ⟨k, hk, j, g2, lookupFeature_of (by rw [hs.1]; exact hlm) hg2f, ?_⟩
    rcases hgst with h | ⟨h, _⟩
    · rw [h]; exact ⟨hg1, hg2⟩
    · exact absurd h hg1
  refine ⟨main, ?_⟩
  intro rep hrep fr hfr hst
  obtain ⟨i, f, hf, he⟩ := report_mem hrep hfr
  refine ⟨i, f, hf, he, main i f hf ?_⟩
  rw [he] at hst
  exact hst

/-- Witness of C21: in `missingKeyRegistry` the feature `X` ends at `Skip`, its
required feature `B` being `NotImplemented`. -/
theorem skip_means_blocked_witness :
    ∃ k ∈ ["B", "missing"], ∃ j g,
      testRunner.lookupFeature
        ((newTestRunner missingKeyRegistry).featureIter ⟨"[TIME]", false⟩ 1) k = some (j, g) ∧
      g.status ≠ FeaturePass ∧ g.status ≠ FeatureDefect :=
  (skip_means_blocked ⟨"[TIME]", false⟩ missingKeyRegistry 2
    ((newTestRunner missingKeyRegistry).featureIter ⟨"[TIME]", false⟩ 1) (by rfl)).1 1
    ⟨⟨"X", "describe X", ["B", "missing"], some (fun _ => ⟨[], .ok FeaturePass⟩)⟩,
      FeatureSkip, []⟩ (by rfl) rfl

/-! ## Registered keys -/

theorem lookup_cons_isSome {k a : String} {b : Nat} {es : List (String × Nat)}
    (h : (List.lookup k es).isSome = true) : (List.lookup k ((a, b) :: es)).isSome = true := by
  by_cases hk : k = a
  · subst hk; rw [lookup_cons_self]; rfl
  · rw [lookup_cons_ne hk]; exact h

theorem newTestRunnerLoop_registered (confs : List featureConf) (r : testRunner) (k : String)
    (h : k ∈ confs.map (fun c => c.key) ∨ (r.featuresMap.lookup k).isSome = true) :
    ((newTestRunnerLoop confs r).featuresMap.lookup k).isSome = true := by
  induction confs generalizing r with
  | nil =>
    rcases h with h | h
    · cases h
    · exact h
  | cons c cs ih =>
    rw [newTestRunnerLoop]
    apply ih
    rcases h with h | h
    · rw [List.map_cons] at h
      rcases List.mem_cons.1 h with h1 | h1
      · right
        subst h1
        simp only []
        rw [lookup_cons_self]; rfl
      · exact Or.inl h1
    · right
      exact lookup_cons_isSome h

/-- In a state with the registered content of the fresh runner, the lookup of a
registered key finds a feature. -/
theorem lookupFeature_registered {reg : Registry} {r : testRunner}
    (hs : sameConf (newTestRunner reg) r) (k : String)
    (hk : k ∈ reg.featureConfs.map (fun c => c.key)) :
    (r.lookupFeature k).isSome = true := by
  have h1 : ((newTestRunner reg).featuresMap.lookup k).isSome = true :=
    newTestRunnerLoop_registered reg.featureConfs _ k (Or.inl hk)
  rw [← hs.1] at h1
  cases hl : r.featuresMap.lookup k with
  | none => rw [hl] at h1; cases h1
  | some i =>
    obtain ⟨f, hf, _⟩ := mapSound_of_sameConf hs k i hl
    rw [lookupFeature_of hl hf]; rfl

theorem nextFeatureFrom_ok (r : testRunner) (l : List featureInfo) (i0 : Nat)
    (hreg : ∀ f ∈ l, ∀ k ∈ f.conf.requiredFeatures, (r.lookupFeature k).isSome = true) :
    ∃ o, r.nextFeatureFrom i0 l = .ok o := by
  induction l generalizing i0 with
  | nil => exact ⟨none, rfl⟩
  | cons a rest ih =>
    obtain ⟨o, ho⟩ := ih (i0 + 1) (fun f hf => hreg f (List.mem_cons_of_mem _ hf))
    rw [testRunner.nextFeatureFrom]
    by_cases ha : a.status = FeatureSkip
    · rw [if_pos ha]
      obtain ⟨b, hb⟩ := checkRequiredFeatures_registered r a.conf.requiredFeatures
        (hreg a (List.mem_cons_self _ _))
      rw [hb]
      cases b with
      | true => exact ⟨some i0, rfl⟩
      | false => exact ⟨o, ho⟩
    · rw [if_neg ha]
      exact ⟨o, ho⟩

/-- The required keys of the features of a state are those of the registry. -/
theorem required_registered {reg : Registry} {r : testRunner}
    (hs : sameConf (newTestRunner reg) r)
    (hreg : ∀ c ∈ reg.featureConfs, ∀ k ∈ c.requiredFeatures,
      k ∈ reg.featureConfs.map (fun c => c.key)) :
    ∀ f ∈ r.features, ∀ k ∈ f.conf.requiredFeatures, (r.lookupFeature k).isSome = true := by
  intro f hf k hk
  apply lookupFeature_registered hs
  have hc : f.conf ∈ reg.featureConfs := by
    rw [← newTestRunner_conf reg, ← hs.2.2.2]
    exact List.mem_map.2 ⟨f, hf, rfl⟩
  exact hreg f.conf hc k hk

theorem runFeatures_no_error (env : LogEnv) (reg : Registry) (fuel : Nat) (r : testRunner)
    (hs : sameConf (newTestRunner reg) r)
    (hreg : ∀ c ∈ reg.featureConfs, ∀ k ∈ c.requiredFeatures,
      k ∈ reg.featureConfs.map (fun c => c.key)) (e : String) :
    testRunner.runFeatures env fuel r ≠ some (.error e) := by
  induction fuel generalizing r with
  | zero => simp [testRunner.runFeatures]
  | succ n ih =>
    rw [testRunner.runFeatures]
    obtain ⟨o, ho⟩ := nextFeatureFrom_ok r r.features 0 (required_registered hs hreg)
    have hn : r.nextFeature = .ok o := ho
    rw [hn]
    cases o with
    | none => simp
    | some i => exact ih _ (sameConf_trans hs (sameConf_runFeatureChecker env r i))

theorem runTestsFrom_ok (env : LogEnv) (reg : Registry) (j : Nat) (ts : List testConf)
    (r : testRunner) (hs : sameConf (newTestRunner reg) r)
    (hreg : ∀ t ∈ ts, ∀ k ∈ t.features, k ∈ reg.featureConfs.map (fun c => c.key)) :
    ∃ rf, testRunner.runTestsFrom env j ts r = .ok rf := by
  induction ts generalizing r j with
  | nil => exact ⟨r, rfl⟩
  | cons t rest ih =>
    have hrest : ∀ t1 ∈ rest, ∀ k ∈ t1.features, k ∈ reg.featureConfs.map (fun c => c.key) :=
      fun t1 h1 => hreg t1 (List.mem_cons_of_mem _ h1)
    have hkeys : ∀ k ∈ t.features, (r.lookupFeature k).isSome = true :=
      fun k hk => lookupFeature_registered hs k (hreg t (List.mem_cons_self _ _) k hk)
    rw [testRunner.runTestsFrom]
    obtain ⟨b, hb⟩ := checkRequiredFeatures_registered r t.features hkeys
    rw [hb]
    cases b with
    | false => exact ih (j + 1) r hs hrest
    | true =>
      simp only []
      obtain ⟨r1, hr1⟩ := runTestLoop_ok env
        (callTest env r.trace (newRecorder t.description) t.testF) t.features
        { r with trace := r.trace ++ [Event.test j] } hkeys
      have hrun : r.runTest env j t = .ok r1 := hr1
      rw [hrun]
      simp only []
      exact ih (j + 1) r1 (sameConf_trans hs (sameConf_runTest env r r1 j t hrun)) hrest

theorem reportFeature_registered {r : testRunner} {k : String}
    (h : (r.lookupFeature k).isSome = true) : ∃ fr, r.reportFeature k = .ok fr := by
  unfold testRunner.reportFeature
  cases hl : r.lookupFeature k with
  | none => rw [hl] at h; cases h
  | some p => exact ⟨_, rfl⟩

theorem reportFeatures_registered {r : testRunner} (keys : List String)
    (h : ∀ k ∈ keys, (r.lookupFeature k).isSome = true) :
    ∃ frs, r.reportFeatures keys = .ok frs := by
  induction keys with
  | nil => exact ⟨[], rfl⟩
  | cons k ks ih =>
    obtain ⟨fr, hfr⟩ := reportFeature_registered (h k (List.mem_cons_self _ _))
    obtain ⟨frs, hfrs⟩ := ih (fun k1 h1 => h k1 (List.mem_cons_of_mem _ h1))
    exact ⟨fr :: frs, by rw [testRunner.reportFeatures, hfr, hfrs]⟩

theorem reportStories_registered {r : testRunner} (ss : List storyConf)
    (h : ∀ s ∈ ss, ∀ k ∈ s.features, (r.lookupFeature k).isSome = true) :
    ∃ p, r.reportStories ss = .ok p := by
  induction ss with
  | nil => exact ⟨([], []), rfl⟩
  | cons s rest ih =>
    obtain ⟨frs, hfrs⟩ := reportFeatures_registered s.features (h s (List.mem_cons_self _ _))
    obtain ⟨p, hp⟩ := ih (fun s1 h1 => h s1 (List.mem_cons_of_mem _ h1))
    obtain ⟨srs, reported⟩ := p
    exact ⟨_, by rw [testRunner.reportStories, testRunner.reportStory, hfrs, hp]⟩

theorem reportRest_registered {r : testRunner} (reported : List String)
    (fs : List featureInfo) (h : ∀ f ∈ fs, (r.lookupFeature f.conf.key).isSome = true) :
    ∃ frs, r.reportRest reported fs = .ok frs := by
  induction fs with
  | nil => exact ⟨[], rfl⟩
  | cons f rest ih =>
    obtain ⟨frs, hfrs⟩ := ih (fun g hg => h g (List.mem_cons_of_mem _ hg))
    rw [testRunner.reportRest]
    by_cases hm : f.conf.key ∈ reported
    · rw [if_pos hm]; exact ⟨frs, hfrs⟩
    · obtain ⟨fr, hfr⟩ := reportFeature_registered (h f (List.mem_cons_self _ _))
      rw [if_neg hm, hfr, hfrs]
      exact ⟨_, rfl⟩

/-- C26: when every key that a feature requires, a story lists or a test lists
is a registered feature key, no lookup fails: `nextFeature` returns in every
state of the first loop, `run` never ends by a panic, `report` returns a report
for the final state of a run, and `RunAll` never ends by a panic. -/
theorem registered_keys_no_panic (env : LogEnv) (reg : Registry)
    (hfeat : ∀ c ∈ reg.featureConfs, ∀ k ∈ c.requiredFeatures,
      k ∈ reg.featureConfs.map (fun c => c.key))
    (hstory : ∀ s ∈ reg.storyConfs, ∀ k ∈ s.features,
      k ∈ reg.featureConfs.map (fun c => c.key))
    (htest : ∀ t ∈ reg.testConfs, ∀ k ∈ t.features,
      k ∈ reg.featureConfs.map (fun c => c.key)) :
    (∀ n : Nat, ∃ o, ((newTestRunner reg).featureIter env n).nextFeature = .ok o) ∧
    (∀ (fuel : Nat) (e : String), (newTestRunner reg).run env fuel ≠ some (.error e)) ∧
    (∀ (fuel : Nat) (rf : testRunner), (newTestRunner reg).run env fuel = some (.ok rf) →
      ∃ rep, rf.report = .ok rep) ∧
    (∀ (fuel : Nat) (e : String), RunAll env fuel reg ≠ some (.error e)) := by
  have htests0 : (newTestRunner reg).tests = reg.testConfs :=
    (newTestRunnerLoop_eq reg.featureConfs _).2.2.1
  have hstories0 : (newTestRunner reg).stories = reg.storyConfs :=
    (newTestRunnerLoop_eq reg.featureConfs _).2.2.2
  have hrunerr : ∀ (fuel : Nat) (e : String),
      (newTestRunner reg).run env fuel ≠ some (.error e) := by
    intro fuel e h
    unfold testRunner.run at h
    cases hf : testRunner.runFeatures env fuel (newTestRunner reg) with
    | none => rw [hf] at h; cases h
    | some x =>
      cases x with
      | error e1 =>
        exact runFeatures_no_error env reg fuel _ (sameConf_refl _) hfeat e1 hf
      | ok r1 =>
        rw [hf] at h
        simp only [Option.some.injEq] at h
        obtain ⟨he, _⟩ := runFeatures_eq_some env fuel _ r1 hf
        have hs1 : sameConf (newTestRunner reg) r1 := by
          rw [he]; exact sameConf_featureIter env fuel _
        obtain ⟨rf, hrf⟩ := runTestsFrom_ok env reg 0 r1.tests r1 hs1 (by
          rw [hs1.2.1, htests0]; exact htest)
        rw [hrf] at h
        cases h
  have hrep : ∀ (fuel : Nat) (rf : testRunner),
      (newTestRunner reg).run env fuel = some (.ok rf) → ∃ rep, rf.report = .ok rep := by
    intro fuel rf hrun
    obtain ⟨_, hs⟩ := run_inv env fuel _ rf (runInv_newTestRunner reg) hrun
    obtain ⟨p, hp⟩ := @reportStories_registered rf rf.stories (by
      intro s hsm k hk
      rw [hs.2.2.1, hstories0] at hsm
      exact lookupFeature_registered hs k (hstory s hsm k hk))
    obtain ⟨srs, reported⟩ := p
    obtain ⟨frs, hfrs⟩ := @reportRest_registered rf reported rf.features (by
      intro f hf
      apply lookupFeature_registered hs
      have hc : f.conf ∈ reg.featureConfs := by
        rw [← newTestRunner_conf reg, ← hs.2.2.2]
        exact List.mem_map.2 ⟨f, hf, rfl⟩
      exact List.mem_map.2 ⟨f.conf, hc, rfl⟩)
    exact ⟨_, by rw [testRunner.report, hp]; simp only []; rw [hfrs]⟩
  refine ⟨?_, hrunerr, hrep, ?_⟩
  · intro n
    exact nextFeatureFrom_ok _ _ 0
      (required_registered (sameConf_featureIter env n (newTestRunner reg)) hfeat)
  · intro fuel e h
    unfold RunAll at h
    cases hr : (newTestRunner reg).run env fuel with
    | none => rw [hr] at h; cases h
    | some x =>
      cases x with
      | error e1 => exact hrunerr fuel e1 hr
      | ok rf =>
        rw [hr] at h
        simp only [Option.some.injEq] at h
        obtain ⟨rep, hrepo⟩ := hrep fuel rf hr
        rw [hrepo] at h
        cases h

/-- Witness of C26: the registry of `TestValidator`, in which every listed key
is registered. -/
theorem registered_keys_no_panic_witness :
    RunAll ⟨"[TIME]", false⟩ 7 (testValidatorRegistry ⟨"[TIME]", false⟩)
      ≠ some (.error "required feature not found: A") :=
  (registered_keys_no_panic ⟨"[TIME]", false⟩ (testValidatorRegistry ⟨"[TIME]", false⟩)
    (by decide) (by decide) (by decide)).2.2.2 7 "required feature not found: A"

/-! ## Termination of the first loop -/

theorem callChecker_ne_skip (env : LogEnv) (hist : List Event) (recorder : Recorder)
    (c : featureConf) (h : noSkipChecker c) :
    (callChecker env hist recorder c.checkF).2 ≠ FeatureSkip := by
  obtain ⟨chk, hc, hns⟩ := h
  rw [hc]
  cases hr : (chk hist).result with
  | error e =>
    simp only [callChecker, hr]
    decide
  | ok st =>
    simp only [callChecker, hr]
    intro hs
    apply hns hist
    rw [hr, hs]

theorem countP_skip_set (l : List featureInfo) (i : Nat) (f f1 : featureInfo)
    (hf : l[i]? = some f) (hs : f.status = FeatureSkip) (hs1 : f1.status ≠ FeatureSkip) :
    (l.set i f1).countP (fun g => decide (g.status = FeatureSkip)) + 1
      = l.countP (fun g => decide (g.status = FeatureSkip)) := by
  induction l generalizing i with
  | nil => simp at hf
  | cons a rest ih =>
    cases i with
    | zero =>
      simp only [List.getElem?_cons_zero, Option.some.injEq] at hf
      subst hf
      simp [List.countP_cons, hs, hs1]
    | succ n =>
      simp only [List.getElem?_cons_succ] at hf
      have := ih n hf
      simp only [List.set_cons_succ, List.countP_cons]
      omega

theorem noSkip_of_sameConf {reg : Registry} {r : testRunner}
    (hs : sameConf (newTestRunner reg) r) (hns : ∀ c ∈ reg.featureConfs, noSkipChecker c)
    (f : featureInfo) (hf : f ∈ r.features) : noSkipChecker f.conf := by
  apply hns
  rw [← newTestRunner_conf reg, ← hs.2.2.2]
  exact List.mem_map.2 ⟨f, hf, rfl⟩

/-- An executed checker that does not answer `Skip` takes one feature out of the
`Skip` features. -/
theorem skipCount_step (env : LogEnv) {r : testRunner} {i : Nat}
    (hn : r.nextFeature = .ok (some i)) (hns : ∀ f ∈ r.features, noSkipChecker f.conf) :
    skipCount (r.runFeatureChecker env i) + 1 = skipCount r := by
  obtain ⟨f, hf, hs, _⟩ := nextFeature_some hn
  obtain ⟨f1, hc, hst, _, hfe, _⟩ := runFeatureChecker_eq env hf
  unfold skipCount
  rw [hfe]
  apply countP_skip_set _ i f f1 hf hs
  rw [hst]
  exact callChecker_ne_skip env _ _ f.conf (hns f (List.mem_iff_getElem?.2 ⟨i, hf⟩))

theorem runFeatures_terminates (env : LogEnv) (reg : Registry)
    (hns : ∀ c ∈ reg.featureConfs, noSkipChecker c) (fuel : Nat) (r : testRunner)
    (hs : sameConf (newTestRunner reg) r) (hlt : skipCount r < fuel) :
    ∃ x, testRunner.runFeatures env fuel r = some x := by
  induction fuel generalizing r with
  | zero => omega
  | succ n ih =>
    rw [testRunner.runFeatures]
    cases hn : r.nextFeature with
    | error e => exact ⟨_, rfl⟩
    | ok o =>
      cases o with
      | none => exact ⟨_, rfl⟩
      | some i =>
        simp only []
        apply ih _ (sameConf_trans hs (sameConf_runFeatureChecker env r i))
        have := skipCount_step env hn (noSkip_of_sameConf hs hns)
        omega

theorem doneInv_step (env : LogEnv) {n : Nat} {r : testRunner} {i : Nat}
    (hinv : doneInv n r) (hn : r.nextFeature = .ok (some i))
    (hns : ∀ f ∈ r.features, noSkipChecker f.conf) :
    doneInv n (r.runFeatureChecker env i) := by
  obtain ⟨hnd, hdone, hcount⟩ := hinv
  obtain ⟨f, hf, hs, _⟩ := nextFeature_some hn
  obtain ⟨f1, hc, hst, _, hfe, _, _, _, htr⟩ := runFeatureChecker_eq env hf
  have hstep := skipCount_step env hn hns
  have hnew : f1.status ≠ FeatureSkip := by
    rw [hst]
    exact callChecker_ne_skip env _ _ f.conf (hns f (List.mem_iff_getElem?.2 ⟨i, hf⟩))
  have hnotin : Event.check i ∉ r.trace := fun hm => hdone i f hm hf hs
  refine ⟨?_, ?_, ?_⟩
  · rw [htr, List.nodup_append]
    refine ⟨hnd, by simp, ?_⟩
    intro e he he1
    simp only [List.mem_singleton] at he1
    subst he1
    exact hnotin he
  · intro x g hx hg
    rw [hfe, getElem?_set_of_some hf] at hg
    by_cases hix : i = x
    · subst hix
      simp only [if_true, Option.some.injEq] at hg
      subst hg
      exact hnew
    · simp only [if_neg hix] at hg
      rw [htr] at hx
      rcases List.mem_append.1 hx with h | h
      · exact hdone x g h hg
      · simp only [List.mem_singleton, Event.check.injEq] at h
        exact absurd h.symm hix
  · rw [htr, List.length_append, List.length_singleton]
    omega

theorem doneInv_newTestRunner (reg : Registry) :
    doneInv reg.featureConfs.length (newTestRunner reg) := by
  refine ⟨by rw [newTestRunner_trace]; exact List.nodup_nil, ?_, ?_⟩
  · intro x f hx
    rw [newTestRunner_trace] at hx
    cases hx
  · rw [newTestRunner_trace, skipCount, newTestRunner_features]
    simp [List.countP_map, Function.comp_def]

theorem doneInv_featureIter (env : LogEnv) (reg : Registry)
    (hns : ∀ c ∈ reg.featureConfs, noSkipChecker c) (k n : Nat) (r : testRunner)
    (hs : sameConf (newTestRunner reg) r) (hinv : doneInv k r) :
    doneInv k (testRunner.featureIter env n r) := by
  induction n generalizing r with
  | zero => exact hinv
  | succ n ih =>
    rw [testRunner.featureIter]
    cases hn : r.nextFeature with
    | error e => exact hinv
    | ok o =>
      cases o with
      | none => exact hinv
      | some i =>
        exact ih _ (sameConf_trans hs (sameConf_runFeatureChecker env r i))
          (doneInv_step env hinv hn (noSkip_of_sameConf hs hns))

/-- Counterexample to C25: in `lonelyMissingRegistry` the checker is not nil and
never returns `Skip`, yet the first loop of `run` never reaches the fixpoint:
the first scan panics on the unregistered required key. -/
theorem missing_key_no_fixpoint :
    (∀ c ∈ lonelyMissingRegistry.featureConfs, noSkipChecker c) ∧
    ∀ fuel : Nat, testRunner.runFeatures ⟨"[TIME]", false⟩ (fuel + 1)
        (newTestRunner lonelyMissingRegistry)
      = some (.error "required feature not found: missing") := by
  constructor
  · intro c hc
    simp only [lonelyMissingRegistry, List.mem_singleton] at hc
    subst hc
    exact ⟨_, rfl, fun _ => by simp; decide⟩
  · intro fuel
    rfl

/-- C25, amended: if no registered feature has a nil checker and no checker
returns `Skip`, every checker execution of the first loop of `run` lowers the
number of `Skip` features by one; in every state of the loop no feature has
been executed twice and the executed features are at most the `n` registered
ones; and the loop ends within `n + 1` scans, at the fixpoint or by the panic
on an unregistered required key.  It ends at the fixpoint when every required
key is registered. -/
theorem feature_loop_terminates (env : LogEnv) (reg : Registry)
    (hns : ∀ c ∈ reg.featureConfs, noSkipChecker c) :
    (∀ (n i : Nat), ((newTestRunner reg).featureIter env n).nextFeature = .ok (some i) →
      skipCount ((newTestRunner reg).featureIter env (n + 1)) + 1
        = skipCount ((newTestRunner reg).featureIter env n)) ∧
    (∀ n : Nat, ((newTestRunner reg).featureIter env n).trace.Nodup ∧
      ((newTestRunner reg).featureIter env n).trace.length ≤ reg.featureConfs.length) ∧
    (∃ x, testRunner.runFeatures env (reg.featureConfs.length + 1) (newTestRunner reg)
        = some x ∧
      ((∃ e, x = .error e) ∨
        ∃ r1, x = .ok r1 ∧ r1.nextFeature = .ok none ∧ r1.trace.Nodup ∧
          r1.trace.length ≤ reg.featureConfs.length)) ∧
    ((∀ c ∈ reg.featureConfs, ∀ k ∈ c.requiredFeatures,
        k ∈ reg.featureConfs.map (fun c => c.key)) →
      ∃ r1, testRunner.runFeatures env (reg.featureConfs.length + 1) (newTestRunner reg)
          = some (.ok r1) ∧ r1.nextFeature = .ok none) := by
  have hdone : ∀ n : Nat, doneInv reg.featureConfs.length
      ((newTestRunner reg).featureIter env n) := fun n =>
    doneInv_featureIter env reg hns _ n _ (sameConf_refl _) (doneInv_newTestRunner reg)
  have hterm : ∃ x, testRunner.runFeatures env (reg.featureConfs.length + 1)
      (newTestRunner reg) = some x := by
    apply runFeatures_terminates env reg hns _ _ (sameConf_refl _)
    have := (doneInv_newTestRunner reg).2.2
    omega
  refine ⟨?_, ?_, ?_, ?_⟩
  · intro n i hn
    rw [featureIter_succ, hn]
    exact skipCount_step env hn
      (noSkip_of_sameConf (sameConf_featureIter env n (newTestRunner reg)) hns)
  · intro n
    obtain ⟨h1, _, h3⟩ := hdone n
    exact ⟨h1, by omega⟩
  · obtain ⟨x, hx⟩ := hterm
    refine ⟨x, hx, ?_⟩
    cases x with
    | error e => exact Or.inl ⟨e, rfl⟩
    | ok r1 =>
      right
      obtain ⟨he, hfix⟩ := runFeatures_eq_some env _ _ r1 hx
      obtain ⟨h1, _, h3⟩ := hdone (reg.featureConfs.length + 1)
      rw [← he] at h1 h3
      exact ⟨r1, rfl, hfix, h1, by omega⟩
  · intro hreg
    obtain ⟨x, hx⟩ := hterm
    cases x with
    | error e =>
      exact absurd hx (runFeatures_no_error env reg _ _ (sameConf_refl _) hreg e)
    | ok r1 => exact ⟨r1, hx, (runFeatures_eq_some env _ _ r1 hx).2⟩

/-- Witness of C25, amended: the registry of `TestValidator`. -/
theorem feature_loop_terminates_witness :
    ∃ x, testRunner.runFeatures ⟨"[TIME]", false⟩ 8
        (newTestRunner (testValidatorRegistry ⟨"[TIME]", false⟩)) = some x :=
  match (feature_loop_terminates ⟨"[TIME]", false⟩ (testValidatorRegistry ⟨"[TIME]", false⟩)
    (by
      intro c hc
      simp only [testValidatorRegistry, registerAll, List.foldl, register, RegisterFeature,
        RegisterStory, RegisterTest, emptyRegistry] at hc
      simp at hc
      rcases hc with rfl | rfl | rfl | rfl | rfl | rfl | rfl <;>
        exact ⟨_, rfl, fun _ => by simp; decide⟩)).2.2.1 with
  | ⟨x, hx, _⟩ => ⟨x, hx⟩

/-! ## The origin of `Defect` -/

theorem callChecker_status_ok (env : LogEnv) (hist : List Event) (recorder : Recorder)
    (c : Option (List Event → CheckerOutcome)) (s : FeatureStatus)
    (h : (callChecker env hist recorder c).2 = s) (hs : s ≠ FeatureSkip)
    (hf : s ≠ FeatureFail) : ∃ chk, c = some chk ∧ (chk hist).result = .ok s := by
  cases c with
  | none =>
    simp only [callChecker] at h
    exact absurd h.symm hs
  | some chk =>
    refine ⟨chk, rfl, ?_⟩
    cases hr : (chk hist).result with
    | error e =>
      simp only [callChecker, hr] at h
      exact absurd h.symm hf
    | ok st =>
      simp only [callChecker, hr] at h
      rw [h]

theorem originInv_step (env : LogEnv) {r : testRunner} {i : Nat} (hinv : originInv env r)
    (hn : r.nextFeature = .ok (some i)) : originInv env (r.runFeatureChecker env i) := by
  obtain ⟨f, hf, _, _⟩ := nextFeature_some hn
  obtain ⟨f1, hc, hst, _, hfe, _, _, _, htr⟩ := runFeatureChecker_eq env hf
  intro x g hg hns
  rw [hfe, getElem?_set_of_some hf] at hg
  by_cases hix : i = x
  · subst hix
    simp only [if_true, Option.some.injEq] at hg
    subst hg
    refine ⟨r.trace, [], htr, ?_⟩
    rw [hst, hc]
  · simp only [if_neg hix] at hg
    obtain ⟨hist, rest, h1, h2⟩ := hinv x g hg hns
    refine ⟨hist, rest ++ [Event.check i], ?_, h2⟩
    rw [htr, h1]
    simp

theorem originInv_featureIter (env : LogEnv) (n : Nat) (r : testRunner)
    (hinv : originInv env r) : originInv env (testRunner.featureIter env n r) := by
  induction n generalizing r with
  | zero => exact hinv
  | succ n ih =>
    rw [testRunner.featureIter]
    cases hn : r.nextFeature with
    | error e => exact hinv
    | ok o =>
      cases o with
      | none => exact hinv
      | some i => exact ih _ (originInv_step env hinv hn)

theorem originInv_newTestRunner (env : LogEnv) (reg : Registry) :
    originInv env (newTestRunner reg) := by
  intro i f hf hns
  exact absurd (newTestRunner_fresh reg i f hf).1 hns

theorem sameConf_runTestsFrom (env : LogEnv) (j : Nat) (ts : List testConf)
    (r rf : testRunner) (h : testRunner.runTestsFrom env j ts r = .ok rf) : sameConf r rf := by
  induction ts generalizing r j with
  | nil =>
    simp only [testRunner.runTestsFrom, Except.ok.injEq] at h
    subst h
    exact sameConf_refl _
  | cons t rest ih =>
    rw [testRunner.runTestsFrom] at h
    cases hc : r.checkRequiredFeatures t.features with
    | error e => rw [hc] at h; cases h
    | ok b =>
      rw [hc] at h
      cases b with
      | false => exact ih (j + 1) r h
      | true =>
        simp only [] at h
        cases hr : r.runTest env j t with
        | error e => rw [hr] at h; cases h
        | ok r1 =>
          rw [hr] at h
          simp only [] at h
          exact sameConf_trans (sameConf_runTest env r r1 j t hr) (ih (j + 1) r1 h)

/-- What one executed test does to a feature: its records are extended, and its
status stays or goes from `Pass` to `Defect`; in the latter case the test
failed, lists a key naming the feature, and attached its closing record. -/
theorem runTest_defect (env : LogEnv) (r r1 : testRunner) (j : Nat) (t : testConf)
    (h : r.runTest env j t = .ok r1) (idx : Nat) (f : featureInfo)
    (hf : r.features[idx]? = some f) :
    r1.trace = r.trace ++ [Event.test j] ∧
    ∃ f1, r1.features[idx]? = some f1 ∧ (∃ ext, f1.records = f.records ++ ext) ∧
      (f1.status = f.status ∨
        (f.status = FeaturePass ∧ f1.status = FeatureDefect ∧
          (callTest env r.trace (newRecorder t.description) t.testF).Success = false ∧
          (∃ k ∈ t.features, r.featuresMap.lookup k = some idx) ∧
          closingRecord env (callTest env r.trace (newRecorder t.description) t.testF)
            FeatureDefect ∈ f1.records)) := by
  unfold testRunner.runTest at h
  obtain ⟨_, htr, _⟩ := testEvol_runTestLoop env _ _ _ _ h
  obtain ⟨_, hev⟩ := runTestLoop_eq env _ _ _ _ h
  refine ⟨htr, ?_⟩
  have hev1 := hev idx f hf
  by_cases hl : listings { r with trace := r.trace ++ [Event.test j] } t.features idx = 0
  · rw [if_pos hl] at hev1
    exact ⟨f, hev1, ⟨[], by simp⟩, Or.inl rfl⟩
  · rw [if_neg hl] at hev1
    refine ⟨_, hev1, ⟨_, rfl⟩, ?_⟩
    simp only []
    by_cases hcond : (callTest env r.trace (newRecorder t.description) t.testF).Success = false
        ∧ f.status = FeaturePass
    · right
      have hdown : downgraded (callTest env r.trace (newRecorder t.description) t.testF)
          f.status = FeatureDefect := by
        unfold downgraded
        rw [if_pos hcond]
      refine ⟨hcond.2, hdown, hcond.1, ?_, ?_⟩
      · have hpos : 0 < listings { r with trace := r.trace ++ [Event.test j] } t.features idx :=
          Nat.pos_of_ne_zero hl
        unfold listings at hpos
        obtain ⟨k, hk, hk1⟩ := List.countP_pos_iff.1 hpos
        exact ⟨k, hk, by simpa using hk1⟩
      · rw [hdown]
        apply List.mem_append_right
        cases hn : listings { r with trace := r.trace ++ [Event.test j] } t.features idx with
        | zero => exact absurd hn hl
        | succ m => simp [List.replicate_succ]
    · left
      unfold downgraded
      rw [if_neg hcond]

/-- What the second loop of `run` does to a feature: its records are extended,
and its status stays or goes from `Pass` to `Defect`; in the latter case a
failed test that lists the feature attached a record to it. -/
theorem runTestsFrom_defect (env : LogEnv) (j : Nat) (ts : List testConf)
    (r rf : testRunner) (h : testRunner.runTestsFrom env j ts r = .ok rf)
    (hts : ∀ (a : Nat) (t : testConf), ts[a]? = some t → r.tests[j + a]? = some t)
    (idx : Nat) (f : featureInfo) (hf : r.features[idx]? = some f) :
    ∃ f1, rf.features[idx]? = some f1 ∧ (∃ ext, f1.records = f.records ++ ext) ∧
      (f1.status = f.status ∨
        (f.status = FeaturePass ∧ f1.status = FeatureDefect ∧
          ∃ rec ∈ f1.records, failedTestRecord env rf idx rec)) := by
  induction ts generalizing r j f with
  | nil =>
    simp only [testRunner.runTestsFrom, Except.ok.injEq] at h
    subst h
    exact ⟨f, hf, ⟨[], by simp⟩, Or.inl rfl⟩
  | cons t rest ih =>
    have hts1 : ∀ (a : Nat) (t1 : testConf), rest[a]? = some t1 →
        r.tests[j + 1 + a]? = some t1 := by
      intro a t1 ha
      have := hts (a + 1) t1 (by simpa using ha)
      rw [show j + 1 + a = j + (a + 1) by omega]
      exact this
    have ht0 : r.tests[j]? = some t := by
      have := hts 0 t (by simp)
      simpa using this
    rw [testRunner.runTestsFrom] at h
    cases hc : r.checkRequiredFeatures t.features with
    | error e => rw [hc] at h; cases h
    | ok b =>
      rw [hc] at h
      cases b with
      | false => exact ih (j + 1) r h hts1 f hf
      | true =>
        simp only [] at h
        cases hr : r.runTest env j t with
        | error e => rw [hr] at h; cases h
        | ok r1 =>
          rw [hr] at h
          simp only [] at h
          have hs1 := sameConf_runTest env r r1 j t hr
          have hsf := sameConf_runTestsFrom env (j + 1) rest r1 rf h
          obtain ⟨htr, f1, h1, ⟨ext1, hext1⟩, h2⟩ := runTest_defect env r r1 j t hr idx f hf
          obtain ⟨f2, h3, ⟨ext2, hext2⟩, h4⟩ :=
            ih (j + 1) r1 h (by rw [hs1.2.1]; exact hts1) f1 h1
          refine ⟨f2, h3, ⟨ext1 ++ ext2, by rw [hext2, hext1, List.append_assoc]⟩, ?_⟩
          rcases h2 with h2 | ⟨hp, hd, hfail, hlist, hrec⟩
          · rw [h2] at h4
            exact h4
          · right
            have hst2 : f2.status = FeatureDefect := by
              rcases h4 with h4 | h4
              · rw [h4]; exact hd
              · exact h4.2.1
            refine ⟨hp, hst2,
              closingRecord env (callTest env r.trace (newRecorder t.description) t.testF)
                FeatureDefect, ?_, ?_⟩
            · rw [hext2]
              exact List.mem_append_left _ hrec
            · obtain ⟨js, hjs, _⟩ := runTestsFrom_trace env (j + 1) rest r1 rf h
              obtain ⟨k, hk, hk1⟩ := hlist
              refine ⟨j, t, r.trace, js.map Event.test, ?_, ?_, ⟨k, hk, ?_⟩, hfail, rfl⟩
              · rw [hsf.2.1, hs1.2.1]
                exact ht0
              · rw [hjs, htr]
                simp
              · rw [hsf.1, hs1.1]
                exact hk1

/-- C23: on `defectCheckerRegistry` the report of `RunAll` gives `A` the status
`DEFECT` although its checker returned `Defect`, not `Pass`, and no test was
executed: the only record is that of the checker. -/
theorem checker_returned_defect :
    RunAll ⟨"[TIME]", false⟩ 2 defectCheckerRegistry
      = some (.ok { Stories := [],
                    Features := [⟨"A", "describe A", FeatureDefect,
                      [⟨"check A(describe A)",
                        ["[TIME] check finish. success=false, feature.status=DEFECT"],
                        false⟩]⟩] }) ∧
    defectCheckerRegistry.testConfs = [] ∧
    ∀ c ∈ defectCheckerRegistry.featureConfs, ∀ chk, c.checkF = some chk →
      ∀ hist, (chk hist).result = .ok FeatureDefect := by
  refine ⟨rfl, rfl, ?_⟩
  intro c hc chk hchk hist
  simp only [defectCheckerRegistry, List.mem_singleton] at hc
  subst hc
  simp only [Option.some.injEq] at hchk
  subst hchk
  rfl

/-- What the code gives about `Defect`: when a run ends, every feature whose
status is `Defect`
either was given that status by its own checker, which returned `Defect`, or
has passed the checker but failed in some test: its checker returned `Pass`
and one of its records was attached by an executed test that lists it and
failed, with `Success` false.  So it is for every feature report with status
`DEFECT` in the returned report. -/
theorem defect_origin (env : LogEnv) (reg : Registry) (fuel : Nat) (rf : testRunner)
    (hrun : (newTestRunner reg).run env fuel = some (.ok rf)) :
    (∀ (i : Nat) (f : featureInfo), rf.features[i]? = some f → f.status = FeatureDefect →
      checkerReturned rf i f.conf FeatureDefect ∨
        (checkerReturned rf i f.conf FeaturePass ∧
          ∃ rec ∈ f.records, rec.Success = false ∧ failedTestRecord env rf i rec)) ∧
    (∀ rep, rf.report = .ok rep →
      ∀ fr, (fr ∈ rep.Features ∨ ∃ sr ∈ rep.Stories, fr ∈ sr.Features) →
        fr.Status = FeatureDefect →
        ∃ (i : Nat) (f : featureInfo), rf.features[i]? = some f ∧ fr = featureReportOf f ∧
          (checkerReturned rf i f.conf FeatureDefect ∨
            (checkerReturned rf i f.conf FeaturePass ∧
              ∃ rec ∈ fr.Records, rec.Success = false ∧ failedTestRecord env rf i rec))) := by
  obtain ⟨htests, _⟩ := run_split env fuel _ rf hrun
  have horig := originInv_featureIter env fuel _ (originInv_newTestRunner env reg)
  have hs := sameConf_runTestsFrom env 0 _ _ rf htests
  obtain ⟨js, hjs, _⟩ := runTestsFrom_trace env 0 _ _ rf htests
  have main : ∀ (i : Nat) (f : featureInfo), rf.features[i]? = some f →
      f.status = FeatureDefect →
      checkerReturned rf i f.conf FeatureDefect ∨
        (checkerReturned rf i f.conf FeaturePass ∧
          ∃ rec ∈ f.records, rec.Success = false ∧ failedTestRecord env rf i rec) := by
    intro i f hf hd
    obtain ⟨f1, hf1⟩ := getElem?_of_sameConf hs hf
    have hconf : f.conf = f1.conf := conf_of_sameConf hs hf1 hf
    obtain ⟨f2, hf2, _, hst⟩ := runTestsFrom_defect env 0 _ _ rf htests
      (by intro a t ha; simpa using ha) i f1 hf1
    rw [hf] at hf2
    have hfe : f = f2 := Option.some.inj hf2
    subst hfe
    have hret : ∀ s, f1.status = s → s ≠ FeatureSkip → s ≠ FeatureFail →
        checkerReturned rf i f.conf s := by
      intro s hs1 hns hnf
      obtain ⟨hist, rest, htr, hcall⟩ := horig i f1 hf1 (by rw [hs1]; exact hns)
      rw [hs1] at hcall
      obtain ⟨chk, hchk, hres⟩ := callChecker_status_ok env hist _ _ s hcall.symm hns hnf
      refine ⟨chk, hist, rest ++ js.map Event.test, by rw [hconf]; exact hchk, ?_, hres⟩
      rw [hjs, htr]
      simp
    rcases hst with h | ⟨hp, _, rec, hrec, hfr⟩
    · left
      exact hret FeatureDefect (by rw [← h]; exact hd) (by decide) (by decide)
    · right
      refine ⟨hret FeaturePass hp (by decide) (by decide), rec, hrec, ?_, hfr⟩
      obtain ⟨_, _, _, _, _, _, _, hfail, he⟩ := hfr
      rw [he]
      exact hfail
  refine ⟨main, ?_⟩
  intro rep hrep fr hfr hst
  obtain ⟨i, f, hf, he⟩ := report_mem hrep hfr
  have hd : f.status = FeatureDefect := by
    rw [he] at hst
    exact hst
  refine ⟨i, f, hf, he, ?_⟩
  rw [he]
  exact main i f hf hd

/-- An instance of `defect_origin`: in `failingTestRegistry` the checker of `G` returns
`Pass` and `test G` fails, which leaves `G` at `Defect`. -/
theorem defect_origin_witness :
    checkerReturned failingTestFinal 0 failingTestFeature.conf FeatureDefect ∨
      (checkerReturned failingTestFinal 0 failingTestFeature.conf FeaturePass ∧
        ∃ rec ∈ failingTestFeature.records, rec.Success = false ∧
          failedTestRecord ⟨"[TIME]", false⟩ failingTestFinal 0 rec) :=
  (defect_origin ⟨"[TIME]", false⟩ failingTestRegistry 2 failingTestFinal (by rfl)).1 0
    failingTestFeature (by rfl) rfl

/-! ## The records of a `Pass` feature -/

/-- C22: on `skipThenPassRegistry` the first loop of `run` invokes the checker of
`A` twice, the first invocation returning `Skip` and the second `Pass`; the
report of `RunAll` gives `A` the status `PASS` with both checker records, and
the first of them has `Success` false. -/
theorem pass_keeps_failed_record :
    ((newTestRunner skipThenPassRegistry).featureIter ⟨"[TIME]", false⟩ 2).trace
      = [Event.check 0, Event.check 0] ∧
    RunAll ⟨"[TIME]", false⟩ 3 skipThenPassRegistry
      = some (.ok { Stories := [],
                    Features := [⟨"A", "describe A", FeaturePass,
                      [⟨"check A(describe A)",
                        ["[TIME] check finish. success=false, feature.status=SKIP"],
                        false⟩,
                       ⟨"check A(describe A)",
                        ["[TIME] check finish. success=true, feature.status=PASS"],
                        true⟩]⟩] }) :=
  ⟨rfl, rfl⟩

/-! ## A status stored twice -/

/-- C6: on `skipThenPassRegistry` the status of `A` is replaced by the outcome of
its checker twice.  The first iteration of the first loop of `run` stores the
outcome `Skip` of the first invocation; the feature is selected again, and the
second iteration stores the outcome `Pass` of the second invocation, which
`RunAll` reports. -/
theorem status_replaced_twice :
    (newTestRunner skipThenPassRegistry).nextFeature = .ok (some 0) ∧
    ((newTestRunner skipThenPassRegistry).featureIter ⟨"[TIME]", false⟩ 1).features.map
        (fun f => (f.status, f.records.length)) = [(FeatureSkip, 1)] ∧
    ((newTestRunner skipThenPassRegistry).featureIter ⟨"[TIME]", false⟩ 1).nextFeature
      = .ok (some 0) ∧
    ((newTestRunner skipThenPassRegistry).featureIter ⟨"[TIME]", false⟩ 2).features.map
        (fun f => (f.status, f.records.length)) = [(FeaturePass, 2)] ∧
    ((newTestRunner skipThenPassRegistry).featureIter ⟨"[TIME]", false⟩ 2).trace
      = [Event.check 0, Event.check 0] ∧
    (∃ rep, RunAll ⟨"[TIME]", false⟩ 3 skipThenPassRegistry = some (.ok rep) ∧
      rep.Features.map (fun fr => fr.Status) = [FeaturePass]) :=
  ⟨rfl, by decide, rfl, by decide, rfl, _, rfl, by decide⟩

/-! ## Slices and backing arrays -/

theorem Slice.read_length {h : Heap} {s : Slice} (hv : s.valid h) :
    (s.read h).length = s.len := by
  obtain ⟨h1, h2⟩ := hv
  rcases h2 with h2 | ⟨a, ha, hc⟩
  · have : s.len = 0 := by omega
    unfold Slice.read
    cases h[s.arr]? <;> simp [this]
  · unfold Slice.read
    rw [ha]
    simp only [List.length_take]
    omega

theorem Slice.valid_mono {h h1 : Heap} {s : Slice} (hp : h <+: h1) (hv : s.valid h) :
    s.valid h1 ∧ s.read h1 = s.read h := by
  obtain ⟨t, rfl⟩ := hp
  obtain ⟨h1, h2⟩ := hv
  rcases h2 with h2 | ⟨a, ha, hc⟩
  · have h0 : s.len = 0 := by omega
    refine ⟨⟨h1, Or.inl h2⟩, ?_⟩
    unfold Slice.read
    cases (h ++ t)[s.arr]? <;> cases h[s.arr]? <;> simp [h0]
  · have hlt : s.arr < h.length := (List.getElem?_eq_some.1 ha).1
    have ha1 : (h ++ t)[s.arr]? = some a := by
      rw [List.getElem?_append_left hlt]
      exact ha
    refine ⟨⟨h1, Or.inr ⟨a, ha1, hc⟩⟩, ?_⟩
    unfold Slice.read
    rw [ha1, ha]

theorem take_set_succ (a : List String) (n : Nat) (x : String) (hn : n < a.length) :
    (a.set n x).take (n + 1) = a.take n ++ [x] := by
  induction a generalizing n with
  | nil => simp at hn
  | cons b rest ih =>
    cases n with
    | zero => simp
    | succ m =>
      simp only [List.length_cons, Nat.add_lt_add_iff_right] at hn
      simp [ih m hn]

theorem sliceAppend_alloc (slack : Nat → Nat) (h : Heap) (s : Slice) (x : String)
    (hv : s.valid h) (hfull : ¬ s.len < s.cap) :
    (sliceAppend slack h s x).1
        = h ++ [s.read h ++ x :: List.replicate (slack (s.len + 1)) ""] ∧
      (sliceAppend slack h s x).2.arr = h.length ∧
      (sliceAppend slack h s x).2.valid (sliceAppend slack h s x).1 ∧
      (sliceAppend slack h s x).2.read (sliceAppend slack h s x).1 = s.read h ++ [x] := by
  have hlen := Slice.read_length hv
  unfold sliceAppend
  rw [if_neg hfull]
  have hget : (h ++ [s.read h ++ x :: List.replicate (slack (s.len + 1)) ""])[h.length]?
      = some (s.read h ++ x :: List.replicate (slack (s.len + 1)) "") := by simp
  refine ⟨rfl, rfl, ?_, ?_⟩
  · refine ⟨Nat.le_add_right _ _, Or.inr ⟨_, hget, ?_⟩⟩
    simp [hlen]
    omega
  · have hsplit : s.read h ++ x :: List.replicate (slack (s.len + 1)) ""
        = (s.read h ++ [x]) ++ List.replicate (slack (s.len + 1)) "" := by simp
    show Slice.read _ ⟨h.length, s.len + 1, _⟩ = _
    rw [Slice.read, hget]
    simp only []
    rw [hsplit, List.take_append_of_le_length (by simp [hlen])]
    exact List.take_of_length_le (by simp [hlen])

theorem set_keeps_base {h0 h : Heap} (hp : h0 <+: h) (n : Nat) (v : List String)
    (hn : h0.length ≤ n) : h0 <+: h.set n v := by
  obtain ⟨t, rfl⟩ := hp
  refine ⟨t.set (n - h0.length) v, ?_⟩
  rw [List.set_append]
  rw [if_neg (by omega)]

theorem sliceAppend_private (slack : Nat → Nat) (h0 h : Heap) (s : Slice) (x : String)
    (hp : h0 <+: h) (hv : s.valid h) (hpriv : s.cap = 0 ∨ h0.length ≤ s.arr) :
    h0 <+: (sliceAppend slack h s x).1 ∧
      (sliceAppend slack h s x).2.valid (sliceAppend slack h s x).1 ∧
      ((sliceAppend slack h s x).2.cap = 0 ∨ h0.length ≤ (sliceAppend slack h s x).2.arr) ∧
      (sliceAppend slack h s x).2.read (sliceAppend slack h s x).1 = s.read h ++ [x] := by
  by_cases hfull : s.len < s.cap
  · have hc0 : s.cap ≠ 0 := by omega
    obtain ⟨_, hv2⟩ := hv
    rcases hv2 with hv2 | ⟨a, ha, hc⟩
    · exact absurd hv2 hc0
    · have harr : h0.length ≤ s.arr := by
        rcases hpriv with h1 | h1
        · exact absurd h1 hc0
        · exact h1
      have hlt : s.arr < h.length := (List.getElem?_eq_some.1 ha).1
      unfold sliceAppend
      rw [if_pos hfull, ha]
      simp only []
      have hget : (h.set s.arr (a.set s.len x))[s.arr]? = some (a.set s.len x) := by
        rw [List.getElem?_set_self]
        simp [hlt]
      refine ⟨set_keeps_base hp _ _ harr,
        ⟨Nat.succ_le_of_lt hfull, Or.inr ⟨_, hget, by simp; exact hc⟩⟩, Or.inr harr, ?_⟩
      simp only [Slice.read, hget, ha]
      exact take_set_succ a s.len x (by omega)
  · obtain ⟨h1, h2, h3, h4⟩ := sliceAppend_alloc slack h s x hv hfull
    refine ⟨?_, h3, Or.inr ?_, h4⟩
    · rw [h1]
      exact hp.trans (List.prefix_append _ _)
    · rw [h2]
      exact hp.length_le

/-- Two appends through one slice header with spare capacity write the same
cell of the backing array: the slice returned by the first append then shows
the element of the second. -/
theorem sliceAppend_shares :
    (sliceAppend (fun _ => 0) [["a", "", ""]] ⟨0, 1, 3⟩ "x").2.read
        (sliceAppend (fun _ => 0) (sliceAppend (fun _ => 0) [["a", "", ""]] ⟨0, 1, 3⟩ "x").1
          ⟨0, 1, 3⟩ "y").1 = ["a", "y"] := by
  decide

theorem RecorderM.log_fresh (slack : Nat → Nat) (env : LogEnv) (h0 h : Heap) (r : RecorderM)
    (logCaller : Bool) (pos msg : String) (hf : r.Logs.fresh h0 h) :
    (r.log slack env h logCaller pos msg).2.Logs.fresh h0
        (r.log slack env h logCaller pos msg).1 ∧
      (r.log slack env h logCaller pos msg).2.value (r.log slack env h logCaller pos msg).1
        = (r.value h).log env logCaller pos msg := by
  obtain ⟨hp, hv, hpriv⟩ := hf
  obtain ⟨h1, h2, h3, h4⟩ := sliceAppend_private slack h0 h r.Logs
    (logLine env logCaller pos msg) hp hv hpriv
  refine ⟨⟨h1, h2, h3⟩, ?_⟩
  simp only [RecorderM.log, RecorderM.value, Recorder.log, h4]

theorem RecorderM.userLogs_fresh (slack : Nat → Nat) (env : LogEnv) (h0 h : Heap)
    (r : RecorderM) (logs : List LogCall) (hf : r.Logs.fresh h0 h) :
    (r.userLogs slack env h logs).2.Logs.fresh h0 (r.userLogs slack env h logs).1 ∧
      (r.userLogs slack env h logs).2.value (r.userLogs slack env h logs).1
        = (r.value h).userLogs env logs := by
  induction logs generalizing h r with
  | nil => exact ⟨hf, rfl⟩
  | cons l ls ih =>
    obtain ⟨h1, h2⟩ := RecorderM.log_fresh slack env h0 h r env.LogFileLine l.pos l.msg hf
    obtain ⟨h3, h4⟩ := ih _ _ h1
    refine ⟨h3, ?_⟩
    rw [RecorderM.userLogs, Recorder.userLogs, Recorder.Log, ← h2]
    exact h4

theorem callTestM_fresh (slack : Nat → Nat) (env : LogEnv) (hist : List Event) (h0 h : Heap)
    (r : RecorderM) (f : Option (List Event → TestOutcome)) (hf : r.Logs.fresh h0 h) :
    (callTestM slack env hist h r f).2.Logs.fresh h0 (callTestM slack env hist h r f).1 ∧
      (callTestM slack env hist h r f).2.value (callTestM slack env hist h r f).1
        = callTest env hist (r.value h) f := by
  cases f with
  | none => exact ⟨hf, rfl⟩
  | some t =>
    obtain ⟨h1, h2⟩ := RecorderM.userLogs_fresh slack env h0 h r (t hist).logs hf
    cases ha : (t hist).abort with
    | none =>
      simp only [callTestM, callTest, ha]
      refine ⟨h1, ?_⟩
      rw [← h2]
      rfl
    | some err =>
      simp only [callTestM, callTest, ha]
      obtain ⟨h3, h4⟩ := RecorderM.log_fresh slack env h0 _ _ false "" err h1
      refine ⟨h3, ?_⟩
      rw [h4, h2]

theorem newRecorderM_fresh (h : Heap) (description : String) :
    (newRecorderM description).Logs.fresh h h ∧
      (newRecorderM description).value h = newRecorder description := by
  refine ⟨⟨List.prefix_refl _, ⟨Nat.le_refl _, Or.inl rfl⟩, Or.inl rfl⟩, ?_⟩
  simp only [newRecorderM, RecorderM.value, newRecorder, Slice.read]
  cases h[0]? <;> simp

/-- The closing line is logged on a copy: the append allocates a new array,
because the capacity of the copy is its length, and writes no existing one. -/
theorem RecorderM.copy_Log (slack : Nat → Nat) (env : LogEnv) (h : Heap) (r : RecorderM)
    (pos msg : String) (hv : r.Logs.valid h) :
    h <+: (r.copy.Log slack env h pos msg).1 ∧
      (r.copy.Log slack env h pos msg).2.Logs.valid (r.copy.Log slack env h pos msg).1 ∧
      (r.copy.Log slack env h pos msg).2.value (r.copy.Log slack env h pos msg).1
        = (r.value h).copy.Log env pos msg := by
  have hvc : r.copy.Logs.valid h := by
    obtain ⟨h1, h2⟩ := hv
    refine ⟨Nat.le_refl _, ?_⟩
    rcases h2 with h2 | ⟨a, ha, hc⟩
    · left
      show r.Logs.len = 0
      omega
    · exact Or.inr ⟨a, ha, Nat.le_trans h1 hc⟩
  obtain ⟨h1, _, h3, h4⟩ := sliceAppend_alloc slack h r.copy.Logs
    (logLine env env.LogFileLine pos msg) hvc (Nat.lt_irrefl _)
  refine ⟨?_, h3, ?_⟩
  · show h <+: (sliceAppend slack h r.copy.Logs (logLine env env.LogFileLine pos msg)).1
    rw [h1]
    exact List.prefix_append _ _
  · simp only [RecorderM.Log, RecorderM.log, RecorderM.value, Recorder.Log, Recorder.log,
      Recorder.copy, h4]
    rfl

theorem featureInfoM.value_mono {h h1 : Heap} {f : featureInfoM} (hp : h <+: h1)
    (hv : ∀ rec ∈ f.records, rec.Logs.valid h) :
    f.value h1 = f.value h ∧ ∀ rec ∈ f.records, rec.Logs.valid h1 := by
  refine ⟨?_, fun rec hrec => (Slice.valid_mono hp (hv rec hrec)).1⟩
  simp only [featureInfoM.value, featureInfo.mk.injEq, true_and]
  apply List.map_congr_left
  intro rec hrec
  simp only [RecorderM.value, (Slice.valid_mono hp (hv rec hrec)).2]

theorem runTestBodyM_value (slack : Nat → Nat) (env : LogEnv) (h : Heap) (recorder : RecorderM)
    (f : featureInfoM) (hr : recorder.Logs.valid h)
    (hv : ∀ rec ∈ f.records, rec.Logs.valid h) :
    h <+: (runTestBodyM slack env h recorder f).1 ∧
      (runTestBodyM slack env h recorder f).2.value (runTestBodyM slack env h recorder f).1
        = runTestBody env (recorder.value h) (f.value h) ∧
      ∀ rec ∈ (runTestBodyM slack env h recorder f).2.records,
        rec.Logs.valid (runTestBodyM slack env h recorder f).1 := by
  obtain ⟨h1, h2, h3⟩ := RecorderM.copy_Log slack env h recorder "runner.go:126"
    (testFinish recorder.copy.Success
      (if recorder.Success = false ∧ f.status = FeaturePass then FeatureDefect else f.status))
    hr
  obtain ⟨h4, h5⟩ := featureInfoM.value_mono h1 hv
  refine ⟨h1, ?_, ?_⟩
  · simp only [featureInfoM.value, featureInfo.mk.injEq] at h4
    simp only [runTestBodyM, featureInfoM.value, runTestBody, List.map_append, List.map_cons,
      List.map_nil, h3, h4]
    rfl
  · intro rec hrec
    simp only [runTestBodyM, List.mem_append, List.mem_singleton] at hrec
    rcases hrec with hrec | hrec
    · exact h5 rec hrec
    · rw [hrec]
      exact h2

theorem testRunnerM.lookupFeature_value (r : testRunnerM) (key : String) :
    r.value.lookupFeature key
      = (r.lookupFeature key).map (fun p => (p.1, p.2.value r.heap)) := by
  simp only [testRunner.lookupFeature, testRunnerM.lookupFeature, testRunnerM.value]
  cases r.featuresMap.lookup key with
  | none => rfl
  | some i =>
    simp only [List.getElem?_map]
    cases r.features[i]? <;> rfl

/-- The loop of `runTest` on slices does to the contents what the loop on
values does, and writes no backing array that existed before. -/
theorem testRunnerM.runTestLoop_value (slack : Nat → Nat) (env : LogEnv)
    (recorder : RecorderM) (keys : List String) (r : testRunnerM) (hwf : r.wf)
    (hr : recorder.Logs.valid r.heap) :
    testRunner.runTestLoop env (recorder.value r.heap) keys r.value
        = (testRunnerM.runTestLoop slack env recorder keys r).map testRunnerM.value ∧
      ∀ r1, testRunnerM.runTestLoop slack env recorder keys r = .ok r1 →
        r1.wf ∧ r.heap <+: r1.heap := by
  induction keys generalizing r with
  | nil =>
    refine ⟨rfl, ?_⟩
    intro r1 h1
    simp only [testRunnerM.runTestLoop, Except.ok.injEq] at h1
    subst h1
    exact ⟨hwf, List.prefix_refl _⟩
  | cons k ks ih =>
    have hl := testRunnerM.lookupFeature_value r k
    cases hlm : r.lookupFeature k with
    | none =>
      rw [hlm] at hl
      simp only [testRunner.runTestLoop, testRunnerM.runTestLoop, hl, hlm, Option.map_none']
      exact ⟨rfl, fun r1 h1 => by cases h1⟩
    | some p =>
      obtain ⟨i, f⟩ := p
      rw [hlm] at hl
      simp only [Option.map_some'] at hl
      have hfi : r.features[i]? = some f := by
        unfold testRunnerM.lookupFeature at hlm
        cases hm : r.featuresMap.lookup k with
        | none => rw [hm] at hlm; cases hlm
        | some i1 =>
          rw [hm] at hlm
          simp only [] at hlm
          cases hf1 : r.features[i1]? with
          | none => rw [hf1] at hlm; cases hlm
          | some f1 =>
            rw [hf1] at hlm
            simp only [Option.some.injEq, Prod.mk.injEq] at hlm
            rw [← hlm.1, ← hlm.2]
            exact hf1
      have hfmem : f ∈ r.features := List.mem_iff_getElem?.2 ⟨i, hfi⟩
      obtain ⟨hb1, hb2, hb3⟩ := runTestBodyM_value slack env r.heap recorder f hr
        (hwf f hfmem)
      have hwf1 : testRunnerM.wf
          { r with features := r.features.set i (runTestBodyM slack env r.heap recorder f).2,
                   heap := (runTestBodyM slack env r.heap recorder f).1 } := by
        intro g hg rec hrec
        rcases List.mem_or_eq_of_mem_set hg with hg1 | hg1
        · exact (Slice.valid_mono hb1 (hwf g hg1 rec hrec)).1
        · rw [hg1] at hrec
          exact hb3 rec hrec
      have hr1 := Slice.valid_mono hb1 hr
      have hval : testRunnerM.value
          { r with features := r.features.set i (runTestBodyM slack env r.heap recorder f).2,
                   heap := (runTestBodyM slack env r.heap recorder f).1 }
          = r.value.setFeature i (runTestBody env (recorder.value r.heap) (f.value r.heap)) := by
        simp only [testRunnerM.value, testRunner.setFeature, List.map_set, hb2,
          testRunner.mk.injEq, and_true]
        congr 1
        apply List.map_congr_left
        intro g hg
        exact (featureInfoM.value_mono hb1 (hwf g hg)).1
      obtain ⟨ih1, ih2⟩ := ih _ hwf1 hr1.1
      have hrv : recorder.value (runTestBodyM slack env r.heap recorder f).1
          = recorder.value r.heap := by
        simp only [RecorderM.value, hr1.2]
      refine ⟨?_, ?_⟩
      · rw [testRunner.runTestLoop, hl, testRunnerM.runTestLoop, hlm]
        simp only []
        rw [← ih1, hval, hrv]
      · intro r1 h1
        rw [testRunnerM.runTestLoop, hlm] at h1
        obtain ⟨h2, h3⟩ := ih2 r1 h1
        exact ⟨h2, hb1.trans h3⟩

/-- Go `runTest` on slices does to the contents what `runTest` on values does,
and writes no backing array that existed before. -/
theorem testRunnerM.runTest_value (slack : Nat → Nat) (env : LogEnv) (r : testRunnerM)
    (j : Nat) (t : testConf) (hwf : r.wf) :
    r.value.runTest env j t = (r.runTest slack env j t).map testRunnerM.value ∧
      ∀ r1, r.runTest slack env j t = .ok r1 → r1.wf ∧ r.heap <+: r1.heap := by
  obtain ⟨hn1, hn2⟩ := newRecorderM_fresh r.heap t.description
  obtain ⟨⟨hp, hv, _⟩, hc2⟩ := callTestM_fresh slack env r.trace r.heap r.heap
    (newRecorderM t.description) t.testF hn1
  rw [hn2] at hc2
  have hwf0 : testRunnerM.wf
      { r with trace := r.trace ++ [Event.test j],
               heap := (callTestM slack env r.trace r.heap (newRecorderM t.description)
                 t.testF).1 } := by
    intro g hg rec hrec
    exact (Slice.valid_mono hp (hwf g hg rec hrec)).1
  have hval : testRunnerM.value
      { r with trace := r.trace ++ [Event.test j],
               heap := (callTestM slack env r.trace r.heap (newRecorderM t.description)
                 t.testF).1 }
      = { r.value with trace := r.value.trace ++ [Event.test j] } := by
    simp only [testRunnerM.value, testRunner.mk.injEq, and_true, true_and]
    apply List.map_congr_left
    intro g hg
    exact (featureInfoM.value_mono hp (hwf g hg)).1
  obtain ⟨h1, h2⟩ := testRunnerM.runTestLoop_value slack env _ t.features _ hwf0 hv
  refine ⟨?_, ?_⟩
  · unfold testRunner.runTest testRunnerM.runTest
    rw [← h1, hval, hc2]
    rfl
  · intro r1 hr1
    obtain ⟨h3, h4⟩ := h2 r1 hr1
    exact ⟨h3, hp.trans h4⟩

/-- C12: an executed test (its gate is open) is run to its end by `runTest`, on
recorders whose logs are slices of backing arrays.  Read through the arrays
after the call, every feature that `n` of the listed keys name has the status
after the downgrade and, after the records it had before, with the contents
they had before, `n` records of the test: the description of the test, its
outcome as `Success` flag, and as logs the lines of the test followed by the
one closing line stating that feature's own status; every other feature is as
it was.  No backing array that existed before the call is written, and each
appended record stays within its own array.  When the listed keys are
pairwise distinct and the map sends each key to a feature carrying that key,
each listed feature gets exactly one record. -/
theorem runTest_appends_copies (slack : Nat → Nat) (env : LogEnv) (r : testRunnerM) (j : Nat)
    (t : testConf) (hwf : r.wf)
    (hgate : r.value.checkRequiredFeatures t.features = .ok true) :
    ∃ r1, r.runTest slack env j t = .ok r1 ∧ r1.wf ∧ r.heap <+: r1.heap ∧
      (∀ (idx : Nat) (f : featureInfo), r.value.features[idx]? = some f →
        r1.value.features[idx]? = some
          (if listings r.value t.features idx = 0 then f
           else { conf := f.conf,
                  status := downgraded
                    (callTest env r.trace (newRecorder t.description) t.testF) f.status,
                  records := f.records ++ List.replicate (listings r.value t.features idx)
                    { Description := t.description,
                      Logs := (callTest env r.trace (newRecorder t.description) t.testF).Logs ++
                        [logLine env env.LogFileLine "runner.go:126"
                          (testFinish
                            (callTest env r.trace (newRecorder t.description) t.testF).Success
                            (downgraded
                              (callTest env r.trace (newRecorder t.description) t.testF)
                              f.status))],
                      Success :=
                        (callTest env r.trace (newRecorder t.description) t.testF).Success } })) ∧
      (∀ k ∈ t.features, ∃ i f, r.value.lookupFeature k = some (i, f) ∧
        0 < listings r.value t.features i) ∧
      (t.features.Nodup →
        (∀ k i, r.featuresMap.lookup k = some i →
          ∃ f, r.value.features[i]? = some f ∧ f.conf.key = k) →
        ∀ k ∈ t.features, ∀ i, r.featuresMap.lookup k = some i →
          listings r.value t.features i = 1) := by
  obtain ⟨rv, hrv, h1, h2, h3⟩ := runTest_appends_records env r.value j t hgate
  obtain ⟨hsim, hframe⟩ := testRunnerM.runTest_value slack env r j t hwf
  cases hm : r.runTest slack env j t with
  | error e =>
    rw [hm, hrv] at hsim
    cases hsim
  | ok r1 =>
    rw [hm, hrv] at hsim
    simp only [Except.map, Except.ok.injEq] at hsim
    subst hsim
    obtain ⟨h4, h5⟩ := hframe r1 hm
    exact ⟨r1, rfl, h4, h5, h1, h2, h3⟩

/-- Witness of C12: a test that logs one line, completes and lists `G`, which is
`Pass` and carries its checker record, and `H`, which is `Defect`; the growth
policy leaves spare cells behind the lines of the recorder.  Each of the two
features gets a record closed by the line stating its own status, and the
checker record of `G` reads as before. -/
theorem runTest_appends_copies_witness :
    ∃ r1, testRunnerM.runTest (fun n => n) ⟨"[TIME]", false⟩
        ⟨[⟨⟨"G", "describe G", [], none⟩, FeaturePass, [⟨"check G(describe G)", ⟨0, 1, 2⟩, true⟩]⟩,
          ⟨⟨"H", "describe H", [], none⟩, FeatureDefect, []⟩],
          [("H", 1), ("G", 0)], [], [], [],
          [["[TIME] check finish. success=true, feature.status=PASS", ""]]⟩
        0 ⟨"test GH", ["G", "H"], some (fun _ => ⟨[⟨"a.go:1", "hello"⟩], none⟩)⟩ = .ok r1 ∧
      (r1.value.features[0]?).map (fun f => (f.status, f.records.map (fun rec => rec.Logs)))
        = some (FeaturePass,
            [["[TIME] check finish. success=true, feature.status=PASS"],
             ["[TIME] hello", "[TIME] test finish. success=true, feature.status=PASS"]]) ∧
      (r1.value.features[1]?).map (fun f => (f.status, f.records.map (fun rec => rec.Logs)))
        = some (FeatureDefect,
            [["[TIME] hello", "[TIME] test finish. success=true, feature.status=DEFECT"]]) := by
  obtain ⟨r1, h1, _, _, h2, _⟩ := runTest_appends_copies (fun n => n) ⟨"[TIME]", false⟩
    ⟨[⟨⟨"G", "describe G", [], none⟩, FeaturePass, [⟨"check G(describe G)", ⟨0, 1, 2⟩, true⟩]⟩,
      ⟨⟨"H", "describe H", [], none⟩, FeatureDefect, []⟩],
      [("H", 1), ("G", 0)], [], [], [],
      [["[TIME] check finish. success=true, feature.status=PASS", ""]]⟩
    0 ⟨"test GH", ["G", "H"], some (fun _ => ⟨[⟨"a.go:1", "hello"⟩], none⟩)⟩
    (by
      intro f hf rec hrec
      simp only [List.mem_cons, List.mem_singleton, List.not_mem_nil, or_false] at hf
      rcases hf with hf | hf
      · subst hf
        simp only [List.mem_singleton] at hrec
        subst hrec
        exact ⟨by decide, Or.inr ⟨_, rfl, by decide⟩⟩
      · subst hf
        cases hrec)
    (by rfl)
  refine ⟨r1, h1, ?_, ?_⟩
  · rw [h2 0 _ rfl]
    decide
  · rw [h2 1 _ rfl]
    decide

end Validator
